import Mathlib

/-!
Verification development for the solver kernel: the incremental STN with
backtracking and explanations (Cesta96 engine, stn/src/cesta.rs), the
DPLL(T) drivers (smt/src/lib.rs) and the VSIDS activity heap facade
(sat/src/heuristic.rs).

The STN is embedded shallowly: the numeric weight type is Int (the source
is generic over an ordered additive numeric type; the tests instantiate it
at 32-bit integers, whose arithmetic never overflows in the scenarios
considered, so Int is the faithful mathematical model).  Rust vectors
become Lean lists; Vec.push is append at the end; Vec.pop drops the last
element.  The trail is kept most-recent-first (Rust pushes and pops at the
end of the vector; our list head is that end).  The pending-activation
VecDeque is kept front-first: push_back appends, pop_front takes the head,
pop_back drops the last element.  The unbounded propagation and cycle
extraction loops take an explicit fuel argument; exhausting fuel (or
hitting an index that the Rust code would panic on) yields the `stuck`
status, which is distinct from both normal results.
-/

namespace STN

/-- A constraint (edge) of the STN, mirroring struct Constraint in cesta.rs. -/
structure Constraint where
  internal : Bool
  active : Bool
  source : Nat
  target : Nat
  weight : Int
deriving Repr, DecidableEq, Inhabited

/-- Trail events, mirroring enum Event in cesta.rs. -/
inductive Event where
  | level (l : Nat)
  | nodeAdded
  | edgeAdded
  | newPendingActivation
  | edgeActivated (e : Nat)
  | forwardUpdate (node : Nat) (previousDist : Int) (previousCause : Option Nat)
  | backwardUpdate (node : Nat) (previousDist : Int) (previousCause : Option Nat)
deriving Repr, DecidableEq

/-- Per-node distance record, mirroring struct Distance in cesta.rs. -/
structure Distance where
  forward : Int
  forwardCause : Option Nat
  forwardPendingUpdate : Bool
  backward : Int
  backwardCause : Option Nat
  backwardPendingUpdate : Bool
deriving Repr, DecidableEq

instance : Inhabited Distance := ⟨⟨0, none, false, 0, none, false⟩⟩

/-- Result of propagate_all, mirroring enum NetworkStatus.  `stuck` is the
extra fuel-exhaustion / panic marker of the embedding. -/
inductive NetworkStatus where
  | consistent
  | inconsistent (cycle : List Nat)
  | stuck
deriving Repr, DecidableEq

/-- The incremental STN state, mirroring struct IncSTN in cesta.rs. -/
structure IncSTN where
  constraints : List Constraint
  activeForwardEdges : List (List Nat)
  activeBackwardEdges : List (List Nat)
  distances : List Distance
  trail : List Event
  pendingActivations : List Nat
  level : Nat
  explanation : List Nat
deriving Repr, DecidableEq

/-- Push x at the end of the i-th inner list (Vec::push on an adjacency list). -/
def listPush (ls : List (List Nat)) (i : Nat) (x : Nat) : List (List Nat) :=
  match ls[i]? with
  | some l => ls.set i (l ++ [x])
  | none => ls

/-- Drop the last element of the i-th inner list (Vec::pop on an adjacency list). -/
def listPopAt (ls : List (List Nat)) (i : Nat) : List (List Nat) :=
  match ls[i]? with
  | some l => ls.set i l.dropLast
  | none => ls

namespace IncSTN

def numNodes (s : IncSTN) : Nat := s.activeForwardEdges.length

def numEdges (s : IncSTN) : Nat := s.constraints.length

def origin (_s : IncSTN) : Nat := 0

/-- Distance record of node n (out-of-range reads yield the default record;
the Rust source would panic there, and every theorem below keeps indices in
range). -/
def dist (s : IncSTN) (n : Nat) : Distance := s.distances.getD n default

def lb (s : IncSTN) (n : Nat) : Int := -(s.dist n).backward

def ub (s : IncSTN) (n : Nat) : Int := (s.dist n).forward

def fdist (s : IncSTN) (n : Nat) : Int := (s.dist n).forward

def bdist (s : IncSTN) (n : Nat) : Int := (s.dist n).backward

def cstr (s : IncSTN) (e : Nat) : Constraint := s.constraints.getD e default

/-- Update the distance record of node n in place. -/
def setDist (s : IncSTN) (n : Nat) (f : Distance → Distance) : IncSTN :=
  match s.distances[n]? with
  | some d => { s with distances := s.distances.set n (f d) }
  | none => s

/-- fn add_constraint: asserts both endpoints exist, then pushes the
constraint and trails EdgeAdded.  The panic is modelled by `none`. -/
def addConstraint (s : IncSTN) (c : Constraint) : Option (IncSTN × Nat) :=
  if c.source < s.numNodes ∧ c.target < s.numNodes then
    some ({ s with constraints := s.constraints ++ [c],
                   trail := .edgeAdded :: s.trail }, s.numEdges)
  else none

/-- fn mark_active: enqueue the edge and trail NewPendingActivation. -/
def markActive (s : IncSTN) (e : Nat) : IncSTN :=
  { s with pendingActivations := s.pendingActivations ++ [e],
           trail := .newPendingActivation :: s.trail }

/-- fn add_node: panics (none) when lb > ub, otherwise pushes the adjacency
rows, trails NodeAdded, adds the two internal bound edges, marks them
active and finally pushes the distance record. -/
def addNode (s : IncSTN) (lbv ubv : Int) : Option (IncSTN × Nat) :=
  if lbv ≤ ubv then
    let id := s.numNodes
    let s1 : IncSTN :=
      { s with activeForwardEdges := s.activeForwardEdges ++ [[]],
               activeBackwardEdges := s.activeBackwardEdges ++ [[]],
               trail := .nodeAdded :: s.trail }
    match addConstraint s1 ⟨true, false, 0, id, ubv⟩ with
    | none => none
    | some (s2, fwd) =>
      match addConstraint s2 ⟨true, false, id, 0, -lbv⟩ with
      | none => none
      | some (s3, bwd) =>
        let s4 := markActive s3 fwd
        let s5 := markActive s4 bwd
        some ({ s5 with
                  distances := s5.distances ++
                    [⟨ubv, some fwd, false, -lbv, some bwd, false⟩] }, id)
  else none

/-- fn add_inactive_edge. -/
def addInactiveEdge (s : IncSTN) (src tgt : Nat) (w : Int) : Option (IncSTN × Nat) :=
  addConstraint s ⟨false, false, src, tgt, w⟩

/-- fn add_edge = add_inactive_edge + mark_active. -/
def addEdge (s : IncSTN) (src tgt : Nat) (w : Int) : Option (IncSTN × Nat) :=
  (addInactiveEdge s src tgt w).map (fun p => (markActive p.1 p.2, p.2))

/-- fn new: the empty structure, add the origin node with domain [0,0],
then clear the trail so that initialization cannot be undone. -/
def new : IncSTN :=
  let s0 : IncSTN := ⟨[], [], [], [], [], [], 0, []⟩
  match addNode s0 0 0 with
  | some (s, _) => { s with trail := [] }
  | none => s0

/-- fn set_backtrack_point. -/
def setBacktrackPoint (s : IncSTN) : IncSTN × Nat :=
  ({ s with level := s.level + 1, trail := .level (s.level + 1) :: s.trail },
   s.level + 1)

/-- Reversal of a single non-Level trail event (the match arms of
undo_to_last_backtrack_point).  A Level event is a no-op here; the undo
loop never passes one to this function. -/
def undoEvent (ev : Event) (s : IncSTN) : IncSTN :=
  match ev with
  | .level _ => s
  | .nodeAdded =>
      { s with activeForwardEdges := s.activeForwardEdges.dropLast,
               activeBackwardEdges := s.activeBackwardEdges.dropLast,
               distances := s.distances.dropLast }
  | .edgeAdded => { s with constraints := s.constraints.dropLast }
  | .newPendingActivation =>
      { s with pendingActivations := s.pendingActivations.dropLast }
  | .edgeActivated e =>
      match s.constraints[e]? with
      | some c =>
          { s with activeForwardEdges := listPopAt s.activeForwardEdges c.source,
                   activeBackwardEdges := listPopAt s.activeBackwardEdges c.target,
                   constraints := s.constraints.set e { c with active := false } }
      | none => s
  | .forwardUpdate n d c =>
      setDist s n (fun x => { x with forward := d, forwardCause := c })
  | .backwardUpdate n d c =>
      setDist s n (fun x => { x with backward := d, backwardCause := c })

/-- The undo loop, recursing over the trail (popped head first).  The
first argument is always the trail of the state, so writing trail := [] in
the base case is the identity there. -/
def undoFrom : List Event → IncSTN → Option Nat × IncSTN
  | [], s => (none, { s with trail := [] })
  | .level l :: rest, s => (some l, { s with trail := rest })
  | ev :: rest, s => undoFrom rest (undoEvent ev { s with trail := rest })

/-- fn undo_to_last_backtrack_point. -/
def undoToLastBacktrackPoint (s : IncSTN) : Option Nat × IncSTN :=
  undoFrom s.trail s

/-- First walk of extract_cycle_backward: follow backward causes from
`current`, appending each non-internal cause edge, until reaching `src`
(the second component is true) or the origin (false).  `none` models a
missing cause (source panic) or fuel exhaustion. -/
def walkBackCauses (s : IncSTN) (src : Nat) :
    Nat → Nat → List Nat → Option (List Nat × Bool)
  | 0, _, _ => none
  | fuel + 1, current, acc =>
    match (s.dist current).backwardCause with
    | none => none
    | some e =>
      let nc := s.cstr e
      let acc := if nc.internal then acc else acc ++ [e]
      let current := nc.target
      if current = src then some (acc, true)
      else if current = s.origin then some (acc, false)
      else walkBackCauses s src fuel current acc

/-- First walk of extract_cycle_forward (and second walk of
extract_cycle_backward): follow forward causes from `current`, appending
each non-internal cause edge, until reaching `tgt` (true) or the origin
(false). -/
def walkFwdCauses (s : IncSTN) (tgt : Nat) :
    Nat → Nat → List Nat → Option (List Nat × Bool)
  | 0, _, _ => none
  | fuel + 1, current, acc =>
    match (s.dist current).forwardCause with
    | none => none
    | some e =>
      let nc := s.cstr e
      let acc := if nc.internal then acc else acc ++ [e]
      let current := nc.source
      if current = tgt then some (acc, true)
      else if current = s.origin then some (acc, false)
      else walkFwdCauses s tgt fuel current acc

/-- fn extract_cycle_backward: start from the detecting edge's target along
backward causes; if the walk meets the origin before closing the cycle,
finish with a forward-cause walk from the detecting edge's source down to
the origin.  In that second walk reaching the stop node `0` (passed as the
target argument) and reaching the origin coincide. -/
def extractCycleBackward (s : IncSTN) (edge : Nat) : Option (List Nat) :=
  let e := s.cstr edge
  match walkBackCauses s e.source (s.numNodes + 1) e.target [edge] with
  | none => none
  | some (acc, true) => some acc
  | some (acc, false) =>
    match walkFwdCauses s s.origin (s.numNodes + 1) e.source acc with
    | none => none
    | some (acc, _) => some acc

/-- fn extract_cycle_forward: start from the detecting edge's source along
forward causes; if the walk meets the origin before closing the cycle,
finish with a backward-cause walk from the detecting edge's target down to
the origin. -/
def extractCycleForward (s : IncSTN) (edge : Nat) : Option (List Nat) :=
  let e := s.cstr edge
  match walkFwdCauses s e.target (s.numNodes + 1) e.source [edge] with
  | none => none
  | some (acc, true) => some acc
  | some (acc, false) =>
    match walkBackCauses s s.origin (s.numNodes + 1) e.target acc with
    | none => none
    | some (acc, _) => some acc

/-- Forward relaxation of the active outgoing edges of one node (the first
inner loop of fn propagate).  Returns either the updated state and queue,
or the state and the edge on which a negative cycle was detected.  The
queue models both the VecDeque and its mirror HashSet in_queue: the source
keeps the two in sync and the queue never holds duplicates, so membership
in the list is membership in the set. -/
def relaxForward : IncSTN → List Nat → List Nat → (IncSTN × List Nat) ⊕ (IncSTN × Nat)
  | s, [], queue => .inl (s, queue)
  | s, e :: rest, queue =>
    let c := s.cstr e
    let previous := s.fdist c.target
    let candidate := s.fdist c.source + c.weight
    if candidate < previous then
      if candidate + s.bdist c.target < 0 then .inr (s, e)
      else
        let s := { s with trail := .forwardUpdate c.target previous
                            (s.dist c.target).forwardCause :: s.trail }
        let s := s.setDist c.target (fun x =>
          { x with forward := candidate, forwardCause := some e,
                   forwardPendingUpdate := true })
        let queue := if queue.contains c.target then queue else queue ++ [c.target]
        relaxForward s rest queue
    else relaxForward s rest queue

/-- Backward relaxation of the active incoming edges of one node (the
second inner loop of fn propagate). -/
def relaxBackward : IncSTN → List Nat → List Nat → (IncSTN × List Nat) ⊕ (IncSTN × Nat)
  | s, [], queue => .inl (s, queue)
  | s, e :: rest, queue =>
    let c := s.cstr e
    let previous := s.bdist c.source
    let candidate := s.bdist c.target + c.weight
    if candidate < previous then
      if candidate + s.fdist c.source < 0 then .inr (s, e)
      else
        let s := { s with trail := .backwardUpdate c.source previous
                            (s.dist c.source).backwardCause :: s.trail }
        let s := s.setDist c.source (fun x =>
          { x with backward := candidate, backwardCause := some e,
                   backwardPendingUpdate := true })
        let queue := if queue.contains c.source then queue else queue ++ [c.source]
        relaxBackward s rest queue
    else relaxBackward s rest queue

/-- The main work-queue loop of fn propagate. -/
def propLoop : Nat → IncSTN → List Nat → NetworkStatus × IncSTN
  | 0, s, _ => (.stuck, s)
  | _, s, [] => (.consistent, s)
  | fuel + 1, s, u :: queue =>
    let stepF :=
      if (s.dist u).forwardPendingUpdate then
        relaxForward s (s.activeForwardEdges.getD u []) queue
      else .inl (s, queue)
    match stepF with
    | .inr (s, e) =>
      match extractCycleBackward s e with
      | none => (.stuck, s)
      | some expl => (.inconsistent expl, { s with explanation := expl })
    | .inl (s, queue) =>
      let stepB :=
        if (s.dist u).backwardPendingUpdate then
          relaxBackward s (s.activeBackwardEdges.getD u []) queue
        else .inl (s, queue)
      match stepB with
      | .inr (s, e) =>
        match extractCycleForward s e with
        | none => (.stuck, s)
        | some expl => (.inconsistent expl, { s with explanation := expl })
      | .inl (s, queue) =>
        let s := s.setDist u (fun x =>
          { x with forwardPendingUpdate := false, backwardPendingUpdate := false })
        propLoop fuel s queue

/-- fn propagate: seed both endpoints of the just-activated edge and run
the work-queue loop. -/
def propagate (fuel : Nat) (s : IncSTN) (edge : Nat) : NetworkStatus × IncSTN :=
  let c := s.cstr edge
  let i := c.source
  let j := c.target
  let s := s.setDist i (fun x =>
    { x with forwardPendingUpdate := true, backwardPendingUpdate := true })
  let s := s.setDist j (fun x =>
    { x with forwardPendingUpdate := true, backwardPendingUpdate := true })
  propLoop fuel s [i, j]

/-- fn propagate_all: drain the pending-activation queue.  A negative
self-loop is an immediate singleton inconsistency, a nonnegative self-loop
is skipped, an already-active edge is skipped, and an inactive edge is
activated (adjacency lists, active flag, EdgeActivated trail event) and
propagated. -/
def propagateAll : Nat → IncSTN → NetworkStatus × IncSTN
  | fuel, s =>
    match s.pendingActivations with
    | [] => (.consistent, s)
    | edge :: rest =>
      match fuel with
      | 0 => (.stuck, s)
      | fuel + 1 =>
        let s := { s with pendingActivations := rest }
        match s.constraints[edge]? with
        | none => (.stuck, s)
        | some c =>
          if c.source = c.target then
            if c.weight < 0 then
              (.inconsistent [edge], { s with explanation := [edge] })
            else propagateAll fuel s
          else if !c.active then
            let s := { s with constraints :=
                         s.constraints.set edge { c with active := true } }
            let s := { s with activeForwardEdges :=
                         listPush s.activeForwardEdges c.source edge }
            let s := { s with activeBackwardEdges :=
                         listPush s.activeBackwardEdges c.target edge }
            let s := { s with trail := .edgeActivated edge :: s.trail }
            match propagate fuel s edge with
            | (.consistent, s) => propagateAll fuel s
            | r => r
          else propagateAll fuel s

end IncSTN

end STN

namespace SMT

/-!
Embedding of the DPLL(T) drivers of smt/src/lib.rs.  The CDCL engine
(crate aries_sat) and the theory are external collaborators of this file:
their answers are supplied by an oracle script (one entry per query the
driver makes), and the driver is modelled as the function from that script
to the exact sequence of calls it performs on the theory and on the CDCL
engine, plus its result.  Lit is an opaque literal with an involutive
negation; the mapping is modelled by its two lookup functions.
-/

/-- A Boolean literal: a variable paired with a polarity. -/
structure Lit where
  var : Nat
  pos : Bool
deriving Repr, DecidableEq

/-- Lit::negate. -/
def Lit.negate (l : Lit) : Lit := { l with pos := !l.pos }

abbrev AtomID := Nat

/-- The literal-atom mapping, modelled by its two lookup functions
(atoms_of returns the insertion-ordered list bound to a literal,
literal_of the at-most-one literal bound to an atom). -/
structure Mapping where
  atoms : Lit → List AtomID
  literal : AtomID → Option Lit

def Mapping.atomsOf (m : Mapping) (l : Lit) : List AtomID := m.atoms l

def Mapping.literalOf (m : Mapping) (a : AtomID) : Option Lit := m.literal a

/-- enum TheoryStatus. -/
inductive TheoryStatus where
  | consistent
  | inconsistent (culprits : List AtomID)
deriving Repr, DecidableEq

/-- ConflictHandlingResult from the CDCL engine. -/
inductive ConflictHandlingResult where
  | backtracked (numBacktracks : Nat) (inferred : Lit)
  | unsat
deriving Repr, DecidableEq

/-- One observable call the driver makes on the theory or the CDCL engine. -/
inductive Ev where
  | tBacktrack
  | tEnable (a : AtomID)
  | tSetBacktrackPoint
  | tDeduce
  | satDecide (l : Lit)
  | satAddForgettable (clause : List Lit)
deriving Repr, DecidableEq

/-- Driver outcome: the oracle script ran out while the loop would
continue, or the driver returned without / with a model. -/
inductive DriverResult where
  | outOfScript
  | noModel
  | model
deriving Repr, DecidableEq

/-- The clause built from a culprit set: negate(literal_of(a)) for every
culprit a whose literal is defined, in culprit order, without
deduplication (culprits.iter().filter_map(...).collect() in both
drivers). -/
def theoryClause (m : Mapping) (culprits : List AtomID) : List Lit :=
  culprits.filterMap (fun c => (m.literalOf c).map Lit.negate)

/-- One iteration's worth of oracle answers for the eager loop: either
sat.propagate() returned Conflict and sat.handle_conflict answered
`handled`, or it returned Inferred(lits), theory.deduce() would answer
`ded`, and sat.next_decision() would answer `decision`. -/
inductive EagerStep where
  | conflict (handled : ConflictHandlingResult)
  | inferred (lits : List Lit) (ded : TheoryStatus) (decision : Option Lit)
deriving Repr, DecidableEq

/-- fn solve_eager, as the map from the oracle script to the trace of
calls and the result. -/
def solveEager (m : Mapping) : List EagerStep → List Ev × DriverResult
  | [] => ([], .outOfScript)
  | .conflict .unsat :: _ => ([], .noModel)
  | .conflict (.backtracked n inf) :: rest =>
      let evs := List.replicate n Ev.tBacktrack ++ (m.atomsOf inf).map Ev.tEnable
      let r := solveEager m rest
      (evs ++ r.1, r.2)
  | .inferred lits ded dec :: rest =>
      let enables := lits.flatMap (fun l => (m.atomsOf l).map Ev.tEnable)
      match ded with
      | .consistent =>
        match dec with
        | some d =>
          let evs := enables ++ [Ev.tDeduce, Ev.satDecide d, Ev.tSetBacktrackPoint]
            ++ (m.atomsOf d).map Ev.tEnable
          let r := solveEager m rest
          (evs ++ r.1, r.2)
        | none => (enables ++ [Ev.tDeduce], .model)
      | .inconsistent culprits =>
        let evs := enables ++
          [Ev.tDeduce, Ev.satAddForgettable (theoryClause m culprits)]
        let r := solveEager m rest
        (evs ++ r.1, r.2)

/-- One iteration's worth of oracle answers for the lazy loop: sat.solve()
returned Unsolvable, or Solved with the literals it set (in the order it
set them) and theory.deduce()'s answer. -/
inductive LazyStep where
  | unsolvable
  | solved (setLits : List Lit) (ded : TheoryStatus)
deriving Repr, DecidableEq

/-- The loop body of fn lazy_dpll_t. -/
def lazyLoop (m : Mapping) : List LazyStep → List Ev × DriverResult
  | [] => ([], .outOfScript)
  | .unsolvable :: _ => ([], .noModel)
  | .solved lits ded :: rest =>
      let evs := [Ev.tBacktrack, Ev.tSetBacktrackPoint]
        ++ lits.flatMap (fun l => (m.atomsOf l).map Ev.tEnable) ++ [Ev.tDeduce]
      match ded with
      | .consistent => (evs, .model)
      | .inconsistent culprits =>
        let r := lazyLoop m rest
        (evs ++ [Ev.satAddForgettable (theoryClause m culprits)] ++ r.1, r.2)

/-- fn lazy_dpll_t: one initial theory.set_backtrack_point() then the loop. -/
def lazyDpllT (m : Mapping) (steps : List LazyStep) : List Ev × DriverResult :=
  let r := lazyLoop m steps
  (Ev.tSetBacktrackPoint :: r.1, r.2)

end SMT

namespace Vsids

/-!
Embedding of sat/src/heuristic.rs.  The underlying index-addressable heap
(aries_collections::heap::IdxHeap) is not part of the sources; it is
modelled from the spec.  Activities are f64 in the source; the claims
about the heap are purely order-theoretic, so activities are modelled in
an ordered field (ℚ).
-/

abbrev BVar := Nat

/-- Modelled from the spec: aries_collections::heap::IdxHeap is absent
from the sources; per the spec the heap hands out the enqueued variable
of maximum activity, ties broken by (smallest) variable id.  The heap
content is the list of enqueued variables; selection is an executable
fold. -/
def selectBest (act : BVar → ℚ) : List BVar → Option BVar
  | [] => none
  | v :: rest =>
    match selectBest act rest with
    | none => some v
    | some w => if act w > act v ∨ (act w = act v ∧ w < v) then some w else some v

/-- The heuristic state: activities plus the enqueued variables. -/
structure Heur where
  varInc : ℚ
  varDecay : ℚ
  activities : BVar → ℚ
  heap : List BVar

/-- fn pop_next_var: take the best element out of the heap. -/
def popNextVar (h : Heur) : Option BVar × Heur :=
  match selectBest h.activities h.heap with
  | none => (none, h)
  | some v => (some v, { h with heap := h.heap.erase v })

/-- fn peek_next_var: look at the best element of the heap. -/
def peekNextVar (h : Heur) : Option BVar :=
  selectBest h.activities h.heap

end Vsids

/-! ### Claims about the DPLL(T) drivers and the activity heap -/

/-- C6: in the eager DPLL(T) loop, a Backtracked{num_backtracks, inferred}
answer from the CDCL conflict handler makes the driver call
theory.backtrack() exactly num_backtracks times and then theory.enable(a)
for each a in atoms_of(inferred), in that order; an Unsat answer makes the
driver return no model with no further theory calls. -/
theorem c6_eager_conflict_contract (m : SMT.Mapping) (n : Nat) (inf : SMT.Lit)
    (rest : List SMT.EagerStep) :
    SMT.solveEager m (.conflict (.backtracked n inf) :: rest) =
      ((List.replicate n SMT.Ev.tBacktrack ++ (m.atomsOf inf).map SMT.Ev.tEnable)
        ++ (SMT.solveEager m rest).1, (SMT.solveEager m rest).2)
    ∧ SMT.solveEager m (.conflict .unsat :: rest) = ([], .noModel) := by
  constructor <;> simp [SMT.solveEager]

/-- Concrete mapping used by the C7 counterexample: atom 0 is bound to the
positive literal on variable 5, nothing else is bound. -/
def m0 : SMT.Mapping :=
  ⟨fun _ => [], fun a => if a = 0 then some ⟨5, true⟩ else none⟩

/-- C7 counterexample: with the duplicated culprit set [0, 0] the eager
driver submits the clause [¬x5, ¬x5], which contains the same literal
twice — the production clause-builder does not deduplicate. -/
theorem c7_counterexample :
    (SMT.solveEager m0 [.inferred [] (.inconsistent [0, 0]) none]).1 =
      [SMT.Ev.tDeduce,
       SMT.Ev.satAddForgettable [⟨5, false⟩, ⟨5, false⟩]]
    ∧ ¬ (SMT.theoryClause m0 [0, 0]).Nodup := by
  constructor
  · rfl
  · decide

/-- C7 (amended): both drivers add as a forgettable clause exactly
culprits.filter_map(negate ∘ literal_of) — elementwise the set
{ negate(literal_of a) | a ∈ culprits, literal_of a defined }, in culprit
order and without deduplication, so duplicated culprits yield duplicated
literals. -/
theorem c7_clause_built_from_culprits (m : SMT.Mapping) (lits : List SMT.Lit)
    (culprits : List SMT.AtomID) (dec : Option SMT.Lit) (rest : List SMT.EagerStep)
    (rest' : List SMT.LazyStep) :
    (SMT.solveEager m (.inferred lits (.inconsistent culprits) dec :: rest)).1 =
      lits.flatMap (fun l => (m.atomsOf l).map SMT.Ev.tEnable)
        ++ [SMT.Ev.tDeduce,
            SMT.Ev.satAddForgettable (SMT.theoryClause m culprits)]
        ++ (SMT.solveEager m rest).1
    ∧ (SMT.lazyLoop m (.solved lits (.inconsistent culprits) :: rest')).1 =
        [SMT.Ev.tBacktrack, SMT.Ev.tSetBacktrackPoint]
          ++ lits.flatMap (fun l => (m.atomsOf l).map SMT.Ev.tEnable)
          ++ [SMT.Ev.tDeduce,
              SMT.Ev.satAddForgettable (SMT.theoryClause m culprits)]
          ++ (SMT.lazyLoop m rest').1
    ∧ ∀ l : SMT.Lit, l ∈ SMT.theoryClause m culprits ↔
        ∃ a ∈ culprits, ∃ l0, m.literalOf a = some l0 ∧ l = l0.negate := by
  refine ⟨by simp [SMT.solveEager], by simp [SMT.lazyLoop], ?_⟩
  intro l
  simp only [SMT.theoryClause, List.mem_filterMap, Option.map_eq_some']
  constructor
  · rintro ⟨a, ha, l0, h0, rfl⟩
    exact ⟨a, ha, l0, h0, rfl⟩
  · rintro ⟨a, ha, l0, h0, rfl⟩
    exact ⟨a, ha, l0, h0, rfl⟩

/-- C8: in the lazy DPLL(T) loop, each Solved(model) answer from CDCL makes
the driver call theory.backtrack() then theory.set_backtrack_point(), then
enable the atoms of each set literal in exactly the order CDCL set the
literals, then theory.deduce(); when deduce answers Consistent the current
model is returned. -/
theorem c8_lazy_solved_contract (m : SMT.Mapping) (lits : List SMT.Lit)
    (ded : SMT.TheoryStatus) (rest : List SMT.LazyStep) :
    (∃ tail, (SMT.lazyLoop m (.solved lits ded :: rest)).1 =
      ([SMT.Ev.tBacktrack, SMT.Ev.tSetBacktrackPoint]
        ++ lits.flatMap (fun l => (m.atomsOf l).map SMT.Ev.tEnable)
        ++ [SMT.Ev.tDeduce]) ++ tail)
    ∧ SMT.lazyLoop m (.solved lits .consistent :: rest) =
        ([SMT.Ev.tBacktrack, SMT.Ev.tSetBacktrackPoint]
          ++ lits.flatMap (fun l => (m.atomsOf l).map SMT.Ev.tEnable)
          ++ [SMT.Ev.tDeduce], .model) := by
  constructor
  · cases ded with
    | consistent => exact ⟨[], by simp [SMT.lazyLoop]⟩
    | inconsistent culprits =>
        refine ⟨[SMT.Ev.satAddForgettable (SMT.theoryClause m culprits)]
          ++ (SMT.lazyLoop m rest).1, ?_⟩
        simp [SMT.lazyLoop]
  · simp [SMT.lazyLoop]

/-- The selection function picks a member of the list that maximizes the
activity, with ties broken towards the smallest variable id. -/
theorem selectBest_spec (act : Vsids.BVar → ℚ) (l : List Vsids.BVar) (hne : l ≠ []) :
    ∃ v, Vsids.selectBest act l = some v ∧ v ∈ l ∧
      ∀ w ∈ l, act w ≤ act v ∧ (act w = act v → v ≤ w) := by
  induction l with
  | nil => exact absurd rfl hne
  | cons x rest ih =>
    cases hrest : rest with
    | nil =>
      refine ⟨x, by simp [Vsids.selectBest], by simp, ?_⟩
      intro w hw
      simp at hw
      simp [hw]
    | cons y t =>
      obtain ⟨v, hv, hvmem, hvmax⟩ := ih (by simp [hrest])
      rw [← hrest] at *
      by_cases hcmp : act v > act x ∨ (act v = act x ∧ v < x)
      · refine ⟨v, ?_, .tail _ hvmem, ?_⟩
        · simp [Vsids.selectBest, hv, hcmp]
        · intro w hw
          rcases List.mem_cons.mp hw with rfl | hw
          · rcases hcmp with h | ⟨h1, h2⟩
            · exact ⟨le_of_lt h, fun he => absurd he.symm (ne_of_gt h)⟩
            · exact ⟨le_of_eq h1.symm, fun _ => le_of_lt h2⟩
          · exact hvmax w hw
      · refine ⟨x, ?_, .head _, ?_⟩
        · simp [Vsids.selectBest, hv, hcmp]
        · push_neg at hcmp
          obtain ⟨hle, htie⟩ := hcmp
          intro w hw
          rcases List.mem_cons.mp hw with rfl | hw
          · exact ⟨le_refl _, fun _ => le_refl _⟩
          · obtain ⟨h1, h2⟩ := hvmax w hw
            refine ⟨le_trans h1 hle, fun he => ?_⟩
            have hveq : act v = act x := le_antisymm hle (he ▸ h1)
            exact le_trans (htie hveq) (h2 (he.trans hveq.symm))

/-- C9: for every state of the activity heap, pop_next_var() and
peek_next_var() return a variable of maximum activity among the enqueued
variables, and among several enqueued variables sharing that maximum
activity the one with the smallest variable id is returned.  (IdxHeap is
modelled from the spec; see Vsids.selectBest.) -/
theorem c9_heap_max_activity_min_id (h : Vsids.Heur) (hne : h.heap ≠ []) :
    ∃ v, Vsids.peekNextVar h = some v ∧ (Vsids.popNextVar h).1 = some v ∧
      v ∈ h.heap ∧
      ∀ w ∈ h.heap, h.activities w ≤ h.activities v ∧
        (h.activities w = h.activities v → v ≤ w) := by
  obtain ⟨v, hv, hmem, hmax⟩ := selectBest_spec h.activities h.heap hne
  exact ⟨v, hv, by simp [Vsids.popNextVar, hv], hmem, hmax⟩

/-- Concrete heap used by the C9 witness: variables 0, 1, 2 with
activities 3, 5, 5. -/
def h0 : Vsids.Heur :=
  ⟨1, 95 / 100, fun v => if v = 0 then 3 else 5, [0, 1, 2]⟩

/-- C9 witness: on h0 both peek and pop return variable 1 — the maximum
activity is 5 and of the two variables with activity 5 the smaller id is 1. -/
theorem c9_witness :
    h0.heap ≠ [] ∧
    ∃ v, Vsids.peekNextVar h0 = some v ∧ (Vsids.popNextVar h0).1 = some v ∧
      v ∈ h0.heap ∧
      ∀ w ∈ h0.heap, h0.activities w ≤ h0.activities v ∧
        (h0.activities w = h0.activities v → v ≤ w) :=
  ⟨by simp [h0], c9_heap_max_activity_min_id h0 (by simp [h0])⟩

/-! ### Facade operation sequences over the STN -/

namespace STN

/-- One public facade operation of the STN. -/
inductive Op where
  | addNode (lbv ubv : Int)
  | addInactiveEdge (src tgt : Nat) (w : Int)
  | addEdge (src tgt : Nat) (w : Int)
  | markActive (e : Nat)
  | propagateAll (fuel : Nat)
  | setBP
  | undo
deriving Repr, DecidableEq

/-- Apply one facade operation; `none` models a panic. -/
def applyOp (s : IncSTN) : Op → Option IncSTN
  | .addNode l u => (s.addNode l u).map (fun p => p.1)
  | .addInactiveEdge a b w => (s.addInactiveEdge a b w).map (fun p => p.1)
  | .addEdge a b w => (s.addEdge a b w).map (fun p => p.1)
  | .markActive e => some (s.markActive e)
  | .propagateAll fuel => some (IncSTN.propagateAll fuel s).2
  | .setBP => some s.setBacktrackPoint.1
  | .undo => some s.undoToLastBacktrackPoint.2

/-- Run a sequence of facade operations. -/
def execOps : IncSTN → List Op → Option IncSTN
  | s, [] => some s
  | s, op :: rest =>
    match applyOp s op with
    | some s1 => execOps s1 rest
    | none => none

/-- Total runner used to build concrete scenario states (panics never
occur in the scenarios below, as the stated evaluations certify). -/
def runOps (ops : List Op) : IncSTN :=
  ops.foldl (fun s op => (applyOp s op).getD s) IncSTN.new

end STN

/-! ### C4 and C10: self-loop and already-active activations -/

/-- C4 counterexample: two negative self-loops (edges 2 and 3) are both
marked active; the next propagate_all pops edge 2 first and returns the
explanation [2], not [3], although edge 3 is also a marked-active negative
self-loop.  (new leaves its two zero-weight internal origin self-loops,
edges 0 and 1, in the pending queue; they are skipped.) -/
theorem c4_counterexample :
    (STN.runOps [.addInactiveEdge 0 0 (-1), .markActive 2,
                 .addInactiveEdge 0 0 (-1), .markActive 3]).pendingActivations
        = [0, 1, 2, 3]
    ∧ (STN.runOps [.addInactiveEdge 0 0 (-1), .markActive 2,
                   .addInactiveEdge 0 0 (-1), .markActive 3]).cstr 3
        = ⟨false, false, 0, 0, -1⟩
    ∧ (STN.IncSTN.propagateAll 10
        (STN.runOps [.addInactiveEdge 0 0 (-1), .markActive 2,
                     .addInactiveEdge 0 0 (-1), .markActive 3])).1
        = .inconsistent [2]
    ∧ STN.NetworkStatus.inconsistent [2] ≠ .inconsistent [3] := by
  refine ⟨rfl, rfl, rfl, by decide⟩

/-- C4 (amended): when the self-loop edge e = (i → i, w) is at the front of
the pending queue as propagate_all runs, then if w < 0 the call returns
Inconsistent with explanation exactly [e] and the only state change is
popping the queue and rewriting the explanation buffer; if w ≥ 0 the edge
is a no-op — it is never activated, nothing else changes — and the call
continues with the rest of the queue. -/
theorem c4_self_loop_head (s : STN.IncSTN) (e : Nat) (c : STN.Constraint)
    (rest : List Nat) (fuel : Nat)
    (hp : s.pendingActivations = e :: rest)
    (hc : s.constraints[e]? = some c)
    (hself : c.source = c.target) :
    (c.weight < 0 →
      STN.IncSTN.propagateAll (fuel + 1) s =
        (.inconsistent [e],
         { s with pendingActivations := rest, explanation := [e] }))
    ∧ (0 ≤ c.weight →
      STN.IncSTN.propagateAll (fuel + 1) s =
        STN.IncSTN.propagateAll fuel { s with pendingActivations := rest }) := by
  constructor
  · intro hw
    rw [STN.IncSTN.propagateAll.eq_def]
    simp [hp, hc, hself, hw]
  · intro hw
    rw [STN.IncSTN.propagateAll.eq_def]
    simp [hp, hc, hself, not_lt.mpr hw]

/-- C4 witness: a freshly built negative origin self-loop at the head of
the queue is reported as the singleton inconsistency, and a zero-weight
self-loop head is skipped. -/
theorem c4_witness :
    (STN.IncSTN.new.pendingActivations = 0 :: [1]
      ∧ STN.IncSTN.new.constraints[0]? = some ⟨true, false, 0, 0, 0⟩
      ∧ (0 : Int) ≤ (STN.Constraint.mk true false 0 0 0).weight)
    ∧ STN.IncSTN.propagateAll 3 STN.IncSTN.new =
        STN.IncSTN.propagateAll 2
          { STN.IncSTN.new with pendingActivations := [1] } :=
  ⟨⟨rfl, rfl, by decide⟩,
   (c4_self_loop_head STN.IncSTN.new 0 ⟨true, false, 0, 0, 0⟩ [1] 2
      rfl rfl rfl).2 (by decide)⟩

/-- C10 counterexample: edge 4 (0 → 1, weight 1) is already active and is
marked active again, but another pending activation (the negative
self-loop edge 5) sits in front of it in the queue, so the following
propagate_all returns Inconsistent rather than Consistent. -/
theorem c10_counterexample :
    (STN.runOps [.addNode 0 10, .propagateAll 20, .addEdge 0 1 1,
                 .propagateAll 20, .addInactiveEdge 1 1 (-2), .markActive 5,
                 .markActive 4]).cstr 4
        = ⟨false, true, 0, 1, 1⟩
    ∧ (STN.IncSTN.propagateAll 20
        (STN.runOps [.addNode 0 10, .propagateAll 20, .addEdge 0 1 1,
                     .propagateAll 20, .addInactiveEdge 1 1 (-2), .markActive 5,
                     .markActive 4])).1
        = .inconsistent [5]
    ∧ STN.NetworkStatus.inconsistent [5] ≠ .consistent := by
  refine ⟨rfl, rfl, by decide⟩

/-- C10 (amended): marking an already-active non-self-loop edge when no
other activation is pending, then running propagate_all, returns
Consistent and leaves the whole state unchanged except for the pending
queue round-trip and the NewPendingActivation trail event: constraints,
both adjacency lists, all distances and causes are untouched — the edge is
silently skipped. -/
theorem c10_already_active_skipped (s : STN.IncSTN) (e : Nat) (c : STN.Constraint)
    (fuel : Nat)
    (hp : s.pendingActivations = [])
    (hc : s.constraints[e]? = some c)
    (hact : c.active = true)
    (hns : c.source ≠ c.target) :
    STN.IncSTN.propagateAll (fuel + 1) (s.markActive e) =
      (.consistent, { s with trail := .newPendingActivation :: s.trail }) := by
  rw [STN.IncSTN.propagateAll.eq_def]
  simp [STN.IncSTN.markActive, hp, hc, hact, hns]
  rw [STN.IncSTN.propagateAll.eq_def]

/-- C10 witness: marking the already-active edge 4 (0 → 1, weight 1) of the
concrete two-node network and propagating returns Consistent and restores
the state up to the one trail event. -/
theorem c10_witness :
    ((STN.runOps [.addNode 0 10, .propagateAll 20, .addEdge 0 1 1,
        .propagateAll 20]).pendingActivations = []
      ∧ (STN.runOps [.addNode 0 10, .propagateAll 20, .addEdge 0 1 1,
          .propagateAll 20]).constraints[4]? = some ⟨false, true, 0, 1, 1⟩)
    ∧ STN.IncSTN.propagateAll 8
        ((STN.runOps [.addNode 0 10, .propagateAll 20, .addEdge 0 1 1,
            .propagateAll 20]).markActive 4) =
      (.consistent,
       { STN.runOps [.addNode 0 10, .propagateAll 20, .addEdge 0 1 1,
           .propagateAll 20] with
         trail := .newPendingActivation ::
           (STN.runOps [.addNode 0 10, .propagateAll 20, .addEdge 0 1 1,
             .propagateAll 20]).trail }) :=
  ⟨⟨rfl, rfl⟩,
   c10_already_active_skipped _ 4 ⟨false, true, 0, 1, 1⟩ 7 rfl rfl rfl (by decide)⟩

/-! ### Core state, rollback, and the journaling discipline of the trail -/

namespace STN

/-- The journalled projection of a distance record: everything except the
two transient pending-update flags (which the trail does not record). -/
def Distance.core (d : Distance) : Int × Option Nat × Int × Option Nat :=
  (d.forward, d.forwardCause, d.backward, d.backwardCause)

/-- The journalled projection of the distances array. -/
def IncSTN.distsCore (s : IncSTN) : List (Int × Option Nat × Int × Option Nat) :=
  s.distances.map Distance.core

/-- Core equality: agreement of every component that the trail journals
(constraints, both adjacency lists, distances without the transient
flags).  The pending queue, the level counter, the explanation buffer and
the trail itself are excluded. -/
def CoreEq (a b : IncSTN) : Prop :=
  a.constraints = b.constraints ∧
  a.activeForwardEdges = b.activeForwardEdges ∧
  a.activeBackwardEdges = b.activeBackwardEdges ∧
  a.distsCore = b.distsCore

theorem CoreEq.refl (a : IncSTN) : CoreEq a a := ⟨rfl, rfl, rfl, rfl⟩

theorem CoreEq.symm {a b : IncSTN} (h : CoreEq a b) : CoreEq b a :=
  ⟨h.1.symm, h.2.1.symm, h.2.2.1.symm, h.2.2.2.symm⟩

theorem coreEq_trans {a b c : IncSTN} (h1 : CoreEq a b) (h2 : CoreEq b c) :
    CoreEq a c :=
  ⟨h1.1.trans h2.1, h1.2.1.trans h2.2.1, h1.2.2.1.trans h2.2.2.1,
   h1.2.2.2.trans h2.2.2.2⟩

/-- Apply the reversal of a list of events, newest first (the order in
which the undo loop pops them). -/
def rollback (evs : List Event) (s : IncSTN) : IncSTN :=
  evs.foldl (fun s ev => IncSTN.undoEvent ev s) s

theorem rollback_nil (s : IncSTN) : rollback [] s = s := rfl

theorem rollback_cons (ev : Event) (evs : List Event) (s : IncSTN) :
    rollback (ev :: evs) s = rollback evs (IncSTN.undoEvent ev s) := rfl

theorem rollback_append (a b : List Event) (s : IncSTN) :
    rollback (a ++ b) s = rollback b (rollback a s) :=
  List.foldl_append ..

/-- Setting the i-th entry of a list to its current value is the identity. -/
theorem list_set_self {α : Type} (l : List α) (i : Nat) (x : α)
    (h : l[i]? = some x) : l.set i x = l := by
  induction l generalizing i with
  | nil => simp at h
  | cons a t ih =>
    cases i with
    | zero => simp at h; simp [h]
    | succ j => simp at h; simp [List.set, ih j h]

/-- undoEvent neither reads nor writes the trail. -/
theorem undoEvent_trail (ev : Event) (s : IncSTN) (t : List Event) :
    IncSTN.undoEvent ev { s with trail := t } =
      { IncSTN.undoEvent ev s with trail := t } := by
  cases ev <;> simp [IncSTN.undoEvent, IncSTN.setDist] <;> (try split) <;> rfl

/-- rollback neither reads nor writes the trail. -/
theorem rollback_trail (evs : List Event) (s : IncSTN) (t : List Event) :
    rollback evs { s with trail := t } = { rollback evs s with trail := t } := by
  induction evs generalizing s with
  | nil => rfl
  | cons ev rest ih => rw [rollback_cons, undoEvent_trail, ih, rollback_cons]

/-- A Level event is a no-op for rollback. -/
theorem undoEvent_level (l : Nat) (s : IncSTN) :
    IncSTN.undoEvent (.level l) s = s := rfl

/-- setDist preserves core equality when the update functions agree on the
journalled projection. -/
theorem coreEq_setDist {a b : IncSTN} (h : CoreEq a b) (n : Nat)
    (f g : Distance → Distance)
    (hfg : ∀ d1 d2 : Distance, d1.core = d2.core → (f d1).core = (g d2).core) :
    CoreEq (a.setDist n f) (b.setDist n g) := by
  obtain ⟨h1, h2, h3, h4⟩ := h
  have hlen : a.distances.length = b.distances.length := by
    have := congrArg List.length h4
    simpa [IncSTN.distsCore] using this
  unfold IncSTN.setDist
  cases ha : a.distances[n]? with
  | none =>
    have hb : b.distances[n]? = none := by
      rw [List.getElem?_eq_none_iff] at ha ⊢
      omega
    simp [ha, hb]
    exact ⟨h1, h2, h3, h4⟩
  | some d1 =>
    obtain ⟨hn, -⟩ := List.getElem?_eq_some_iff.mp ha
    have hn2 : n < b.distances.length := hlen ▸ hn
    obtain ⟨d2, hb⟩ : ∃ d2, b.distances[n]? = some d2 :=
      ⟨b.distances[n], List.getElem?_eq_some_iff.mpr ⟨hn2, rfl⟩⟩
    have hcore : d1.core = d2.core := by
      have ha' := congrArg (fun l => l[n]?) h4
      simpa [IncSTN.distsCore, ha, hb] using ha'
    simp [ha, hb]
    refine ⟨h1, h2, h3, ?_⟩
    simp [IncSTN.distsCore, List.map_set, h4]
    congr 1
    exact hfg d1 d2 hcore

/-- undoEvent preserves core equality (it reads and writes only the
journalled core and the pending queue). -/
theorem coreEq_undoEvent {a b : IncSTN} (h : CoreEq a b) (ev : Event) :
    CoreEq (IncSTN.undoEvent ev a) (IncSTN.undoEvent ev b) := by
  obtain ⟨h1, h2, h3, h4⟩ := h
  cases ev with
  | level l => exact ⟨h1, h2, h3, h4⟩
  | nodeAdded =>
    refine ⟨h1, by simp [IncSTN.undoEvent, h2], by simp [IncSTN.undoEvent, h3], ?_⟩
    simp only [IncSTN.undoEvent, IncSTN.distsCore]
    rw [List.map_dropLast, List.map_dropLast]
    simp only [IncSTN.distsCore] at h4
    rw [h4]
  | edgeAdded => exact ⟨by simp [IncSTN.undoEvent, h1], h2, h3, h4⟩
  | newPendingActivation => exact ⟨h1, h2, h3, h4⟩
  | edgeActivated e =>
    simp only [IncSTN.undoEvent, h1]
    split
    · exact ⟨by simp [h1], by simp [h2], by simp [h3],
        by simpa [IncSTN.distsCore] using h4⟩
    · exact ⟨h1, h2, h3, h4⟩
  | forwardUpdate n d c =>
    exact coreEq_setDist ⟨h1, h2, h3, h4⟩ n _ _ (by
      intro d1 d2 hd
      simp [Distance.core] at hd ⊢
      exact ⟨hd.2.2.1, hd.2.2.2⟩)
  | backwardUpdate n d c =>
    exact coreEq_setDist ⟨h1, h2, h3, h4⟩ n _ _ (by
      intro d1 d2 hd
      simp [Distance.core] at hd ⊢
      exact ⟨hd.1, hd.2.1⟩)

/-- rollback preserves core equality. -/
theorem coreEq_rollback {a b : IncSTN} (h : CoreEq a b) (evs : List Event) :
    CoreEq (rollback evs a) (rollback evs b) := by
  induction evs generalizing a b with
  | nil => exact h
  | cons ev rest ih => exact ih (coreEq_undoEvent h ev)

/-- A trail segment that contains no Level marker. -/
def LevelFree (E : List Event) : Prop := ∀ l, Event.level l ∉ E

theorem levelFree_nil : LevelFree [] := fun _ h => by cases h

theorem levelFree_append {a b : List Event} (ha : LevelFree a) (hb : LevelFree b) :
    LevelFree (a ++ b) := by
  intro l h
  rcases List.mem_append.mp h with h | h
  · exact ha l h
  · exact hb l h

theorem levelFree_cons {ev : Event} {E : List Event} (hev : ∀ l, ev ≠ .level l)
    (hE : LevelFree E) : LevelFree (ev :: E) := by
  intro l h
  rcases List.mem_cons.mp h with h | h
  · exact hev l h.symm
  · exact hE l h

/-- The undo loop on a Level-free trail pops everything and reports no
backtrack point. -/
theorem undoFrom_no_level (E : List Event) (hE : LevelFree E) (s : IncSTN) :
    IncSTN.undoFrom E s = (none, { rollback E s with trail := [] }) := by
  induction E generalizing s with
  | nil => rfl
  | cons ev rest ih =>
    have hev : ∀ l, ev ≠ Event.level l := by
      intro l h
      exact hE l (h ▸ List.mem_cons_self ..)
    have hrest : LevelFree rest := fun l h => hE l (List.mem_cons_of_mem _ h)
    have step : IncSTN.undoFrom (ev :: rest) s =
        IncSTN.undoFrom rest (IncSTN.undoEvent ev { s with trail := rest }) := by
      cases ev with
      | level l => exact absurd rfl (hev l)
      | nodeAdded => rfl
      | edgeAdded => rfl
      | newPendingActivation => rfl
      | edgeActivated e => rfl
      | forwardUpdate n d c => rfl
      | backwardUpdate n d c => rfl
    rw [step, ih hrest _, undoEvent_trail, rollback_trail, rollback_cons]

/-- The undo loop pops a Level-free prefix and stops at the first Level
marker, returning its level and the rolled-back state. -/
theorem undoFrom_level (E : List Event) (hE : LevelFree E) (l : Nat)
    (t : List Event) (s : IncSTN) :
    IncSTN.undoFrom (E ++ .level l :: t) s = (some l, { rollback E s with trail := t }) := by
  induction E generalizing s with
  | nil => rfl
  | cons ev rest ih =>
    have hev : ∀ l, ev ≠ Event.level l := by
      intro l h
      exact hE l (h ▸ List.mem_cons_self ..)
    have hrest : LevelFree rest := fun l h => hE l (List.mem_cons_of_mem _ h)
    have step : IncSTN.undoFrom ((ev :: rest) ++ .level l :: t) s =
        IncSTN.undoFrom (rest ++ .level l :: t)
          (IncSTN.undoEvent ev { s with trail := rest ++ .level l :: t }) := by
      cases ev with
      | level l2 => exact absurd rfl (hev l2)
      | nodeAdded => rfl
      | edgeAdded => rfl
      | newPendingActivation => rfl
      | edgeActivated e => rfl
      | forwardUpdate n d c => rfl
      | backwardUpdate n d c => rfl
    rw [step, ih hrest _, undoEvent_trail, rollback_trail, rollback_cons]

/-- s' extends s by a Level-free, exactly reversible trail segment: the
journaling discipline of every mutating operation between two backtrack
points. -/
def Journaled (s s' : IncSTN) : Prop :=
  ∃ E, LevelFree E ∧ s'.trail = E ++ s.trail ∧ CoreEq (rollback E s') s

theorem journaled_self (s : IncSTN) : Journaled s s :=
  ⟨[], levelFree_nil, rfl, CoreEq.refl s⟩

theorem Journaled.trans {s1 s2 s3 : IncSTN} (h1 : Journaled s1 s2)
    (h2 : Journaled s2 s3) : Journaled s1 s3 := by
  obtain ⟨E1, hf1, ht1, hc1⟩ := h1
  obtain ⟨E2, hf2, ht2, hc2⟩ := h2
  refine ⟨E2 ++ E1, levelFree_append hf2 hf1, by simp [ht2, ht1], ?_⟩
  rw [rollback_append]
  exact coreEq_trans (coreEq_rollback hc2 E1) hc1

/-- Core equality of states with equal trails upgrades a Journaled fact. -/
theorem Journaled.of_coreEq_left {s0 s1 s2 : IncSTN} (h : CoreEq s1 s0)
    (ht : s1.trail = s0.trail) (hj : Journaled s1 s2) : Journaled s0 s2 := by
  obtain ⟨E, hf, htr, hc⟩ := hj
  exact ⟨E, hf, by rw [htr, ht], coreEq_trans hc h⟩

theorem journaled_markActive (s : IncSTN) (e : Nat) :
    Journaled s (s.markActive e) := by
  refine ⟨[.newPendingActivation], levelFree_cons (by intro l h; cases h) levelFree_nil,
    rfl, ?_⟩
  exact ⟨rfl, rfl, rfl, rfl⟩

theorem journaled_addConstraint {s : IncSTN} {c : Constraint} {s' : IncSTN} {id : Nat}
    (h : s.addConstraint c = some (s', id)) : Journaled s s' := by
  unfold IncSTN.addConstraint at h
  split at h
  · refine ⟨[.edgeAdded], levelFree_cons (by intro l h2; cases h2) levelFree_nil, ?_, ?_⟩
    · cases h; rfl
    · cases h
      refine ⟨?_, rfl, rfl, rfl⟩
      simp [rollback, IncSTN.undoEvent]
  · cases h

/-- Explicit form of add_node on the success path. -/
theorem addNode_eq (s : IncSTN) (l u : Int) (h : l ≤ u) :
    s.addNode l u = some
      ({ constraints := s.constraints ++
           [⟨true, false, 0, s.numNodes, u⟩, ⟨true, false, s.numNodes, 0, -l⟩],
         activeForwardEdges := s.activeForwardEdges ++ [[]],
         activeBackwardEdges := s.activeBackwardEdges ++ [[]],
         distances := s.distances ++
           [⟨u, some s.numEdges, false, -l, some (s.numEdges + 1), false⟩],
         trail := .newPendingActivation :: .newPendingActivation ::
           .edgeAdded :: .edgeAdded :: .nodeAdded :: s.trail,
         pendingActivations := s.pendingActivations ++ [s.numEdges, s.numEdges + 1],
         level := s.level,
         explanation := s.explanation }, s.numNodes) := by
  unfold IncSTN.addNode IncSTN.addConstraint IncSTN.markActive
  simp [h, IncSTN.numNodes, IncSTN.numEdges, Nat.lt_succ_self]

theorem journaled_addNode {s : IncSTN} {l u : Int} {s' : IncSTN} {id : Nat}
    (h : s.addNode l u = some (s', id)) : Journaled s s' := by
  have hlu : l ≤ u := by
    by_contra hc
    unfold IncSTN.addNode at h
    simp [hc] at h
  rw [addNode_eq s l u hlu] at h
  simp only [Option.some.injEq, Prod.mk.injEq] at h
  obtain ⟨h1, -⟩ := h
  subst h1
  refine ⟨[.newPendingActivation, .newPendingActivation, .edgeAdded, .edgeAdded,
    .nodeAdded], ?_, rfl, ?_⟩
  · intro lv hm
    simp [List.mem_cons] at hm
  · simp only [rollback, List.foldl_cons, List.foldl_nil, IncSTN.undoEvent]
    refine ⟨?_, ?_, ?_, ?_⟩
    · show ((s.constraints ++ _).dropLast).dropLast = s.constraints
      rw [show ∀ c1 c2 : Constraint, s.constraints ++ [c1, c2] =
            (s.constraints ++ [c1]) ++ [c2] from fun c1 c2 => by simp,
          List.dropLast_concat, List.dropLast_concat]
    · show (s.activeForwardEdges ++ [[]]).dropLast = s.activeForwardEdges
      rw [List.dropLast_concat]
    · show (s.activeBackwardEdges ++ [[]]).dropLast = s.activeBackwardEdges
      rw [List.dropLast_concat]
    · show List.map _ ((s.distances ++ _).dropLast) = _
      rw [List.dropLast_concat]
      rfl

theorem setDist_trail (s : IncSTN) (n : Nat) (f : Distance → Distance) :
    (s.setDist n f).trail = s.trail := by
  unfold IncSTN.setDist; split <;> rfl

theorem setDist_constraints (s : IncSTN) (n : Nat) (f : Distance → Distance) :
    (s.setDist n f).constraints = s.constraints := by
  unfold IncSTN.setDist; split <;> rfl

theorem setDist_afe (s : IncSTN) (n : Nat) (f : Distance → Distance) :
    (s.setDist n f).activeForwardEdges = s.activeForwardEdges := by
  unfold IncSTN.setDist; split <;> rfl

theorem setDist_abe (s : IncSTN) (n : Nat) (f : Distance → Distance) :
    (s.setDist n f).activeBackwardEdges = s.activeBackwardEdges := by
  unfold IncSTN.setDist; split <;> rfl

theorem setDist_pending (s : IncSTN) (n : Nat) (f : Distance → Distance) :
    (s.setDist n f).pendingActivations = s.pendingActivations := by
  unfold IncSTN.setDist; split <;> rfl

theorem setDist_explanation (s : IncSTN) (n : Nat) (f : Distance → Distance) :
    (s.setDist n f).explanation = s.explanation := by
  unfold IncSTN.setDist; split <;> rfl

/-- The dist accessor agrees with a successful index lookup. -/
theorem dist_of_get {s : IncSTN} {n : Nat} {d : Distance}
    (h : s.distances[n]? = some d) : s.dist n = d := by
  simp [IncSTN.dist, List.getD, h]

/-- Two successive in-place updates of the same node compose. -/
theorem setDist_setDist (s : IncSTN) (n : Nat) (f g : Distance → Distance) :
    (s.setDist n f).setDist n g = s.setDist n (fun d => g (f d)) := by
  unfold IncSTN.setDist
  cases h : s.distances[n]? with
  | none => simp [h]
  | some d => simp [h, List.getElem?_set_self, List.set_set,
      (List.getElem?_eq_some_iff.mp h).1]

/-- setDist with a core-preserving function yields a core-equal state. -/
theorem coreEq_setDist_self (s : IncSTN) (n : Nat) (f : Distance → Distance)
    (hf : ∀ d, s.distances[n]? = some d → (f d).core = d.core) :
    CoreEq (s.setDist n f) s := by
  unfold IncSTN.setDist
  cases h : s.distances[n]? with
  | none => exact CoreEq.refl s
  | some d =>
    refine ⟨rfl, rfl, rfl, ?_⟩
    show List.map Distance.core (s.distances.set n (f d)) = _
    rw [List.map_set]
    have : (List.map Distance.core s.distances)[n]? = some d.core := by
      simp [List.getElem?_map, h]
    rw [hf d h, list_set_self _ n _ this]
    rfl

/-- One applied forward relaxation (trail push plus distance update) is a
journaled step. -/
theorem journaled_fwdStep (s : IncSTN) (tgt : Nat) (cand : Int) (e : Nat) :
    Journaled s
      (IncSTN.setDist
        { s with trail := (Event.forwardUpdate tgt (s.fdist tgt)
            (s.dist tgt).forwardCause) :: s.trail }
        tgt
        (fun x =>
          { x with forward := cand, forwardCause := some e,
                   forwardPendingUpdate := true })) := by
  refine ⟨[Event.forwardUpdate tgt (s.fdist tgt) (s.dist tgt).forwardCause],
    levelFree_cons (by intro l h; cases h) levelFree_nil, by rw [setDist_trail]; rfl, ?_⟩
  simp only [rollback, List.foldl_cons, List.foldl_nil, IncSTN.undoEvent]
  rw [setDist_setDist]
  refine coreEq_trans (coreEq_setDist_self _ tgt _ ?_) ⟨rfl, rfl, rfl, rfl⟩
  intro d hd
  have : s.dist tgt = d := dist_of_get hd
  simp [Distance.core, IncSTN.fdist, this]

/-- One applied backward relaxation is a journaled step. -/
theorem journaled_bwdStep (s : IncSTN) (src : Nat) (cand : Int) (e : Nat) :
    Journaled s
      (IncSTN.setDist
        { s with trail := (Event.backwardUpdate src (s.bdist src)
            (s.dist src).backwardCause) :: s.trail }
        src
        (fun x =>
          { x with backward := cand, backwardCause := some e,
                   backwardPendingUpdate := true })) := by
  refine ⟨[Event.backwardUpdate src (s.bdist src) (s.dist src).backwardCause],
    levelFree_cons (by intro l h; cases h) levelFree_nil, by rw [setDist_trail]; rfl, ?_⟩
  simp only [rollback, List.foldl_cons, List.foldl_nil, IncSTN.undoEvent]
  rw [setDist_setDist]
  refine coreEq_trans (coreEq_setDist_self _ src _ ?_) ⟨rfl, rfl, rfl, rfl⟩
  intro d hd
  have : s.dist src = d := dist_of_get hd
  simp [Distance.core, IncSTN.bdist, this]

/-- The forward relaxation scan is journaled, whichever way it ends. -/
theorem journaled_relaxForward (edges : List Nat) :
    ∀ (s : IncSTN) (queue : List Nat),
      (∀ s' q', IncSTN.relaxForward s edges queue = .inl (s', q') → Journaled s s')
      ∧ (∀ s' e, IncSTN.relaxForward s edges queue = .inr (s', e) → Journaled s s') := by
  induction edges with
  | nil =>
    intro s queue
    constructor
    · intro s' q' h
      simp [IncSTN.relaxForward] at h
      rw [← h.1]
      exact journaled_self s
    · intro s' e h
      simp [IncSTN.relaxForward] at h
  | cons e0 rest ih =>
    intro s queue
    constructor
    · intro s' q' h
      rw [IncSTN.relaxForward.eq_def] at h
      simp only [] at h
      split at h
      · split at h
        · simp at h
        · exact (journaled_fwdStep s (s.cstr e0).target
            (s.fdist (s.cstr e0).source + (s.cstr e0).weight) e0).trans
            ((ih _ _).1 _ _ h)
      · exact (ih _ _).1 _ _ h
    · intro s' e h
      rw [IncSTN.relaxForward.eq_def] at h
      simp only [] at h
      split at h
      · split at h
        · simp at h
          rw [← h.1]
          exact journaled_self s
        · exact (journaled_fwdStep s (s.cstr e0).target
            (s.fdist (s.cstr e0).source + (s.cstr e0).weight) e0).trans
            ((ih _ _).2 _ _ h)
      · exact (ih _ _).2 _ _ h

/-- The backward relaxation scan is journaled, whichever way it ends. -/
theorem journaled_relaxBackward (edges : List Nat) :
    ∀ (s : IncSTN) (queue : List Nat),
      (∀ s' q', IncSTN.relaxBackward s edges queue = .inl (s', q') → Journaled s s')
      ∧ (∀ s' e, IncSTN.relaxBackward s edges queue = .inr (s', e) → Journaled s s') := by
  induction edges with
  | nil =>
    intro s queue
    constructor
    · intro s' q' h
      simp [IncSTN.relaxBackward] at h
      rw [← h.1]
      exact journaled_self s
    · intro s' e h
      simp [IncSTN.relaxBackward] at h
  | cons e0 rest ih =>
    intro s queue
    constructor
    · intro s' q' h
      rw [IncSTN.relaxBackward.eq_def] at h
      simp only [] at h
      split at h
      · split at h
        · simp at h
        · exact (journaled_bwdStep s (s.cstr e0).source
            (s.bdist (s.cstr e0).target + (s.cstr e0).weight) e0).trans
            ((ih _ _).1 _ _ h)
      · exact (ih _ _).1 _ _ h
    · intro s' e h
      rw [IncSTN.relaxBackward.eq_def] at h
      simp only [] at h
      split at h
      · split at h
        · simp at h
          rw [← h.1]
          exact journaled_self s
        · exact (journaled_bwdStep s (s.cstr e0).source
            (s.bdist (s.cstr e0).target + (s.cstr e0).weight) e0).trans
            ((ih _ _).2 _ _ h)
      · exact (ih _ _).2 _ _ h

theorem journaled_of_coreEq {s s' : IncSTN} (hc : CoreEq s' s)
    (ht : s'.trail = s.trail) : Journaled s s' :=
  ⟨[], levelFree_nil, by simpa using ht, hc⟩

theorem listPopAt_listPush (ls : List (List Nat)) (i : Nat) (x : Nat) :
    listPopAt (listPush ls i x) i = ls := by
  unfold listPush listPopAt
  cases h : ls[i]? with
  | none => simp [h]
  | some l =>
    have hi : i < ls.length := (List.getElem?_eq_some_iff.mp h).1
    simp [h, List.getElem?_set_self, hi, List.set_set, List.dropLast_concat,
      list_set_self ls i l h]


/-- Explicit form of the EdgeActivated reversal when the edge exists. -/
theorem undoEvent_edgeActivated_eq {s : IncSTN} {e : Nat} {c : Constraint}
    (h : s.constraints[e]? = some c) :
    IncSTN.undoEvent (.edgeActivated e) s =
      { s with activeForwardEdges := listPopAt s.activeForwardEdges c.source,
               activeBackwardEdges := listPopAt s.activeBackwardEdges c.target,
               constraints := s.constraints.set e { c with active := false } } := by
  simp only [IncSTN.undoEvent]
  rw [h]

/-- Activating an edge (active flag, two adjacency pushes, EdgeActivated
trail event) is a journaled step. -/
theorem journaled_activate {s : IncSTN} {edge : Nat} {c : Constraint}
    (hc : s.constraints[edge]? = some c) (hact : c.active = false) :
    Journaled s
      { s with
          constraints := s.constraints.set edge { c with active := true },
          activeForwardEdges := listPush s.activeForwardEdges c.source edge,
          activeBackwardEdges := listPush s.activeBackwardEdges c.target edge,
          trail := .edgeActivated edge :: s.trail } := by
  have hi : edge < s.constraints.length := (List.getElem?_eq_some_iff.mp hc).1
  refine ⟨[.edgeActivated edge],
    levelFree_cons (by intro l h; cases h) levelFree_nil, rfl, ?_⟩
  simp only [rollback, List.foldl_cons, List.foldl_nil]
  rw [undoEvent_edgeActivated_eq (by
    show (s.constraints.set edge { c with active := true })[edge]? = _
    rw [List.getElem?_set_self hi])]
  have hcc : ({ c with active := false } : Constraint) = c := by
    rw [← hact]
  refine ⟨?_, ?_, ?_, rfl⟩
  · show (s.constraints.set edge _).set edge _ = s.constraints
    rw [List.set_set]
    show s.constraints.set edge ({ c with active := false }) = s.constraints
    rw [hcc, list_set_self _ _ _ hc]
  · exact listPopAt_listPush ..
  · exact listPopAt_listPush ..

/-- The propagation work-queue loop is journaled. -/
theorem journaled_propLoop (fuel : Nat) :
    ∀ (s : IncSTN) (queue : List Nat) (r : NetworkStatus) (s' : IncSTN),
      IncSTN.propLoop fuel s queue = (r, s') → Journaled s s' := by
  induction fuel with
  | zero =>
    intro s queue r s' h
    simp [IncSTN.propLoop] at h
    rw [← h.2]
    exact journaled_self s
  | succ fuel ih =>
    intro s queue r s' h
    cases queue with
    | nil =>
      simp [IncSTN.propLoop] at h
      rw [← h.2]
      exact journaled_self s
    | cons u q =>
      rw [IncSTN.propLoop.eq_def] at h
      simp only [] at h
      generalize hF : (if (s.dist u).forwardPendingUpdate = true then
          IncSTN.relaxForward s (s.activeForwardEdges.getD u []) q
        else .inl (s, q)) = stepF at h
      have hjF : ∀ s1 q1, stepF = .inl (s1, q1) → Journaled s s1 := by
        intro s1 q1 he
        rw [he] at hF
        split at hF
        · exact (journaled_relaxForward _ s q).1 _ _ hF
        · cases hF
          exact journaled_self s
      have hjF2 : ∀ s1 e1, stepF = .inr (s1, e1) → Journaled s s1 := by
        intro s1 e1 he
        rw [he] at hF
        split at hF
        · exact (journaled_relaxForward _ s q).2 _ _ hF
        · cases hF
      cases stepF with
      | inr p =>
        obtain ⟨s1, e1⟩ := p
        have hj1 : Journaled s s1 := hjF2 s1 e1 rfl
        dsimp only at h
        cases hx : s1.extractCycleBackward e1 with
        | none =>
          rw [hx] at h
          cases h
          exact hj1
        | some expl =>
          rw [hx] at h
          cases h
          exact hj1.trans (journaled_of_coreEq ⟨rfl, rfl, rfl, rfl⟩ rfl)
      | inl p =>
        obtain ⟨s1, q1⟩ := p
        have hj1 : Journaled s s1 := hjF s1 q1 rfl
        dsimp only at h
        generalize hB : (if (s1.dist u).backwardPendingUpdate = true then
            IncSTN.relaxBackward s1 (s1.activeBackwardEdges.getD u []) q1
          else .inl (s1, q1)) = stepB at h
        have hjB : ∀ s2 q2, stepB = .inl (s2, q2) → Journaled s1 s2 := by
          intro s2 q2 he
          rw [he] at hB
          split at hB
          · exact (journaled_relaxBackward _ s1 q1).1 _ _ hB
          · cases hB
            exact journaled_self s1
        have hjB2 : ∀ s2 e2, stepB = .inr (s2, e2) → Journaled s1 s2 := by
          intro s2 e2 he
          rw [he] at hB
          split at hB
          · exact (journaled_relaxBackward _ s1 q1).2 _ _ hB
          · cases hB
        cases stepB with
        | inr p2 =>
          obtain ⟨s2, e2⟩ := p2
          have hj2 : Journaled s1 s2 := hjB2 s2 e2 rfl
          dsimp only at h
          cases hx : s2.extractCycleForward e2 with
          | none =>
            rw [hx] at h
            cases h
            exact hj1.trans hj2
          | some expl =>
            rw [hx] at h
            cases h
            exact hj1.trans (hj2.trans (journaled_of_coreEq ⟨rfl, rfl, rfl, rfl⟩ rfl))
        | inl p2 =>
          obtain ⟨s2, q2⟩ := p2
          have hj2 : Journaled s1 s2 := hjB s2 q2 rfl
          dsimp only at h
          have hj3 : Journaled s2 (s2.setDist u (fun x =>
              { x with forwardPendingUpdate := false,
                       backwardPendingUpdate := false })) := by
            refine journaled_of_coreEq ?_ (setDist_trail ..)
            exact coreEq_setDist_self _ u _ (fun d _ => rfl)
          exact hj1.trans (hj2.trans (hj3.trans (ih _ _ _ _ h)))

/-- fn propagate is journaled. -/
theorem journaled_propagate (fuel : Nat) (s : IncSTN) (edge : Nat)
    (r : NetworkStatus) (s' : IncSTN)
    (h : IncSTN.propagate fuel s edge = (r, s')) : Journaled s s' := by
  unfold IncSTN.propagate at h
  dsimp only at h
  have h1 : Journaled s (s.setDist (s.cstr edge).source (fun x =>
      { x with forwardPendingUpdate := true, backwardPendingUpdate := true })) :=
    journaled_of_coreEq (coreEq_setDist_self _ _ _ (fun d _ => rfl)) (setDist_trail ..)
  have h2 : Journaled
      (s.setDist (s.cstr edge).source (fun x =>
        { x with forwardPendingUpdate := true, backwardPendingUpdate := true }))
      ((s.setDist (s.cstr edge).source (fun x =>
        { x with forwardPendingUpdate := true, backwardPendingUpdate := true })).setDist
          (s.cstr edge).target (fun x =>
        { x with forwardPendingUpdate := true, backwardPendingUpdate := true })) :=
    journaled_of_coreEq (coreEq_setDist_self _ _ _ (fun d _ => rfl)) (setDist_trail ..)
  exact (h1.trans h2).trans (journaled_propLoop fuel _ _ _ _ h)

/-- fn propagate_all is journaled: the whole drain appends a Level-free,
exactly reversible trail segment. -/
theorem journaled_propagateAll (fuel : Nat) :
    ∀ (s : IncSTN) (r : NetworkStatus) (s' : IncSTN),
      IncSTN.propagateAll fuel s = (r, s') → Journaled s s' := by
  induction fuel with
  | zero =>
    intro s r s' h
    rw [IncSTN.propagateAll.eq_def] at h
    dsimp only at h
    cases hp : s.pendingActivations with
    | nil =>
      rw [hp] at h
      dsimp only at h
      cases h
      exact journaled_self _
    | cons edge rest =>
      rw [hp] at h
      dsimp only at h
      cases h
      exact journaled_self _
  | succ fuel ih =>
    intro s r s' h
    rw [IncSTN.propagateAll.eq_def] at h
    dsimp only at h
    cases hp : s.pendingActivations with
    | nil =>
      rw [hp] at h
      dsimp only at h
      cases h
      exact journaled_self _
    | cons edge rest =>
      rw [hp] at h
      dsimp only at h
      have hpop : Journaled s { s with pendingActivations := rest } :=
        journaled_of_coreEq ⟨rfl, rfl, rfl, rfl⟩ rfl
      cases hc : ({ s with pendingActivations := rest } : IncSTN).constraints[edge]? with
      | none =>
        rw [hc] at h
        cases h
        exact hpop
      | some c =>
        rw [hc] at h
        dsimp only at h
        split at h
        · split at h
          · cases h
            exact hpop.trans (journaled_of_coreEq ⟨rfl, rfl, rfl, rfl⟩ rfl)
          · exact hpop.trans (ih _ _ _ h)
        · split at h
          · rename_i hact
            have hact' : c.active = false := by
              simpa using hact
            have hj2 := journaled_activate hc hact'
            generalize hP : IncSTN.propagate fuel _ edge = res at h
            obtain ⟨r2, s2⟩ := res
            have hj3 : Journaled s s2 :=
              hpop.trans (hj2.trans (journaled_propagate fuel _ edge _ _ hP))
            cases r2 with
            | consistent =>
              dsimp only at h
              exact hj3.trans (ih _ _ _ h)
            | inconsistent cyc =>
              dsimp only at h
              cases h
              exact hj3
            | stuck =>
              dsimp only at h
              cases h
              exact hj3
          · exact hpop.trans (ih _ _ _ h)

theorem execOps_append {s : IncSTN} {a b : List Op} {s' : IncSTN}
    (h : execOps s (a ++ b) = some s') :
    ∃ s1, execOps s a = some s1 ∧ execOps s1 b = some s' := by
  induction a generalizing s with
  | nil => exact ⟨s, rfl, h⟩
  | cons op rest ih =>
    rw [List.cons_append, execOps] at h
    split at h
    · rename_i s1 h1
      obtain ⟨s2, h2, h3⟩ := ih h
      refine ⟨s2, ?_, h3⟩
      rw [execOps, h1]
      exact h2
    · cases h

/-- Explicit behavior of undo_to_last_backtrack_point on a trail whose
Level-free prefix E precedes a Level marker. -/
theorem undo_eq_of_level {s : IncSTN} {E : List Event} {l : Nat} {t : List Event}
    (htrail : s.trail = E ++ .level l :: t) (hE : LevelFree E) :
    s.undoToLastBacktrackPoint = (some l, { rollback E s with trail := t }) := by
  unfold IncSTN.undoToLastBacktrackPoint
  rw [htrail, undoFrom_level E hE l t s]

/-- Every facade operation other than set_backtrack_point and undo is
journaled. -/
theorem journaled_applyOp {s s' : IncSTN} {op : Op}
    (hbp : op ≠ .setBP) (hun : op ≠ .undo)
    (h : applyOp s op = some s') : Journaled s s' := by
  cases op with
  | addNode l u =>
    simp only [applyOp, Option.map_eq_some'] at h
    obtain ⟨⟨s1, id⟩, h1, h2⟩ := h
    rw [← h2]
    exact journaled_addNode h1
  | addInactiveEdge a b w =>
    simp only [applyOp, Option.map_eq_some'] at h
    obtain ⟨⟨s1, id⟩, h1, h2⟩ := h
    rw [← h2]
    exact journaled_addConstraint h1
  | addEdge a b w =>
    simp only [applyOp, IncSTN.addEdge, Option.map_eq_some'] at h
    obtain ⟨⟨s1, id⟩, ⟨⟨s0, id0⟩, h0, h0e⟩, h2⟩ := h
    cases h0e
    rw [← h2]
    exact (journaled_addConstraint h0).trans (journaled_markActive s0 id0)
  | markActive e =>
    cases h
    exact journaled_markActive s e
  | propagateAll fuel =>
    cases h
    exact journaled_propagateAll fuel s _ _ rfl
  | setBP => exact absurd rfl hbp
  | undo => exact absurd rfl hun

/-- A balanced block of operations: set_backtrack_point / undo occur only
as matched, well-nested pairs. -/
inductive Matched : List Op → Prop
  | nil : Matched []
  | plain (op : Op) (rest : List Op) :
      op ≠ .setBP → op ≠ .undo → Matched rest → Matched (op :: rest)
  | wrap (inner rest : List Op) : Matched inner → Matched rest →
      Matched (.setBP :: inner ++ .undo :: rest)

/-- Executing a balanced block is journaled: its net effect on the trail is
a Level-free reversible segment, all its internal backtrack points being
consumed by its own undos. -/
theorem matched_exec {ops : List Op} (hm : Matched ops) :
    ∀ s s', execOps s ops = some s' → Journaled s s' := by
  induction hm with
  | nil =>
    intro s s' h
    cases h
    exact journaled_self s
  | plain op rest hbp hun hrest ih =>
    intro s s' h
    rw [execOps] at h
    split at h
    · rename_i s1 h1
      exact (journaled_applyOp hbp hun h1).trans (ih s1 s' h)
    · cases h
  | wrap inner rest hinner hrest ihinner ihrest =>
    intro s s' h
    have h0 : execOps s.setBacktrackPoint.1 (inner ++ (Op.undo :: rest)) = some s' := h
    obtain ⟨s2, h2, h3⟩ := execOps_append h0
    have h4 : execOps s2.undoToLastBacktrackPoint.2 rest = some s' := h3
    obtain ⟨E, hEf, hEt, hEc⟩ := ihinner _ s2 h2
    have htr : s2.trail = E ++ Event.level (s.level + 1) :: s.trail := hEt
    have hundo := undo_eq_of_level htr hEf
    have hs3 : s2.undoToLastBacktrackPoint.2 = { rollback E s2 with trail := s.trail } := by
      rw [hundo]
    rw [hs3] at h4
    have hc3 : CoreEq { rollback E s2 with trail := s.trail } s :=
      coreEq_trans ⟨rfl, rfl, rfl, rfl⟩ (coreEq_trans hEc ⟨rfl, rfl, rfl, rfl⟩)
    exact (journaled_of_coreEq hc3 rfl).trans (ihrest _ s' h4)

/-- k consecutive matched pairs of set_backtrack_point / undo, each
enclosing a balanced block. -/
inductive PairSeq : Nat → List Op → Prop
  | nil : PairSeq 0 []
  | cons (k : Nat) (inner rest : List Op) : Matched inner → PairSeq k rest →
      PairSeq (k + 1) (.setBP :: inner ++ .undo :: rest)

/-- Executing k matched pairs restores the journalled core and the trail
exactly. -/
theorem pairSeq_exec {k : Nat} {ops : List Op} (hp : PairSeq k ops) :
    ∀ s s', execOps s ops = some s' → CoreEq s' s ∧ s'.trail = s.trail := by
  induction hp with
  | nil =>
    intro s s' h
    cases h
    exact ⟨CoreEq.refl s, rfl⟩
  | cons k inner rest hinner hrest ih =>
    intro s s' h
    have h0 : execOps s.setBacktrackPoint.1 (inner ++ (Op.undo :: rest)) = some s' := h
    obtain ⟨s2, h2, h3⟩ := execOps_append h0
    have h4 : execOps s2.undoToLastBacktrackPoint.2 rest = some s' := h3
    obtain ⟨E, hEf, hEt, hEc⟩ := matched_exec hinner _ s2 h2
    have htr : s2.trail = E ++ Event.level (s.level + 1) :: s.trail := hEt
    have hundo := undo_eq_of_level htr hEf
    have hs3 : s2.undoToLastBacktrackPoint.2 = { rollback E s2 with trail := s.trail } := by
      rw [hundo]
    rw [hs3] at h4
    have hc3 : CoreEq { rollback E s2 with trail := s.trail } s :=
      coreEq_trans ⟨rfl, rfl, rfl, rfl⟩ (coreEq_trans hEc ⟨rfl, rfl, rfl, rfl⟩)
    obtain ⟨hc', ht'⟩ := ih _ s' h4
    exact ⟨coreEq_trans hc' hc3, ht'⟩

theorem coreEq_dist_core {a b : IncSTN} (h : CoreEq a b) (n : Nat) :
    (a.dist n).core = (b.dist n).core := by
  have h4 := h.2.2.2
  have hlen : a.distances.length = b.distances.length := by
    have := congrArg List.length h4
    simpa [IncSTN.distsCore] using this
  unfold IncSTN.dist
  cases hn : a.distances[n]? with
  | none =>
    have hn2 : b.distances[n]? = none := by
      rw [List.getElem?_eq_none_iff] at hn ⊢
      omega
    rw [List.getD_eq_getElem?_getD, List.getD_eq_getElem?_getD, hn, hn2]
  | some d =>
    have hnl : n < a.distances.length := (List.getElem?_eq_some_iff.mp hn).1
    obtain ⟨d2, hn2⟩ : ∃ d2, b.distances[n]? = some d2 :=
      ⟨b.distances[n], List.getElem?_eq_some_iff.mpr ⟨hlen ▸ hnl, rfl⟩⟩
    have hpt := congrArg (fun l => l[n]?) h4
    simp only [IncSTN.distsCore, List.getElem?_map, hn, hn2, Option.map_some'] at hpt
    rw [List.getD_eq_getElem?_getD, List.getD_eq_getElem?_getD, hn, hn2]
    simpa using hpt

theorem coreEq_lb_ub {a b : IncSTN} (h : CoreEq a b) (n : Nat) :
    a.lb n = b.lb n ∧ a.ub n = b.ub n := by
  have hc := coreEq_dist_core h n
  simp only [Distance.core, Prod.mk.injEq] at hc
  exact ⟨by simp [IncSTN.lb, hc.2.2.1], by simp [IncSTN.ub, hc.1]⟩

/-- C1 counterexample: new() leaves its two internal origin self-loop
activations pending (queue length 2); set_backtrack_point, propagate_all
(which drains them without trailing the pops), then
undo_to_last_backtrack_point is one matched pair, after which the queue
length is 0, not 2 — the pending-activation queue length is not restored. -/
theorem c1_counterexample :
    STN.PairSeq 1 [.setBP, .propagateAll 9, .undo]
    ∧ (STN.execOps STN.IncSTN.new [.setBP, .propagateAll 9, .undo]).map
        (fun s => s.pendingActivations.length) = some 0
    ∧ STN.IncSTN.new.pendingActivations.length = 2
    ∧ (0 : Nat) ≠ 2 := by
  refine ⟨?_, rfl, rfl, by decide⟩
  exact STN.PairSeq.cons 0 [.propagateAll 9] []
    (STN.Matched.plain _ _ (by simp) (by simp) STN.Matched.nil) STN.PairSeq.nil

/-- C1 (amended): for every sequence of STN facade operations and every k
matched pairs of set_backtrack_point / undo_to_last_backtrack_point
(each enclosing a balanced block), after the k-th undo the STN is
observably identical to its state just before the first
set_backtrack_point on node count, edge list, lb(n)/ub(n) for every node
and the trail; the pending-activation queue length is not part of the
restored observables (activations drained by a propagate_all inside the
group are not re-enqueued). -/
theorem c1_matched_pairs_restore (k : Nat) (ops : List STN.Op)
    (s s' : STN.IncSTN)
    (hp : STN.PairSeq k ops) (hk : 1 ≤ k)
    (h : STN.execOps s ops = some s') :
    s'.numNodes = s.numNodes ∧ s'.constraints = s.constraints ∧
    (∀ n, s'.lb n = s.lb n ∧ s'.ub n = s.ub n) ∧ s'.trail = s.trail := by
  obtain ⟨hc, ht⟩ := STN.pairSeq_exec hp s s' h
  refine ⟨?_, hc.1, fun n => STN.coreEq_lb_ub hc n, ht⟩
  unfold STN.IncSTN.numNodes
  rw [hc.2.1]

/-- C1 witness: one concrete matched pair (set_backtrack_point, add_node
[0,5], undo) on the fresh network restores node count, constraints, all
bounds and the trail. -/
theorem c1_witness :
    STN.PairSeq 1 [.setBP, .addNode 0 5, .undo] ∧ (1 : Nat) ≤ 1
    ∧ STN.execOps STN.IncSTN.new [.setBP, .addNode 0 5, .undo] =
        some (STN.runOps [.setBP, .addNode 0 5, .undo])
    ∧ ((STN.runOps [.setBP, .addNode 0 5, .undo]).numNodes =
        STN.IncSTN.new.numNodes
      ∧ (STN.runOps [.setBP, .addNode 0 5, .undo]).constraints =
        STN.IncSTN.new.constraints
      ∧ (∀ n, (STN.runOps [.setBP, .addNode 0 5, .undo]).lb n =
            STN.IncSTN.new.lb n
          ∧ (STN.runOps [.setBP, .addNode 0 5, .undo]).ub n =
            STN.IncSTN.new.ub n)
      ∧ (STN.runOps [.setBP, .addNode 0 5, .undo]).trail =
        STN.IncSTN.new.trail) := by
  have hp : STN.PairSeq 1 [.setBP, .addNode 0 5, .undo] :=
    STN.PairSeq.cons 0 [.addNode 0 5] []
      (STN.Matched.plain _ _ (by simp) (by simp) STN.Matched.nil) STN.PairSeq.nil
  exact ⟨hp, le_refl 1, rfl,
    c1_matched_pairs_restore 1 _ _ _ hp (le_refl 1) rfl⟩

/-- Splitting an append at a Level marker that cannot lie in the Level-free
first segment. -/
theorem append_level_split {E' t E0 rest : List Event} {l : Nat}
    (h : E' ++ Event.level l :: t = E0 ++ rest) (hE0 : LevelFree E0) :
    ∃ E, E' = E0 ++ E ∧ rest = E ++ Event.level l :: t := by
  induction E0 generalizing E' with
  | nil => exact ⟨E', by simpa using h.symm ▸ rfl, by simpa using h.symm⟩
  | cons ev E0' ih =>
    cases E' with
    | nil =>
      simp only [List.nil_append, List.cons_append] at h
      have : Event.level l = ev := by
        exact (List.cons_eq_cons.mp h).1
      exact absurd this.symm (by
        intro hc
        exact hE0 l (hc ▸ List.mem_cons_self ..))
    | cons ev' E'' =>
      simp only [List.cons_append] at h
      obtain ⟨h1, h2⟩ := List.cons_eq_cons.mp h
      have hE0' : LevelFree E0' := fun l2 hm => hE0 l2 (List.mem_cons_of_mem _ hm)
      obtain ⟨E, hE1, hE2⟩ := ih h2 hE0'
      exact ⟨E, by rw [hE1, h1, List.cons_append], hE2⟩

theorem first_level_cons {ev : Event} (hev : ∀ l, ev ≠ .level l)
    {rest : List Event}
    (h : LevelFree rest ∨ ∃ E l t, LevelFree E ∧ rest = E ++ Event.level l :: t) :
    LevelFree (ev :: rest) ∨
      ∃ E l t, LevelFree E ∧ ev :: rest = E ++ Event.level l :: t := by
  rcases h with hf | ⟨E, l, t, hE, ht⟩
  · exact Or.inl (levelFree_cons hev hf)
  · exact Or.inr ⟨ev :: E, l, t, levelFree_cons hev hE, by rw [ht, List.cons_append]⟩

/-- Every trail is Level-free or splits at its first Level marker. -/
theorem trail_first_level (T : List Event) :
    LevelFree T ∨ ∃ E l t, LevelFree E ∧ T = E ++ Event.level l :: t := by
  induction T with
  | nil => exact Or.inl levelFree_nil
  | cons ev rest ih =>
    cases ev with
    | level l => exact Or.inr ⟨[], l, rest, levelFree_nil, rfl⟩
    | nodeAdded | edgeAdded | newPendingActivation | edgeActivated e
    | forwardUpdate n d c | backwardUpdate n d c =>
      exact first_level_cons (by intro l2 h; cases h) ih

/-- The running invariant discipline: P holds now, after rolling back to
any Level marker of the trail, and after rolling back the whole trail. -/
def PInv (P : IncSTN → Prop) (s : IncSTN) : Prop :=
  P s ∧ (∀ E l t, s.trail = E ++ Event.level l :: t → P (rollback E s))
  ∧ P (rollback s.trail s)

/-- A journaled step whose endpoint satisfies P preserves the discipline,
provided P is determined by the journalled core. -/
theorem PInv.step {P : IncSTN → Prop}
    (hcoreP : ∀ a b, CoreEq a b → P a → P b)
    {s s' : IncSTN} (hJ : Journaled s s') (hF : P s') (hs : PInv P s) :
    PInv P s' := by
  obtain ⟨E0, hE0f, hE0t, hE0c⟩ := hJ
  obtain ⟨hP, hsplit, hbase⟩ := hs
  refine ⟨hF, ?_, ?_⟩
  · intro E' l t htr
    rw [hE0t] at htr
    obtain ⟨E, hE1, hE2⟩ := append_level_split htr.symm hE0f
    rw [hE1, rollback_append]
    exact hcoreP _ _ (coreEq_rollback hE0c E).symm (hsplit E l t hE2)
  · rw [hE0t, rollback_append]
    exact hcoreP _ _ (coreEq_rollback hE0c s.trail).symm hbase

/-- set_backtrack_point preserves the discipline. -/
theorem PInv.stepBP {P : IncSTN → Prop}
    (hcoreP : ∀ a b, CoreEq a b → P a → P b)
    {s : IncSTN} (hs : PInv P s) : PInv P s.setBacktrackPoint.1 := by
  obtain ⟨hP, hsplit, hbase⟩ := hs
  have hce : CoreEq s.setBacktrackPoint.1 s := ⟨rfl, rfl, rfl, rfl⟩
  refine ⟨hcoreP _ _ hce.symm hP, ?_, ?_⟩
  · intro E' l t htr
    have htr' : E' ++ Event.level l :: t =
        Event.level (s.level + 1) :: s.trail := htr.symm
    cases E' with
    | nil =>
      simp only [List.nil_append] at htr'
      obtain ⟨-, h2⟩ := List.cons_eq_cons.mp htr'
      exact hcoreP _ _ hce.symm hP
    | cons ev E =>
      simp only [List.cons_append] at htr'
      obtain ⟨h1, h2⟩ := List.cons_eq_cons.mp htr'
      rw [h1, rollback_cons, undoEvent_level]
      refine hcoreP _ _ (coreEq_rollback hce E).symm ?_
      exact hsplit E l t h2.symm
  · show P (rollback (Event.level (s.level + 1) :: s.trail) _)
    rw [rollback_cons, undoEvent_level]
    exact hcoreP _ _ (coreEq_rollback hce s.trail).symm hbase

/-- undo_to_last_backtrack_point preserves the discipline. -/
theorem PInv.stepUndo {P : IncSTN → Prop}
    (hcoreP : ∀ a b, CoreEq a b → P a → P b)
    {s : IncSTN} (hs : PInv P s) : PInv P s.undoToLastBacktrackPoint.2 := by
  obtain ⟨hP, hsplit, hbase⟩ := hs
  rcases trail_first_level s.trail with hf | ⟨E, l, t, hE, ht⟩
  · have hnl : s.undoToLastBacktrackPoint =
        (none, { rollback s.trail s with trail := [] }) := by
      unfold IncSTN.undoToLastBacktrackPoint
      exact undoFrom_no_level s.trail hf s
    rw [hnl]
    show PInv P { rollback s.trail s with trail := [] }
    refine ⟨hcoreP (rollback s.trail s) _ ⟨rfl, rfl, rfl, rfl⟩ hbase, ?_, ?_⟩
    · intro E' l t htr
      simp at htr
    · show P (rollback [] _)
      rw [rollback_nil]
      exact hcoreP (rollback s.trail s) _ ⟨rfl, rfl, rfl, rfl⟩ hbase
  · have hu := undo_eq_of_level ht hE
    rw [hu]
    show PInv P { rollback E s with trail := t }
    refine ⟨hcoreP (rollback E s) _ ⟨rfl, rfl, rfl, rfl⟩ (hsplit E l t ht), ?_, ?_⟩
    · intro E2 l2 t2 htr2
      have htr2n : t = E2 ++ Event.level l2 :: t2 := htr2
      have htr2' : s.trail = (E ++ Event.level l :: E2) ++ Event.level l2 :: t2 := by
        rw [ht]
        simp only [List.append_assoc, List.cons_append]
        rw [htr2n]
      have hsp := hsplit _ l2 t2 htr2'
      rw [rollback_append, rollback_cons, undoEvent_level] at hsp
      exact hcoreP _ _ (coreEq_rollback
        (⟨rfl, rfl, rfl, rfl⟩ :
          CoreEq (rollback E s) { rollback E s with trail := t }) E2) hsp
    · have hbase2 := hbase
      rw [ht, rollback_append, rollback_cons, undoEvent_level] at hbase2
      show P (rollback t { rollback E s with trail := t })
      exact hcoreP _ _ (coreEq_rollback
        (⟨rfl, rfl, rfl, rfl⟩ :
          CoreEq (rollback E s) { rollback E s with trail := t }) t) hbase2

theorem dist_setDist_self {s : IncSTN} {n : Nat} {f : Distance → Distance}
    {d : Distance} (h : s.distances[n]? = some d) :
    (s.setDist n f).dist n = f d := by
  unfold IncSTN.setDist
  rw [h]
  show IncSTN.dist _ n = f d
  unfold IncSTN.dist
  rw [List.getD_eq_getElem?_getD,
    List.getElem?_set_self (List.getElem?_eq_some_iff.mp h).1]
  rfl

theorem dist_setDist_ne (s : IncSTN) (n : Nat) (f : Distance → Distance)
    (m : Nat) (h : m ≠ n) : (s.setDist n f).dist m = s.dist m := by
  unfold IncSTN.setDist
  cases hn : s.distances[n]? with
  | none => rfl
  | some d =>
    show IncSTN.dist _ m = s.dist m
    unfold IncSTN.dist
    rw [List.getD_eq_getElem?_getD, List.getD_eq_getElem?_getD]
    rw [List.getElem?_set_ne (fun hc => h hc.symm)]

theorem setDist_none {s : IncSTN} {n : Nat} {f : Distance → Distance}
    (h : s.distances[n]? = none) : s.setDist n f = s := by
  unfold IncSTN.setDist
  rw [h]

/-- The invariant of C3: for every node, forward + backward is nonnegative
(out-of-range indices read the all-zero default record). -/
def Inv1 (s : IncSTN) : Prop := ∀ n, 0 ≤ s.fdist n + s.bdist n

theorem inv1_coreEq : ∀ a b : IncSTN, CoreEq a b → Inv1 a → Inv1 b := by
  intro a b h ha n
  have hd := coreEq_dist_core h n
  simp only [Distance.core, Prod.mk.injEq] at hd
  unfold IncSTN.fdist IncSTN.bdist
  rw [← hd.1, ← hd.2.2.1]
  exact ha n

theorem inv1_of_distances_eq {s s' : IncSTN}
    (h : s'.distances = s.distances) (hs : Inv1 s) : Inv1 s' := by
  intro n
  unfold IncSTN.fdist IncSTN.bdist IncSTN.dist
  rw [h]
  exact hs n

/-- Forward relaxation preserves Inv1: every applied update passed the
negative-cycle guard. -/
theorem inv1_relaxForward (edges : List Nat) :
    ∀ (s : IncSTN) (queue : List Nat), Inv1 s →
      (∀ s' q', IncSTN.relaxForward s edges queue = .inl (s', q') → Inv1 s')
      ∧ (∀ s' e, IncSTN.relaxForward s edges queue = .inr (s', e) → Inv1 s') := by
  induction edges with
  | nil =>
    intro s queue hs
    constructor
    · intro s' q' h
      simp [IncSTN.relaxForward] at h
      rw [← h.1]
      exact hs
    · intro s' e h
      simp [IncSTN.relaxForward] at h
  | cons e0 rest ih =>
    intro s queue hs
    have hstep : ∀ (hlt : s.fdist (s.cstr e0).source + (s.cstr e0).weight
          < s.fdist (s.cstr e0).target)
        (hng : ¬ s.fdist (s.cstr e0).source + (s.cstr e0).weight
          + s.bdist (s.cstr e0).target < 0),
        Inv1 (IncSTN.setDist
          { s with trail := (Event.forwardUpdate (s.cstr e0).target
              (s.fdist (s.cstr e0).target)
              (s.dist (s.cstr e0).target).forwardCause) :: s.trail }
          (s.cstr e0).target
          (fun x =>
            { x with
                forward := s.fdist (s.cstr e0).source + (s.cstr e0).weight,
                forwardCause := some e0,
                forwardPendingUpdate := true })) := by
      intro hlt hng
      intro n
      cases hd : s.distances[(s.cstr e0).target]? with
      | none =>
        rw [setDist_none (by simpa using hd)]
        exact hs n
      | some d =>
        by_cases hn : n = (s.cstr e0).target
        · unfold IncSTN.fdist IncSTN.bdist
          rw [hn, dist_setDist_self (by simpa using hd)]
          show 0 ≤ s.fdist (s.cstr e0).source + (s.cstr e0).weight + d.backward
          have hb : d.backward = s.bdist (s.cstr e0).target := by
            unfold IncSTN.bdist
            rw [dist_of_get hd]
          rw [hb]
          exact not_lt.mp hng
        · unfold IncSTN.fdist IncSTN.bdist
          rw [dist_setDist_ne _ _ _ _ hn]
          exact hs n
    constructor
    · intro s' q' h
      rw [IncSTN.relaxForward.eq_def] at h
      simp only [] at h
      split at h
      · split at h
        · simp at h
        · rename_i hlt hng
          exact ((ih _ _ (hstep hlt hng)).1) _ _ h
      · exact ((ih _ _ hs).1) _ _ h
    · intro s' e h
      rw [IncSTN.relaxForward.eq_def] at h
      simp only [] at h
      split at h
      · split at h
        · simp at h
          rw [← h.1]
          exact hs
        · rename_i hlt hng
          exact ((ih _ _ (hstep hlt hng)).2) _ _ h
      · exact ((ih _ _ hs).2) _ _ h

/-- Backward relaxation preserves Inv1. -/
theorem inv1_relaxBackward (edges : List Nat) :
    ∀ (s : IncSTN) (queue : List Nat), Inv1 s →
      (∀ s' q', IncSTN.relaxBackward s edges queue = .inl (s', q') → Inv1 s')
      ∧ (∀ s' e, IncSTN.relaxBackward s edges queue = .inr (s', e) → Inv1 s') := by
  induction edges with
  | nil =>
    intro s queue hs
    constructor
    · intro s' q' h
      simp [IncSTN.relaxBackward] at h
      rw [← h.1]
      exact hs
    · intro s' e h
      simp [IncSTN.relaxBackward] at h
  | cons e0 rest ih =>
    intro s queue hs
    have hstep : ∀ (hlt : s.bdist (s.cstr e0).target + (s.cstr e0).weight
          < s.bdist (s.cstr e0).source)
        (hng : ¬ s.bdist (s.cstr e0).target + (s.cstr e0).weight
          + s.fdist (s.cstr e0).source < 0),
        Inv1 (IncSTN.setDist
          { s with trail := (Event.backwardUpdate (s.cstr e0).source
              (s.bdist (s.cstr e0).source)
              (s.dist (s.cstr e0).source).backwardCause) :: s.trail }
          (s.cstr e0).source
          (fun x =>
            { x with
                backward := s.bdist (s.cstr e0).target + (s.cstr e0).weight,
                backwardCause := some e0,
                backwardPendingUpdate := true })) := by
      intro hlt hng
      intro n
      cases hd : s.distances[(s.cstr e0).source]? with
      | none =>
        rw [setDist_none (by simpa using hd)]
        exact hs n
      | some d =>
        by_cases hn : n = (s.cstr e0).source
        · unfold IncSTN.fdist IncSTN.bdist
          rw [hn, dist_setDist_self (by simpa using hd)]
          show 0 ≤ d.forward + (s.bdist (s.cstr e0).target + (s.cstr e0).weight)
          have hb : d.forward = s.fdist (s.cstr e0).source := by
            unfold IncSTN.fdist
            rw [dist_of_get hd]
          rw [hb]
          have := not_lt.mp hng
          omega
        · unfold IncSTN.fdist IncSTN.bdist
          rw [dist_setDist_ne _ _ _ _ hn]
          exact hs n
    constructor
    · intro s' q' h
      rw [IncSTN.relaxBackward.eq_def] at h
      simp only [] at h
      split at h
      · split at h
        · simp at h
        · rename_i hlt hng
          exact ((ih _ _ (hstep hlt hng)).1) _ _ h
      · exact ((ih _ _ hs).1) _ _ h
    · intro s' e h
      rw [IncSTN.relaxBackward.eq_def] at h
      simp only [] at h
      split at h
      · split at h
        · simp at h
          rw [← h.1]
          exact hs
        · rename_i hlt hng
          exact ((ih _ _ (hstep hlt hng)).2) _ _ h
      · exact ((ih _ _ hs).2) _ _ h

/-- The work-queue loop preserves Inv1. -/
theorem inv1_propLoop (fuel : Nat) :
    ∀ (s : IncSTN) (queue : List Nat) (r : NetworkStatus) (s' : IncSTN),
      Inv1 s → IncSTN.propLoop fuel s queue = (r, s') → Inv1 s' := by
  induction fuel with
  | zero =>
    intro s queue r s' hs h
    simp [IncSTN.propLoop] at h
    rw [← h.2]
    exact hs
  | succ fuel ih =>
    intro s queue r s' hs h
    cases queue with
    | nil =>
      simp [IncSTN.propLoop] at h
      rw [← h.2]
      exact hs
    | cons u q =>
      rw [IncSTN.propLoop.eq_def] at h
      simp only [] at h
      generalize hF : (if (s.dist u).forwardPendingUpdate = true then
          IncSTN.relaxForward s (s.activeForwardEdges.getD u []) q
        else .inl (s, q)) = stepF at h
      have hiF : ∀ s1 q1, stepF = .inl (s1, q1) → Inv1 s1 := by
        intro s1 q1 he
        rw [he] at hF
        split at hF
        · exact (inv1_relaxForward _ s q hs).1 _ _ hF
        · cases hF
          exact hs
      have hiF2 : ∀ s1 e1, stepF = .inr (s1, e1) → Inv1 s1 := by
        intro s1 e1 he
        rw [he] at hF
        split at hF
        · exact (inv1_relaxForward _ s q hs).2 _ _ hF
        · cases hF
      cases stepF with
      | inr p =>
        obtain ⟨s1, e1⟩ := p
        have hi1 : Inv1 s1 := hiF2 s1 e1 rfl
        dsimp only at h
        cases hx : s1.extractCycleBackward e1 with
        | none =>
          rw [hx] at h
          cases h
          exact hi1
        | some expl =>
          rw [hx] at h
          cases h
          exact inv1_of_distances_eq rfl hi1
      | inl p =>
        obtain ⟨s1, q1⟩ := p
        have hi1 : Inv1 s1 := hiF s1 q1 rfl
        dsimp only at h
        generalize hB : (if (s1.dist u).backwardPendingUpdate = true then
            IncSTN.relaxBackward s1 (s1.activeBackwardEdges.getD u []) q1
          else .inl (s1, q1)) = stepB at h
        have hiB : ∀ s2 q2, stepB = .inl (s2, q2) → Inv1 s2 := by
          intro s2 q2 he
          rw [he] at hB
          split at hB
          · exact (inv1_relaxBackward _ s1 q1 hi1).1 _ _ hB
          · cases hB
            exact hi1
        have hiB2 : ∀ s2 e2, stepB = .inr (s2, e2) → Inv1 s2 := by
          intro s2 e2 he
          rw [he] at hB
          split at hB
          · exact (inv1_relaxBackward _ s1 q1 hi1).2 _ _ hB
          · cases hB
        cases stepB with
        | inr p2 =>
          obtain ⟨s2, e2⟩ := p2
          have hi2 : Inv1 s2 := hiB2 s2 e2 rfl
          dsimp only at h
          cases hx : s2.extractCycleForward e2 with
          | none =>
            rw [hx] at h
            cases h
            exact hi2
          | some expl =>
            rw [hx] at h
            cases h
            exact inv1_of_distances_eq rfl hi2
        | inl p2 =>
          obtain ⟨s2, q2⟩ := p2
          have hi2 : Inv1 s2 := hiB s2 q2 rfl
          dsimp only at h
          refine ih _ _ _ _ ?_ h
          intro n
          cases hd : s2.distances[u]? with
          | none =>
            rw [setDist_none hd]
            exact hi2 n
          | some d =>
            by_cases hn : n = u
            · unfold IncSTN.fdist IncSTN.bdist
              rw [hn, dist_setDist_self hd]
              show 0 ≤ d.forward + d.backward
              have h1 : d.forward = s2.fdist u := by
                unfold IncSTN.fdist
                rw [dist_of_get hd]
              have h2 : d.backward = s2.bdist u := by
                unfold IncSTN.bdist
                rw [dist_of_get hd]
              rw [h1, h2]
              exact hi2 u
            · unfold IncSTN.fdist IncSTN.bdist
              rw [dist_setDist_ne _ _ _ _ hn]
              exact hi2 n

/-- fn propagate preserves Inv1 (the seed only sets flags). -/
theorem inv1_propagate (fuel : Nat) (s : IncSTN) (edge : Nat)
    (r : NetworkStatus) (s' : IncSTN)
    (hs : Inv1 s) (h : IncSTN.propagate fuel s edge = (r, s')) : Inv1 s' := by
  unfold IncSTN.propagate at h
  dsimp only at h
  refine inv1_propLoop fuel _ _ _ _ ?_ h
  have hflag : ∀ (t : IncSTN) (m : Nat), Inv1 t → Inv1 (t.setDist m (fun x =>
      { x with forwardPendingUpdate := true, backwardPendingUpdate := true })) := by
    intro t m ht n
    cases hd : t.distances[m]? with
    | none =>
      rw [setDist_none hd]
      exact ht n
    | some d =>
      by_cases hn : n = m
      · unfold IncSTN.fdist IncSTN.bdist
        rw [hn, dist_setDist_self hd]
        show 0 ≤ d.forward + d.backward
        have h1 : d.forward = t.fdist m := by
          unfold IncSTN.fdist
          rw [dist_of_get hd]
        have h2 : d.backward = t.bdist m := by
          unfold IncSTN.bdist
          rw [dist_of_get hd]
        rw [h1, h2]
        exact ht m
      · unfold IncSTN.fdist IncSTN.bdist
        rw [dist_setDist_ne _ _ _ _ hn]
        exact ht n
  exact hflag _ _ (hflag _ _ hs)

/-- fn propagate_all preserves Inv1. -/
theorem inv1_propagateAll (fuel : Nat) :
    ∀ (s : IncSTN) (r : NetworkStatus) (s' : IncSTN),
      Inv1 s → IncSTN.propagateAll fuel s = (r, s') → Inv1 s' := by
  induction fuel with
  | zero =>
    intro s r s' hs h
    rw [IncSTN.propagateAll.eq_def] at h
    dsimp only at h
    cases hp : s.pendingActivations with
    | nil =>
      rw [hp] at h
      dsimp only at h
      cases h
      exact hs
    | cons edge rest =>
      rw [hp] at h
      dsimp only at h
      cases h
      exact hs
  | succ fuel ih =>
    intro s r s' hs h
    rw [IncSTN.propagateAll.eq_def] at h
    dsimp only at h
    cases hp : s.pendingActivations with
    | nil =>
      rw [hp] at h
      dsimp only at h
      cases h
      exact hs
    | cons edge rest =>
      rw [hp] at h
      dsimp only at h
      have hpop : Inv1 { s with pendingActivations := rest } :=
        inv1_of_distances_eq rfl hs
      cases hc : ({ s with pendingActivations := rest } : IncSTN).constraints[edge]? with
      | none =>
        rw [hc] at h
        cases h
        exact hpop
      | some c =>
        rw [hc] at h
        dsimp only at h
        split at h
        · split at h
          · cases h
            exact inv1_of_distances_eq rfl hpop
          · exact ih _ _ _ hpop h
        · split at h
          · have hact : Inv1 { { s with pendingActivations := rest } with
                constraints := ({ s with pendingActivations := rest } : IncSTN).constraints.set
                  edge { c with active := true },
                activeForwardEdges := listPush ({ s with pendingActivations := rest } : IncSTN).activeForwardEdges c.source edge,
                activeBackwardEdges := listPush ({ s with pendingActivations := rest } : IncSTN).activeBackwardEdges c.target edge,
                trail := .edgeActivated edge :: ({ s with pendingActivations := rest } : IncSTN).trail } :=
              inv1_of_distances_eq rfl hpop
            generalize hP : IncSTN.propagate fuel _ edge = res at h
            obtain ⟨r2, s2⟩ := res
            have hi2 : Inv1 s2 := inv1_propagate fuel _ edge _ _ hact hP
            cases r2 with
            | consistent =>
              dsimp only at h
              exact ih _ _ _ hi2 h
            | inconsistent cyc =>
              dsimp only at h
              cases h
              exact hi2
            | stuck =>
              dsimp only at h
              cases h
              exact hi2
          · exact ih _ _ _ hpop h

theorem inv1_of_append {s s' : IncSTN} {d : Distance}
    (h : s'.distances = s.distances ++ [d]) (hd : 0 ≤ d.forward + d.backward)
    (hs : Inv1 s) : Inv1 s' := by
  intro n
  unfold IncSTN.fdist IncSTN.bdist IncSTN.dist
  rw [h, List.getD_eq_getElem?_getD]
  by_cases hn : n < s.distances.length
  · rw [List.getElem?_append_left hn]
    have := hs n
    unfold IncSTN.fdist IncSTN.bdist IncSTN.dist at this
    rw [List.getD_eq_getElem?_getD] at this
    exact this
  · by_cases he : n = s.distances.length
    · rw [he, List.getElem?_concat_length]
      exact hd
    · have : (s.distances ++ [d])[n]? = none := by
        rw [List.getElem?_eq_none_iff]
        simp only [List.length_append, List.length_cons, List.length_nil]
        omega
      rw [this]
      show (0 : Int) ≤ 0 + 0
      omega

theorem inv1_applyOp {s s' : IncSTN} {op : Op}
    (hbp : op ≠ .setBP) (hun : op ≠ .undo)
    (h : applyOp s op = some s') (hs : Inv1 s) : Inv1 s' := by
  cases op with
  | addNode l u =>
    simp only [applyOp, Option.map_eq_some'] at h
    obtain ⟨⟨s1, id⟩, h1, h2⟩ := h
    have hlu : l ≤ u := by
      by_contra hc
      unfold IncSTN.addNode at h1
      simp [hc] at h1
    rw [addNode_eq s l u hlu] at h1
    simp only [Option.some.injEq, Prod.mk.injEq] at h1
    obtain ⟨h3, -⟩ := h1
    rw [← h2, ← h3]
    refine inv1_of_append rfl ?_ hs
    show 0 ≤ u + -l
    omega
  | addInactiveEdge a b w =>
    simp only [applyOp, Option.map_eq_some'] at h
    obtain ⟨⟨s1, id⟩, h1, h2⟩ := h
    unfold IncSTN.addInactiveEdge IncSTN.addConstraint at h1
    split at h1
    · simp only [Option.some.injEq, Prod.mk.injEq] at h1
      obtain ⟨h3, -⟩ := h1
      rw [← h2, ← h3]
      exact inv1_of_distances_eq rfl hs
    · cases h1
  | addEdge a b w =>
    simp only [applyOp, IncSTN.addEdge, Option.map_eq_some'] at h
    obtain ⟨⟨s1, id⟩, ⟨⟨s0, id0⟩, h0, h0e⟩, h2⟩ := h
    cases h0e
    unfold IncSTN.addInactiveEdge IncSTN.addConstraint at h0
    split at h0
    · simp only [Option.some.injEq, Prod.mk.injEq] at h0
      obtain ⟨h3, -⟩ := h0
      rw [← h2, ← h3]
      exact inv1_of_distances_eq rfl hs
    · cases h0
  | markActive e =>
    cases h
    exact inv1_of_distances_eq rfl hs
  | propagateAll fuel =>
    cases h
    exact inv1_propagateAll fuel s _ _ hs rfl
  | setBP => exact absurd rfl hbp
  | undo => exact absurd rfl hun

/-- The invariant discipline is preserved along every defined execution. -/
theorem pinv_execOps {P : IncSTN → Prop}
    (hcoreP : ∀ a b, CoreEq a b → P a → P b)
    (hF : ∀ {s s' : IncSTN} {op : Op}, op ≠ Op.setBP → op ≠ Op.undo →
      applyOp s op = some s' → P s → P s') :
    ∀ (ops : List Op) (s s' : IncSTN), PInv P s → execOps s ops = some s' →
      PInv P s' := by
  intro ops
  induction ops with
  | nil =>
    intro s s' hs h
    cases h
    exact hs
  | cons op rest ih =>
    intro s s' hs h
    by_cases hbp : op = Op.setBP
    · subst hbp
      have h0 : execOps s.setBacktrackPoint.1 rest = some s' := h
      exact ih _ _ (PInv.stepBP hcoreP hs) h0
    · by_cases hun : op = Op.undo
      · subst hun
        have h0 : execOps s.undoToLastBacktrackPoint.2 rest = some s' := h
        exact ih _ _ (PInv.stepUndo hcoreP hs) h0
      · rw [execOps] at h
        split at h
        · rename_i s1 h1
          exact ih _ _ (PInv.step hcoreP (journaled_applyOp hbp hun h1)
            (hF hbp hun h1 hs.1) hs) h
        · cases h

theorem inv1_new : Inv1 IncSTN.new := by
  intro n
  match n with
  | 0 => decide
  | m + 1 =>
    have hlen : IncSTN.new.distances.length = 1 := rfl
    unfold IncSTN.fdist IncSTN.bdist IncSTN.dist
    rw [List.getD_eq_getElem?_getD]
    have : IncSTN.new.distances[m + 1]? = none := by
      rw [List.getElem?_eq_none_iff, hlen]
      omega
    rw [this]
    show (0 : Int) ≤ 0 + 0
    omega

theorem pinv_inv1_new : PInv Inv1 IncSTN.new := by
  refine ⟨inv1_new, ?_, ?_⟩
  · intro E l t h
    have : ([] : List Event) = E ++ Event.level l :: t := h
    exact absurd this.symm (by simp)
  · show Inv1 (rollback IncSTN.new.trail IncSTN.new)
    have : IncSTN.new.trail = [] := rfl
    rw [this, rollback_nil]
    exact inv1_new

/-- A state reachable from new() by facade operations. -/
def Reachable (s : IncSTN) : Prop := ∃ ops, execOps IncSTN.new ops = some s

theorem reachable_inv1 {s : IncSTN} (h : Reachable s) : Inv1 s := by
  obtain ⟨ops, h⟩ := h
  exact (pinv_execOps inv1_coreEq (fun hbp hun h1 hP => inv1_applyOp hbp hun h1 hP)
    ops IncSTN.new s pinv_inv1_new h).1

/-- C3: in every reachable STN state whose last call to propagate_all
returned Consistent, every node n satisfies forward[n] + backward[n] ≥ 0,
equivalently lb(n) ≤ ub(n).  (The invariant in fact holds in every
reachable state, the consistency hypothesis included for fidelity to the
claim.) -/
theorem c3_forward_backward_nonneg (s s' : STN.IncSTN) (fuel : Nat)
    (hreach : STN.Reachable s)
    (hcons : STN.IncSTN.propagateAll fuel s = (.consistent, s')) :
    ∀ n, 0 ≤ s'.fdist n + s'.bdist n ∧ s'.lb n ≤ s'.ub n := by
  have hs : STN.Inv1 s := STN.reachable_inv1 hreach
  have hs' : STN.Inv1 s' := STN.inv1_propagateAll fuel s _ s' hs hcons
  intro n
  refine ⟨hs' n, ?_⟩
  have := hs' n
  unfold STN.IncSTN.fdist STN.IncSTN.bdist at this
  unfold STN.IncSTN.lb STN.IncSTN.ub
  omega

/-- C3 witness: on the concrete reachable network with one [0,5] node,
after a consistent propagate_all every node has forward + backward ≥ 0 and
lb ≤ ub. -/
theorem c3_witness :
    STN.Reachable (STN.runOps [.addNode 0 5])
    ∧ STN.IncSTN.propagateAll 20 (STN.runOps [.addNode 0 5]) =
        (.consistent, (STN.IncSTN.propagateAll 20 (STN.runOps [.addNode 0 5])).2)
    ∧ ∀ n, 0 ≤ (STN.IncSTN.propagateAll 20 (STN.runOps [.addNode 0 5])).2.fdist n
          + (STN.IncSTN.propagateAll 20 (STN.runOps [.addNode 0 5])).2.bdist n
        ∧ (STN.IncSTN.propagateAll 20 (STN.runOps [.addNode 0 5])).2.lb n
          ≤ (STN.IncSTN.propagateAll 20 (STN.runOps [.addNode 0 5])).2.ub n := by
  refine ⟨⟨[.addNode 0 5], rfl⟩, rfl, ?_⟩
  exact c3_forward_backward_nonneg (STN.runOps [.addNode 0 5]) _ 20
    ⟨[.addNode 0 5], rfl⟩ rfl

/-! ### The cause/adjacency invariants needed for explanation soundness -/

/-- The origin is pinned: both distances are zero. -/
def InvO (s : IncSTN) : Prop := s.fdist 0 = 0 ∧ s.bdist 0 = 0

/-- Forward causes are sound: the cause edge of n targets n, its relaxation
inequality holds, and it is internal or active. -/
def InvF (s : IncSTN) : Prop := ∀ n e, (s.dist n).forwardCause = some e →
  (s.cstr e).target = n ∧
  s.fdist (s.cstr e).source + (s.cstr e).weight ≤ s.fdist n ∧
  ((s.cstr e).internal = true ∨ (s.cstr e).active = true)

/-- Backward causes are sound. -/
def InvB (s : IncSTN) : Prop := ∀ n e, (s.dist n).backwardCause = some e →
  (s.cstr e).source = n ∧
  s.bdist (s.cstr e).target + (s.cstr e).weight ≤ s.bdist n ∧
  ((s.cstr e).internal = true ∨ (s.cstr e).active = true)

/-- Members of the forward adjacency lists are active. -/
def InvAdjF (s : IncSTN) : Prop :=
  ∀ u e, e ∈ s.activeForwardEdges.getD u [] → (s.cstr e).active = true

/-- Members of the backward adjacency lists are active. -/
def InvAdjB (s : IncSTN) : Prop :=
  ∀ u e, e ∈ s.activeBackwardEdges.getD u [] → (s.cstr e).active = true

/-- Internal edges touch the origin, and internal self-loops (the origin's
own bound edges) have nonnegative weight. -/
def InvShape (s : IncSTN) : Prop := ∀ e, (s.cstr e).internal = true →
  ((s.cstr e).source = 0 ∨ (s.cstr e).target = 0) ∧
  ((s.cstr e).source = (s.cstr e).target → 0 ≤ (s.cstr e).weight)

/-- Internal upper-bound edges dominate the forward distance of their
target. -/
def InvUB (s : IncSTN) : Prop := ∀ e, (s.cstr e).internal = true →
  (s.cstr e).source = 0 → s.fdist (s.cstr e).target ≤ (s.cstr e).weight

/-- Internal lower-bound edges dominate the backward distance of their
source. -/
def InvLB (s : IncSTN) : Prop := ∀ e, (s.cstr e).internal = true →
  (s.cstr e).target = 0 → s.bdist (s.cstr e).source ≤ (s.cstr e).weight

/-- Active edges are never self-loops. -/
def InvNoSelf (s : IncSTN) : Prop := ∀ e, (s.cstr e).active = true →
  (s.cstr e).source ≠ (s.cstr e).target

/-- The origin exists. -/
def InvN (s : IncSTN) : Prop := 1 ≤ s.activeForwardEdges.length

/-- The three per-node arrays stay in sync: one distance record and one
backward adjacency row per forward adjacency row. -/
def InvL (s : IncSTN) : Prop :=
  s.distances.length = s.activeForwardEdges.length ∧
  s.activeBackwardEdges.length = s.activeForwardEdges.length

theorem setDist_dlen (s : IncSTN) (n : Nat) (f : Distance → Distance) :
    (s.setDist n f).distances.length = s.distances.length := by
  unfold IncSTN.setDist
  cases h : s.distances[n]? with
  | none => rfl
  | some d => simp [List.length_set]

/-- Every stored constraint has both endpoints among the existing nodes
(add_constraint asserts this at insertion and undo pops dependents in
order). -/
def InvR (s : IncSTN) : Prop := ∀ (e : Nat) (c : Constraint),
  s.constraints[e]? = some c →
  c.source < s.activeForwardEdges.length ∧ c.target < s.activeForwardEdges.length

/-- All running invariants of the propagator together. -/
def GoodCore (s : IncSTN) : Prop :=
  Inv1 s ∧ InvO s ∧ InvF s ∧ InvB s ∧ InvAdjF s ∧ InvAdjB s ∧ InvShape s ∧
  InvUB s ∧ InvLB s ∧ InvNoSelf s ∧ InvN s ∧ InvL s ∧ InvR s

theorem coreEq_cstr {a b : IncSTN} (h : CoreEq a b) (e : Nat) :
    a.cstr e = b.cstr e := by
  unfold IncSTN.cstr
  rw [h.1]

theorem coreEq_fdist {a b : IncSTN} (h : CoreEq a b) (n : Nat) :
    a.fdist n = b.fdist n := by
  have hd := coreEq_dist_core h n
  simp only [Distance.core, Prod.mk.injEq] at hd
  unfold IncSTN.fdist
  rw [hd.1]

theorem coreEq_bdist {a b : IncSTN} (h : CoreEq a b) (n : Nat) :
    a.bdist n = b.bdist n := by
  have hd := coreEq_dist_core h n
  simp only [Distance.core, Prod.mk.injEq] at hd
  unfold IncSTN.bdist
  rw [hd.2.2.1]

theorem coreEq_fcause {a b : IncSTN} (h : CoreEq a b) (n : Nat) :
    (a.dist n).forwardCause = (b.dist n).forwardCause := by
  have hd := coreEq_dist_core h n
  simp only [Distance.core, Prod.mk.injEq] at hd
  exact hd.2.1

theorem coreEq_bcause {a b : IncSTN} (h : CoreEq a b) (n : Nat) :
    (a.dist n).backwardCause = (b.dist n).backwardCause := by
  have hd := coreEq_dist_core h n
  simp only [Distance.core, Prod.mk.injEq] at hd
  exact hd.2.2.2

theorem goodCore_coreEq : ∀ a b : IncSTN, CoreEq a b → GoodCore a → GoodCore b := by
  intro a b h ha
  obtain ⟨h1, h2, h3, h4, h5, h6, h7, h8, h9, h10, h11, h12, h13⟩ := ha
  refine ⟨inv1_coreEq a b h h1, ?_, ?_, ?_, ?_, ?_, ?_, ?_, ?_, ?_, ?_, ?_, ?_⟩
  · exact ⟨(coreEq_fdist h 0) ▸ h2.1, (coreEq_bdist h 0) ▸ h2.2⟩
  · intro n e he
    rw [← coreEq_fcause h n] at he
    obtain ⟨k1, k2, k3⟩ := h3 n e he
    rw [coreEq_cstr h e] at k1 k3
    refine ⟨k1, ?_, k3⟩
    rw [← coreEq_cstr h e, ← coreEq_fdist h (a.cstr e).source, ← coreEq_fdist h n]
    exact k2
  · intro n e he
    rw [← coreEq_bcause h n] at he
    obtain ⟨k1, k2, k3⟩ := h4 n e he
    rw [coreEq_cstr h e] at k1 k3
    refine ⟨k1, ?_, k3⟩
    rw [← coreEq_cstr h e, ← coreEq_bdist h (a.cstr e).target, ← coreEq_bdist h n]
    exact k2
  · intro u e he
    rw [← h.2.1] at he
    rw [← coreEq_cstr h e]
    exact h5 u e he
  · intro u e he
    rw [← h.2.2.1] at he
    rw [← coreEq_cstr h e]
    exact h6 u e he
  · intro e he
    rw [← coreEq_cstr h e] at he ⊢
    exact h7 e he
  · intro e he hsrc
    rw [← coreEq_cstr h e] at he hsrc ⊢
    rw [← coreEq_fdist h (a.cstr e).target]
    exact h8 e he hsrc
  · intro e he htgt
    rw [← coreEq_cstr h e] at he htgt ⊢
    rw [← coreEq_bdist h (a.cstr e).source]
    exact h9 e he htgt
  · intro e he
    rw [← coreEq_cstr h e] at he ⊢
    exact h10 e he
  · unfold InvN
    rw [← h.2.1]
    exact h11
  · have hdl : a.distances.length = b.distances.length := by
      have := congrArg List.length h.2.2.2
      simpa [IncSTN.distsCore] using this
    unfold InvL
    rw [← h.2.1, ← h.2.2.1, ← hdl]
    exact h12
  · intro e c0 hc0
    rw [← h.1] at hc0
    have := h13 e c0 hc0
    rw [h.2.1] at this
    exact this

theorem cstr_setDist (s : IncSTN) (n : Nat) (f : Distance → Distance) (e : Nat) :
    (s.setDist n f).cstr e = s.cstr e := by
  unfold IncSTN.cstr
  rw [setDist_constraints]

theorem cstr_eq_of_constraints_eq {a b : IncSTN}
    (h : a.constraints = b.constraints) (e : Nat) : a.cstr e = b.cstr e := by
  unfold IncSTN.cstr
  rw [h]

/-- One applied forward relaxation preserves all running invariants. -/
theorem goodCore_fwdStep (s : IncSTN) (e0 : Nat)
    (hact0 : (s.cstr e0).active = true)
    (hg : GoodCore s)
    (hlt : s.fdist (s.cstr e0).source + (s.cstr e0).weight
      < s.fdist (s.cstr e0).target)
    (hng : ¬ s.fdist (s.cstr e0).source + (s.cstr e0).weight
      + s.bdist (s.cstr e0).target < 0) :
    GoodCore (IncSTN.setDist
      { s with trail := (Event.forwardUpdate (s.cstr e0).target
          (s.fdist (s.cstr e0).target)
          (s.dist (s.cstr e0).target).forwardCause) :: s.trail }
      (s.cstr e0).target
      (fun x =>
        { x with
            forward := s.fdist (s.cstr e0).source + (s.cstr e0).weight,
            forwardCause := some e0,
            forwardPendingUpdate := true })) := by
  obtain ⟨h1, h2, h3, h4, h5, h6, h7, h8, h9, h10, h11, h12, h13⟩ := hg
  set tgt := (s.cstr e0).target with htgt
  set cand := s.fdist (s.cstr e0).source + (s.cstr e0).weight with hcand
  cases hd : s.distances[tgt]? with
  | none =>
    rw [setDist_none (by simpa using hd)]
    exact goodCore_coreEq s _ ⟨rfl, rfl, rfl, rfl⟩
      ⟨h1, h2, h3, h4, h5, h6, h7, h8, h9, h10, h11, h12, h13⟩
  | some d =>
    have hne0 : tgt ≠ 0 := by
      intro hc
      rw [hc] at hlt hng
      rw [h2.1] at hlt
      rw [h2.2] at hng
      omega
    have hsrc_ne : (s.cstr e0).source ≠ tgt := h10 e0 hact0
    have hfd : ∀ m, (IncSTN.setDist
        { s with trail := (Event.forwardUpdate tgt (s.fdist tgt)
            (s.dist tgt).forwardCause) :: s.trail } tgt
        (fun x =>
          { x with forward := cand, forwardCause := some e0,
                   forwardPendingUpdate := true })).fdist m
        = if m = tgt then cand else s.fdist m := by
      intro m
      by_cases hm : m = tgt
      · rw [hm, if_pos rfl]
        unfold IncSTN.fdist
        rw [dist_setDist_self (by simpa using hd)]
      · rw [if_neg hm]
        unfold IncSTN.fdist
        rw [dist_setDist_ne _ _ _ _ hm]
        rfl
    have hbd : ∀ m, (IncSTN.setDist
        { s with trail := (Event.forwardUpdate tgt (s.fdist tgt)
            (s.dist tgt).forwardCause) :: s.trail } tgt
        (fun x =>
          { x with forward := cand, forwardCause := some e0,
                   forwardPendingUpdate := true })).bdist m = s.bdist m := by
      intro m
      by_cases hm : m = tgt
      · rw [hm]
        unfold IncSTN.bdist
        rw [dist_setDist_self (by simpa using hd), dist_of_get hd]
      · unfold IncSTN.bdist
        rw [dist_setDist_ne _ _ _ _ hm]
        rfl
    have hfc : ∀ m, ((IncSTN.setDist
        { s with trail := (Event.forwardUpdate tgt (s.fdist tgt)
            (s.dist tgt).forwardCause) :: s.trail } tgt
        (fun x =>
          { x with forward := cand, forwardCause := some e0,
                   forwardPendingUpdate := true })).dist m).forwardCause
        = if m = tgt then some e0 else (s.dist m).forwardCause := by
      intro m
      by_cases hm : m = tgt
      · rw [hm, if_pos rfl, dist_setDist_self (by simpa using hd)]
      · rw [if_neg hm, dist_setDist_ne _ _ _ _ hm]
        rfl
    have hbc : ∀ m, ((IncSTN.setDist
        { s with trail := (Event.forwardUpdate tgt (s.fdist tgt)
            (s.dist tgt).forwardCause) :: s.trail } tgt
        (fun x =>
          { x with forward := cand, forwardCause := some e0,
                   forwardPendingUpdate := true })).dist m).backwardCause
        = (s.dist m).backwardCause := by
      intro m
      by_cases hm : m = tgt
      · rw [hm, dist_setDist_self (by simpa using hd), dist_of_get hd]
      · rw [dist_setDist_ne _ _ _ _ hm]
        rfl
    have hcs : ∀ e, (IncSTN.setDist
        { s with trail := (Event.forwardUpdate tgt (s.fdist tgt)
            (s.dist tgt).forwardCause) :: s.trail } tgt
        (fun x =>
          { x with forward := cand, forwardCause := some e0,
                   forwardPendingUpdate := true })).cstr e = s.cstr e := by
      intro e
      rw [cstr_setDist]
      rfl
    have hmono : ∀ m, (IncSTN.setDist
        { s with trail := (Event.forwardUpdate tgt (s.fdist tgt)
            (s.dist tgt).forwardCause) :: s.trail } tgt
        (fun x =>
          { x with forward := cand, forwardCause := some e0,
                   forwardPendingUpdate := true })).fdist m ≤ s.fdist m := by
      intro m
      rw [hfd m]
      by_cases hm : m = tgt
      · rw [if_pos hm, hm]
        exact le_of_lt hlt
      · rw [if_neg hm]
    refine ⟨?_, ?_, ?_, ?_, ?_, ?_, ?_, ?_, ?_, ?_, ?_, ?_, ?_⟩
    · intro n
      rw [hfd n, hbd n]
      by_cases hn : n = tgt
      · rw [if_pos hn, hn]
        omega
      · rw [if_neg hn]
        exact h1 n
    · constructor
      · rw [hfd 0, if_neg (fun hc => hne0 hc.symm)]
        exact h2.1
      · rw [hbd 0]
        exact h2.2
    · intro n e he
      rw [hfc n] at he
      by_cases hn : n = tgt
      · rw [if_pos hn] at he
        cases he
        rw [hcs e0]
        refine ⟨htgt.symm.trans hn.symm, ?_, Or.inr hact0⟩
        rw [hfd n, if_pos hn, hfd (s.cstr e0).source, if_neg hsrc_ne]
      · rw [if_neg hn] at he
        obtain ⟨k1, k2, k3⟩ := h3 n e he
        rw [hcs e]
        refine ⟨k1, ?_, k3⟩
        rw [hfd n, if_neg hn]
        have hms := hmono (s.cstr e).source
        omega
    · intro n e he
      rw [hbc n] at he
      obtain ⟨k1, k2, k3⟩ := h4 n e he
      rw [hcs e]
      refine ⟨k1, ?_, k3⟩
      rw [hbd n, hbd (s.cstr e).target]
      exact k2
    · intro u e he
      rw [setDist_afe] at he
      rw [hcs e]
      exact h5 u e he
    · intro u e he
      rw [setDist_abe] at he
      rw [hcs e]
      exact h6 u e he
    · intro e he
      rw [hcs e] at he ⊢
      exact h7 e he
    · intro e he hsrc
      rw [hcs e] at he hsrc ⊢
      exact le_trans (hmono (s.cstr e).target) (h8 e he hsrc)
    · intro e he htgt2
      rw [hcs e] at he htgt2 ⊢
      rw [hbd (s.cstr e).source]
      exact h9 e he htgt2
    · intro e he
      rw [hcs e] at he ⊢
      exact h10 e he
    · unfold InvN
      rw [setDist_afe]
      exact h11
    · unfold InvL
      rw [setDist_dlen, setDist_afe, setDist_abe]
      exact h12
    · intro e2 c2 hc2
      rw [setDist_constraints] at hc2
      have := h13 e2 c2 hc2
      rw [setDist_afe]
      exact this

/-- One applied backward relaxation preserves all running invariants. -/
theorem goodCore_bwdStep (s : IncSTN) (e0 : Nat)
    (hact0 : (s.cstr e0).active = true)
    (hg : GoodCore s)
    (hlt : s.bdist (s.cstr e0).target + (s.cstr e0).weight
      < s.bdist (s.cstr e0).source)
    (hng : ¬ s.bdist (s.cstr e0).target + (s.cstr e0).weight
      + s.fdist (s.cstr e0).source < 0) :
    GoodCore (IncSTN.setDist
      { s with trail := (Event.backwardUpdate (s.cstr e0).source
          (s.bdist (s.cstr e0).source)
          (s.dist (s.cstr e0).source).backwardCause) :: s.trail }
      (s.cstr e0).source
      (fun x =>
        { x with
            backward := s.bdist (s.cstr e0).target + (s.cstr e0).weight,
            backwardCause := some e0,
            backwardPendingUpdate := true })) := by
  obtain ⟨h1, h2, h3, h4, h5, h6, h7, h8, h9, h10, h11, h12, h13⟩ := hg
  set src := (s.cstr e0).source with hsrc
  set cand := s.bdist (s.cstr e0).target + (s.cstr e0).weight with hcand
  cases hd : s.distances[src]? with
  | none =>
    rw [setDist_none (by simpa using hd)]
    exact goodCore_coreEq s _ ⟨rfl, rfl, rfl, rfl⟩
      ⟨h1, h2, h3, h4, h5, h6, h7, h8, h9, h10, h11, h12, h13⟩
  | some d =>
    have hne0 : src ≠ 0 := by
      intro hc
      rw [hc] at hlt hng
      rw [h2.2] at hlt
      rw [h2.1] at hng
      omega
    have htgt_ne : (s.cstr e0).target ≠ src := (h10 e0 hact0).symm
    have hbd : ∀ m, (IncSTN.setDist
        { s with trail := (Event.backwardUpdate src (s.bdist src)
            (s.dist src).backwardCause) :: s.trail } src
        (fun x =>
          { x with backward := cand, backwardCause := some e0,
                   backwardPendingUpdate := true })).bdist m
        = if m = src then cand else s.bdist m := by
      intro m
      by_cases hm : m = src
      · rw [hm, if_pos rfl]
        unfold IncSTN.bdist
        rw [dist_setDist_self (by simpa using hd)]
      · rw [if_neg hm]
        unfold IncSTN.bdist
        rw [dist_setDist_ne _ _ _ _ hm]
        rfl
    have hfd : ∀ m, (IncSTN.setDist
        { s with trail := (Event.backwardUpdate src (s.bdist src)
            (s.dist src).backwardCause) :: s.trail } src
        (fun x =>
          { x with backward := cand, backwardCause := some e0,
                   backwardPendingUpdate := true })).fdist m = s.fdist m := by
      intro m
      by_cases hm : m = src
      · rw [hm]
        unfold IncSTN.fdist
        rw [dist_setDist_self (by simpa using hd), dist_of_get hd]
      · unfold IncSTN.fdist
        rw [dist_setDist_ne _ _ _ _ hm]
        rfl
    have hbc : ∀ m, ((IncSTN.setDist
        { s with trail := (Event.backwardUpdate src (s.bdist src)
            (s.dist src).backwardCause) :: s.trail } src
        (fun x =>
          { x with backward := cand, backwardCause := some e0,
                   backwardPendingUpdate := true })).dist m).backwardCause
        = if m = src then some e0 else (s.dist m).backwardCause := by
      intro m
      by_cases hm : m = src
      · rw [hm, if_pos rfl, dist_setDist_self (by simpa using hd)]
      · rw [if_neg hm, dist_setDist_ne _ _ _ _ hm]
        rfl
    have hfc : ∀ m, ((IncSTN.setDist
        { s with trail := (Event.backwardUpdate src (s.bdist src)
            (s.dist src).backwardCause) :: s.trail } src
        (fun x =>
          { x with backward := cand, backwardCause := some e0,
                   backwardPendingUpdate := true })).dist m).forwardCause
        = (s.dist m).forwardCause := by
      intro m
      by_cases hm : m = src
      · rw [hm, dist_setDist_self (by simpa using hd), dist_of_get hd]
      · rw [dist_setDist_ne _ _ _ _ hm]
        rfl
    have hcs : ∀ e, (IncSTN.setDist
        { s with trail := (Event.backwardUpdate src (s.bdist src)
            (s.dist src).backwardCause) :: s.trail } src
        (fun x =>
          { x with backward := cand, backwardCause := some e0,
                   backwardPendingUpdate := true })).cstr e = s.cstr e := by
      intro e
      rw [cstr_setDist]
      rfl
    have hmono : ∀ m, (IncSTN.setDist
        { s with trail := (Event.backwardUpdate src (s.bdist src)
            (s.dist src).backwardCause) :: s.trail } src
        (fun x =>
          { x with backward := cand, backwardCause := some e0,
                   backwardPendingUpdate := true })).bdist m ≤ s.bdist m := by
      intro m
      rw [hbd m]
      by_cases hm : m = src
      · rw [if_pos hm, hm]
        exact le_of_lt hlt
      · rw [if_neg hm]
    refine ⟨?_, ?_, ?_, ?_, ?_, ?_, ?_, ?_, ?_, ?_, ?_, ?_, ?_⟩
    · intro n
      rw [hfd n, hbd n]
      by_cases hn : n = src
      · rw [if_pos hn, hn]
        omega
      · rw [if_neg hn]
        exact h1 n
    · constructor
      · rw [hfd 0]
        exact h2.1
      · rw [hbd 0, if_neg (fun hc => hne0 hc.symm)]
        exact h2.2
    · intro n e he
      rw [hfc n] at he
      obtain ⟨k1, k2, k3⟩ := h3 n e he
      rw [hcs e]
      refine ⟨k1, ?_, k3⟩
      rw [hfd n, hfd (s.cstr e).source]
      exact k2
    · intro n e he
      rw [hbc n] at he
      by_cases hn : n = src
      · rw [if_pos hn] at he
        cases he
        rw [hcs e0]
        refine ⟨hsrc.symm.trans hn.symm, ?_, Or.inr hact0⟩
        rw [hbd n, if_pos hn, hbd (s.cstr e0).target, if_neg htgt_ne]
      · rw [if_neg hn] at he
        obtain ⟨k1, k2, k3⟩ := h4 n e he
        rw [hcs e]
        refine ⟨k1, ?_, k3⟩
        rw [hbd n, if_neg hn]
        have hms := hmono (s.cstr e).target
        omega
    · intro u e he
      rw [setDist_afe] at he
      rw [hcs e]
      exact h5 u e he
    · intro u e he
      rw [setDist_abe] at he
      rw [hcs e]
      exact h6 u e he
    · intro e he
      rw [hcs e] at he ⊢
      exact h7 e he
    · intro e he hsrc2
      rw [hcs e] at he hsrc2 ⊢
      rw [hfd (s.cstr e).target]
      exact h8 e he hsrc2
    · intro e he htgt2
      rw [hcs e] at he htgt2 ⊢
      exact le_trans (hmono (s.cstr e).source) (h9 e he htgt2)
    · intro e he
      rw [hcs e] at he ⊢
      exact h10 e he
    · unfold InvN
      rw [setDist_afe]
      exact h11
    · unfold InvL
      rw [setDist_dlen, setDist_afe, setDist_abe]
      exact h12
    · intro e2 c2 hc2
      rw [setDist_constraints] at hc2
      have := h13 e2 c2 hc2
      rw [setDist_afe]
      exact this

/-- Forward relaxation preserves the running invariants, keeps the
constraint list, and on detection returns an in-scan active edge whose
relaxation is improving and whose candidate closes a negative cycle. -/
theorem goodCore_relaxForward (edges : List Nat) :
    ∀ (s : IncSTN) (queue : List Nat), GoodCore s →
      (∀ e ∈ edges, (s.cstr e).active = true) →
      (∀ s' q', IncSTN.relaxForward s edges queue = .inl (s', q') →
        GoodCore s' ∧ s'.constraints = s.constraints)
      ∧ (∀ s' e, IncSTN.relaxForward s edges queue = .inr (s', e) →
        GoodCore s' ∧ s'.constraints = s.constraints ∧
        (s'.cstr e).active = true ∧
        s'.fdist (s'.cstr e).source + (s'.cstr e).weight
          + s'.bdist (s'.cstr e).target < 0 ∧
        s'.fdist (s'.cstr e).source + (s'.cstr e).weight
          < s'.fdist (s'.cstr e).target) := by
  induction edges with
  | nil =>
    intro s queue hs hact
    constructor
    · intro s' q' h
      simp [IncSTN.relaxForward] at h
      rw [← h.1]
      exact ⟨hs, rfl⟩
    · intro s' e h
      simp [IncSTN.relaxForward] at h
  | cons e0 rest ih =>
    intro s queue hs hact
    have hact0 : (s.cstr e0).active = true := hact e0 (List.mem_cons_self e0 rest)
    have hcseq : (IncSTN.setDist
        { s with trail := (Event.forwardUpdate (s.cstr e0).target
            (s.fdist (s.cstr e0).target)
            (s.dist (s.cstr e0).target).forwardCause) :: s.trail }
        (s.cstr e0).target
        (fun x =>
          { x with
              forward := s.fdist (s.cstr e0).source + (s.cstr e0).weight,
              forwardCause := some e0,
              forwardPendingUpdate := true })).constraints = s.constraints := by
      rw [setDist_constraints]
    have hact2 : ∀ e ∈ rest, ((IncSTN.setDist
        { s with trail := (Event.forwardUpdate (s.cstr e0).target
            (s.fdist (s.cstr e0).target)
            (s.dist (s.cstr e0).target).forwardCause) :: s.trail }
        (s.cstr e0).target
        (fun x =>
          { x with
              forward := s.fdist (s.cstr e0).source + (s.cstr e0).weight,
              forwardCause := some e0,
              forwardPendingUpdate := true })).cstr e).active = true := by
      intro e he
      rw [cstr_eq_of_constraints_eq hcseq]
      exact hact e (List.mem_cons_of_mem e0 he)
    constructor
    · intro s' q' h
      rw [IncSTN.relaxForward.eq_def] at h
      simp only [] at h
      split at h
      · split at h
        · simp at h
        · rename_i hlt hng
          obtain ⟨hg', hc'⟩ :=
            ((ih _ _ (goodCore_fwdStep s e0 hact0 hs hlt hng) hact2).1) _ _ h
          exact ⟨hg', hc'.trans hcseq⟩
      · exact ((ih _ _ hs (fun e he => hact e (List.mem_cons_of_mem e0 he))).1) _ _ h
    · intro s' e h
      rw [IncSTN.relaxForward.eq_def] at h
      simp only [] at h
      split at h
      · split at h
        · simp at h
          rename_i hlt hdet
          obtain ⟨hse, hee⟩ := h
          rw [← hse, ← hee]
          exact ⟨hs, rfl, hact0, hdet, hlt⟩
        · rename_i hlt hng
          obtain ⟨hg', hc', ha', hd', hl'⟩ :=
            ((ih _ _ (goodCore_fwdStep s e0 hact0 hs hlt hng) hact2).2) _ _ h
          exact ⟨hg', hc'.trans hcseq, ha', hd', hl'⟩
      · exact ((ih _ _ hs (fun e he => hact e (List.mem_cons_of_mem e0 he))).2) _ _ h

/-- Backward relaxation preserves the running invariants, keeps the
constraint list, and on detection returns an in-scan active edge whose
relaxation is improving and whose candidate closes a negative cycle. -/
theorem goodCore_relaxBackward (edges : List Nat) :
    ∀ (s : IncSTN) (queue : List Nat), GoodCore s →
      (∀ e ∈ edges, (s.cstr e).active = true) →
      (∀ s' q', IncSTN.relaxBackward s edges queue = .inl (s', q') →
        GoodCore s' ∧ s'.constraints = s.constraints)
      ∧ (∀ s' e, IncSTN.relaxBackward s edges queue = .inr (s', e) →
        GoodCore s' ∧ s'.constraints = s.constraints ∧
        (s'.cstr e).active = true ∧
        s'.bdist (s'.cstr e).target + (s'.cstr e).weight
          + s'.fdist (s'.cstr e).source < 0 ∧
        s'.bdist (s'.cstr e).target + (s'.cstr e).weight
          < s'.bdist (s'.cstr e).source) := by
  induction edges with
  | nil =>
    intro s queue hs hact
    constructor
    · intro s' q' h
      simp [IncSTN.relaxBackward] at h
      rw [← h.1]
      exact ⟨hs, rfl⟩
    · intro s' e h
      simp [IncSTN.relaxBackward] at h
  | cons e0 rest ih =>
    intro s queue hs hact
    have hact0 : (s.cstr e0).active = true := hact e0 (List.mem_cons_self e0 rest)
    have hcseq : (IncSTN.setDist
        { s with trail := (Event.backwardUpdate (s.cstr e0).source
            (s.bdist (s.cstr e0).source)
            (s.dist (s.cstr e0).source).backwardCause) :: s.trail }
        (s.cstr e0).source
        (fun x =>
          { x with
              backward := s.bdist (s.cstr e0).target + (s.cstr e0).weight,
              backwardCause := some e0,
              backwardPendingUpdate := true })).constraints = s.constraints := by
      rw [setDist_constraints]
    have hact2 : ∀ e ∈ rest, ((IncSTN.setDist
        { s with trail := (Event.backwardUpdate (s.cstr e0).source
            (s.bdist (s.cstr e0).source)
            (s.dist (s.cstr e0).source).backwardCause) :: s.trail }
        (s.cstr e0).source
        (fun x =>
          { x with
              backward := s.bdist (s.cstr e0).target + (s.cstr e0).weight,
              backwardCause := some e0,
              backwardPendingUpdate := true })).cstr e).active = true := by
      intro e he
      rw [cstr_eq_of_constraints_eq hcseq]
      exact hact e (List.mem_cons_of_mem e0 he)
    constructor
    · intro s' q' h
      rw [IncSTN.relaxBackward.eq_def] at h
      simp only [] at h
      split at h
      · split at h
        · simp at h
        · rename_i hlt hng
          obtain ⟨hg', hc'⟩ :=
            ((ih _ _ (goodCore_bwdStep s e0 hact0 hs hlt hng) hact2).1) _ _ h
          exact ⟨hg', hc'.trans hcseq⟩
      · exact ((ih _ _ hs (fun e he => hact e (List.mem_cons_of_mem e0 he))).1) _ _ h
    · intro s' e h
      rw [IncSTN.relaxBackward.eq_def] at h
      simp only [] at h
      split at h
      · split at h
        · simp at h
          rename_i hlt hdet
          obtain ⟨hse, hee⟩ := h
          rw [← hse, ← hee]
          exact ⟨hs, rfl, hact0, hdet, hlt⟩
        · rename_i hlt hng
          obtain ⟨hg', hc', ha', hd', hl'⟩ :=
            ((ih _ _ (goodCore_bwdStep s e0 hact0 hs hlt hng) hact2).2) _ _ h
          exact ⟨hg', hc'.trans hcseq, ha', hd', hl'⟩
      · exact ((ih _ _ hs (fun e he => hact e (List.mem_cons_of_mem e0 he))).2) _ _ h

theorem cstr_of_get {s : IncSTN} {e : Nat} {c : Constraint}
    (h : s.constraints[e]? = some c) : s.cstr e = c := by
  simp [IncSTN.cstr, List.getD, h]

/-- An internal or active constraint is a real entry of the constraint
list (the out-of-range default has both flags cleared). -/
theorem cstr_flag_in_range {s : IncSTN} {e : Nat}
    (h : (s.cstr e).internal = true ∨ (s.cstr e).active = true) :
    ∃ c, s.constraints[e]? = some c := by
  cases hc : s.constraints[e]? with
  | some c => exact ⟨c, rfl⟩
  | none =>
    exfalso
    have hd : s.cstr e = default := by simp [IncSTN.cstr, List.getD, hc]
    rw [hd] at h
    rcases h with h | h <;> exact absurd h (by decide)

/-- Reading a constraint after a single-slot overwrite. -/
theorem cstr_set {s : IncSTN} {edge : Nat} {c : Constraint}
    (h : s.constraints[edge]? = some c) (c' : Constraint) (e : Nat) :
    ({ s with constraints := s.constraints.set edge c' } : IncSTN).cstr e
      = if e = edge then c' else s.cstr e := by
  have hlt : edge < s.constraints.length := (List.getElem?_eq_some_iff.mp h).1
  by_cases he : e = edge
  · rw [if_pos he, he]
    show (s.constraints.set edge c').getD edge default = c'
    rw [List.getD_eq_getElem?_getD, List.getElem?_set_eq hlt]
    rfl
  · rw [if_neg he]
    show (s.constraints.set edge c').getD e default = s.constraints.getD e default
    rw [List.getD_eq_getElem?_getD, List.getElem?_set_ne (fun hc => he hc.symm),
        List.getD_eq_getElem?_getD]

/-- Membership in an adjacency row after listPush. -/
theorem mem_listPush {ls : List (List Nat)} {i y u x : Nat}
    (h : x ∈ (listPush ls i y).getD u []) : x ∈ ls.getD u [] ∨ x = y := by
  unfold listPush at h
  cases hi : ls[i]? with
  | none =>
    rw [hi] at h
    exact Or.inl h
  | some l =>
    rw [hi] at h
    have hlt : i < ls.length := (List.getElem?_eq_some_iff.mp hi).1
    by_cases hu : u = i
    · subst hu
      rw [List.getD_eq_getElem?_getD, List.getElem?_set_eq hlt] at h
      have hm : x ∈ l ++ [y] := h
      rcases List.mem_append.mp hm with hm | hm
      · left
        rw [List.getD_eq_getElem?_getD, hi]
        exact hm
      · right
        simpa using hm
    · rw [List.getD_eq_getElem?_getD,
          List.getElem?_set_ne (fun hc => hu hc.symm)] at h
      left
      rw [List.getD_eq_getElem?_getD]
      exact h

theorem listPush_length (ls : List (List Nat)) (i y : Nat) :
    (listPush ls i y).length = ls.length := by
  unfold listPush
  cases hi : ls[i]? with
  | none => rfl
  | some l => exact List.length_set ls i _

/-- Activating a non-self-loop edge preserves all running invariants. -/
theorem goodCore_activate {s : IncSTN} {edge : Nat} {c : Constraint}
    (hc : s.constraints[edge]? = some c)
    (hns : c.source ≠ c.target)
    (hg : GoodCore s) :
    GoodCore { s with
        constraints := s.constraints.set edge { c with active := true },
        activeForwardEdges := listPush s.activeForwardEdges c.source edge,
        activeBackwardEdges := listPush s.activeBackwardEdges c.target edge,
        trail := Event.edgeActivated edge :: s.trail } := by
  obtain ⟨h1, h2, h3, h4, h5, h6, h7, h8, h9, h10, h11, h12, h13⟩ := hg
  have hsc : s.cstr edge = c := cstr_of_get hc
  have hc5 : ∀ e, ({ s with
        constraints := s.constraints.set edge { c with active := true },
        activeForwardEdges := listPush s.activeForwardEdges c.source edge,
        activeBackwardEdges := listPush s.activeBackwardEdges c.target edge,
        trail := Event.edgeActivated edge :: s.trail } : IncSTN).cstr e
      = if e = edge then { c with active := true } else s.cstr e := by
    intro e
    exact cstr_set hc _ e
  refine ⟨?_, ?_, ?_, ?_, ?_, ?_, ?_, ?_, ?_, ?_, ?_, ?_, ?_⟩
  · intro n
    exact h1 n
  · exact h2
  · intro n e he
    obtain ⟨k1, k2, k3⟩ := h3 n e he
    rw [hc5 e]
    by_cases he2 : e = edge
    · rw [if_pos he2]
      rw [he2, hsc] at k1 k2
      exact ⟨k1, k2, Or.inr rfl⟩
    · rw [if_neg he2]
      exact ⟨k1, k2, k3⟩
  · intro n e he
    obtain ⟨k1, k2, k3⟩ := h4 n e he
    rw [hc5 e]
    by_cases he2 : e = edge
    · rw [if_pos he2]
      rw [he2, hsc] at k1 k2
      exact ⟨k1, k2, Or.inr rfl⟩
    · rw [if_neg he2]
      exact ⟨k1, k2, k3⟩
  · intro u e he
    rw [hc5 e]
    by_cases he2 : e = edge
    · rw [if_pos he2]
    · rw [if_neg he2]
      rcases mem_listPush he with hm | hm
      · exact h5 u e hm
      · exact absurd hm he2
  · intro u e he
    rw [hc5 e]
    by_cases he2 : e = edge
    · rw [if_pos he2]
    · rw [if_neg he2]
      rcases mem_listPush he with hm | hm
      · exact h6 u e hm
      · exact absurd hm he2
  · intro e he
    rw [hc5 e] at he ⊢
    by_cases he2 : e = edge
    · rw [if_pos he2] at he ⊢
      have hi : (s.cstr edge).internal = true := by
        rw [hsc]
        exact he
      have := h7 edge hi
      rw [hsc] at this
      exact this
    · rw [if_neg he2] at he ⊢
      exact h7 e he
  · intro e he hsrc
    rw [hc5 e] at he hsrc ⊢
    by_cases he2 : e = edge
    · rw [if_pos he2] at he hsrc ⊢
      have hi : (s.cstr edge).internal = true := by
        rw [hsc]
        exact he
      have hs0 : (s.cstr edge).source = 0 := by
        rw [hsc]
        exact hsrc
      have := h8 edge hi hs0
      rw [hsc] at this
      exact this
    · rw [if_neg he2] at he hsrc ⊢
      exact h8 e he hsrc
  · intro e he htgt
    rw [hc5 e] at he htgt ⊢
    by_cases he2 : e = edge
    · rw [if_pos he2] at he htgt ⊢
      have hi : (s.cstr edge).internal = true := by
        rw [hsc]
        exact he
      have ht0 : (s.cstr edge).target = 0 := by
        rw [hsc]
        exact htgt
      have := h9 edge hi ht0
      rw [hsc] at this
      exact this
    · rw [if_neg he2] at he htgt ⊢
      exact h9 e he htgt
  · intro e he
    rw [hc5 e] at he ⊢
    by_cases he2 : e = edge
    · rw [if_pos he2]
      exact hns
    · rw [if_neg he2] at he ⊢
      exact h10 e he
  · show 1 ≤ (listPush s.activeForwardEdges c.source edge).length
    rw [listPush_length]
    exact h11
  · unfold InvL
    show s.distances.length = (listPush s.activeForwardEdges c.source edge).length
      ∧ (listPush s.activeBackwardEdges c.target edge).length
        = (listPush s.activeForwardEdges c.source edge).length
    rw [listPush_length, listPush_length]
    exact h12
  · intro e2 c2 hc2
    have hcl : (s.constraints.set edge { c with active := true })[e2]? = some c2 := hc2
    show c2.source < (listPush s.activeForwardEdges c.source edge).length
      ∧ c2.target < (listPush s.activeForwardEdges c.source edge).length
    rw [listPush_length]
    by_cases he2 : edge = e2
    · rw [← he2, List.getElem?_set_eq (List.length_set s.constraints edge _ ▸
        (List.getElem?_eq_some_iff.mp hcl).1)] at hcl
      have hc2v : ({ c with active := true } : Constraint) = c2 := by
        cases hcl
        rfl
      rw [← hc2v]
      exact h13 edge c hc
    · rw [List.getElem?_set_ne he2] at hcl
      exact h13 e2 c2 hcl

/-- A forward-relaxation detection point: the edge is active, still
improving, its candidate closes a negative cycle, and the backward cycle
extraction from it yields the explanation. -/
def DetF (sd : IncSTN) (e : Nat) (expl : List Nat) : Prop :=
  (sd.cstr e).active = true ∧
  sd.fdist (sd.cstr e).source + (sd.cstr e).weight < sd.fdist (sd.cstr e).target ∧
  sd.fdist (sd.cstr e).source + (sd.cstr e).weight + sd.bdist (sd.cstr e).target < 0 ∧
  sd.extractCycleBackward e = some expl

/-- A backward-relaxation detection point. -/
def DetB (sd : IncSTN) (e : Nat) (expl : List Nat) : Prop :=
  (sd.cstr e).active = true ∧
  sd.bdist (sd.cstr e).target + (sd.cstr e).weight < sd.bdist (sd.cstr e).source ∧
  sd.bdist (sd.cstr e).target + (sd.cstr e).weight + sd.fdist (sd.cstr e).source < 0 ∧
  sd.extractCycleForward e = some expl

/-- A setDist touching only the transient flags preserves the invariants. -/
theorem goodCore_setDist_flags (s : IncSTN) (m : Nat) (f : Distance → Distance)
    (hf : ∀ d, (f d).core = d.core) (hg : GoodCore s) :
    GoodCore (s.setDist m f) :=
  goodCore_coreEq s _ (coreEq_setDist_self s m f (fun d _ => hf d)).symm hg

/-- The work-queue loop preserves the invariants, and every Inconsistent
return arises from a detection point whose extraction produced exactly the
returned explanation. -/
theorem goodCore_propLoop (fuel : Nat) :
    ∀ (s : IncSTN) (queue : List Nat) (r : NetworkStatus) (s' : IncSTN),
      GoodCore s → IncSTN.propLoop fuel s queue = (r, s') →
      GoodCore s' ∧ ∀ expl, r = .inconsistent expl →
        ∃ sd e, GoodCore sd ∧ s' = { sd with explanation := expl } ∧
          (DetF sd e expl ∨ DetB sd e expl) := by
  induction fuel with
  | zero =>
    intro s queue r s' hs h
    simp [IncSTN.propLoop] at h
    refine ⟨by rw [← h.2]; exact hs, ?_⟩
    intro expl hre
    rw [← h.1] at hre
    simp at hre
  | succ fuel ih =>
    intro s queue r s' hs h
    cases queue with
    | nil =>
      simp [IncSTN.propLoop] at h
      refine ⟨by rw [← h.2]; exact hs, ?_⟩
      intro expl hre
      rw [← h.1] at hre
      simp at hre
    | cons u q =>
      rw [IncSTN.propLoop.eq_def] at h
      simp only [] at h
      generalize hF : (if (s.dist u).forwardPendingUpdate = true then
          IncSTN.relaxForward s (s.activeForwardEdges.getD u []) q
        else .inl (s, q)) = stepF at h
      have hiF : ∀ s1 q1, stepF = .inl (s1, q1) → GoodCore s1 := by
        intro s1 q1 he
        rw [he] at hF
        split at hF
        · exact ((goodCore_relaxForward _ s q hs
            (fun e he2 => hs.2.2.2.2.1 u e he2)).1 _ _ hF).1
        · cases hF
          exact hs
      have hiF2 : ∀ s1 e1, stepF = .inr (s1, e1) → GoodCore s1 ∧
          (s1.cstr e1).active = true ∧
          s1.fdist (s1.cstr e1).source + (s1.cstr e1).weight
            + s1.bdist (s1.cstr e1).target < 0 ∧
          s1.fdist (s1.cstr e1).source + (s1.cstr e1).weight
            < s1.fdist (s1.cstr e1).target := by
        intro s1 e1 he
        rw [he] at hF
        split at hF
        · obtain ⟨hg', -, ha', hd', hl'⟩ :=
            (goodCore_relaxForward _ s q hs
              (fun e he2 => hs.2.2.2.2.1 u e he2)).2 _ _ hF
          exact ⟨hg', ha', hd', hl'⟩
        · cases hF
      cases stepF with
      | inr p =>
        obtain ⟨s1, e1⟩ := p
        obtain ⟨hg1, ha1, hd1, hl1⟩ := hiF2 s1 e1 rfl
        dsimp only at h
        cases hx : s1.extractCycleBackward e1 with
        | none =>
          rw [hx] at h
          cases h
          refine ⟨hg1, ?_⟩
          intro expl hre
          simp at hre
        | some expl0 =>
          rw [hx] at h
          cases h
          refine ⟨goodCore_coreEq s1 _ ⟨rfl, rfl, rfl, rfl⟩ hg1, ?_⟩
          intro expl hre
          have hee : expl0 = expl := by
            cases hre
            rfl
          subst hee
          exact ⟨s1, e1, hg1, rfl, Or.inl ⟨ha1, hl1, hd1, hx⟩⟩
      | inl p =>
        obtain ⟨s1, q1⟩ := p
        have hg1 : GoodCore s1 := hiF s1 q1 rfl
        dsimp only at h
        generalize hB : (if (s1.dist u).backwardPendingUpdate = true then
            IncSTN.relaxBackward s1 (s1.activeBackwardEdges.getD u []) q1
          else .inl (s1, q1)) = stepB at h
        have hiB : ∀ s2 q2, stepB = .inl (s2, q2) → GoodCore s2 := by
          intro s2 q2 he
          rw [he] at hB
          split at hB
          · exact ((goodCore_relaxBackward _ s1 q1 hg1
              (fun e he2 => hg1.2.2.2.2.2.1 u e he2)).1 _ _ hB).1
          · cases hB
            exact hg1
        have hiB2 : ∀ s2 e2, stepB = .inr (s2, e2) → GoodCore s2 ∧
            (s2.cstr e2).active = true ∧
            s2.bdist (s2.cstr e2).target + (s2.cstr e2).weight
              + s2.fdist (s2.cstr e2).source < 0 ∧
            s2.bdist (s2.cstr e2).target + (s2.cstr e2).weight
              < s2.bdist (s2.cstr e2).source := by
          intro s2 e2 he
          rw [he] at hB
          split at hB
          · obtain ⟨hg', -, ha', hd', hl'⟩ :=
              (goodCore_relaxBackward _ s1 q1 hg1
                (fun e he2 => hg1.2.2.2.2.2.1 u e he2)).2 _ _ hB
            exact ⟨hg', ha', hd', hl'⟩
          · cases hB
        cases stepB with
        | inr p2 =>
          obtain ⟨s2, e2⟩ := p2
          obtain ⟨hg2, ha2, hd2, hl2⟩ := hiB2 s2 e2 rfl
          dsimp only at h
          cases hx : s2.extractCycleForward e2 with
          | none =>
            rw [hx] at h
            cases h
            refine ⟨hg2, ?_⟩
            intro expl hre
            simp at hre
          | some expl0 =>
            rw [hx] at h
            cases h
            refine ⟨goodCore_coreEq s2 _ ⟨rfl, rfl, rfl, rfl⟩ hg2, ?_⟩
            intro expl hre
            have hee : expl0 = expl := by
              cases hre
              rfl
            subst hee
            exact ⟨s2, e2, hg2, rfl, Or.inr ⟨ha2, hl2, hd2, hx⟩⟩
        | inl p2 =>
          obtain ⟨s2, q2⟩ := p2
          have hg2 : GoodCore s2 := hiB s2 q2 rfl
          dsimp only at h
          refine ih _ _ _ _ ?_ h
          exact goodCore_setDist_flags s2 u _ (fun d => rfl) hg2

/-- fn propagate preserves the invariants and its Inconsistent returns are
extraction results of detection points. -/
theorem goodCore_propagate (fuel : Nat) (s : IncSTN) (edge : Nat)
    (r : NetworkStatus) (s' : IncSTN)
    (hs : GoodCore s) (h : IncSTN.propagate fuel s edge = (r, s')) :
    GoodCore s' ∧ ∀ expl, r = .inconsistent expl →
      ∃ sd e, GoodCore sd ∧ s' = { sd with explanation := expl } ∧
        (DetF sd e expl ∨ DetB sd e expl) := by
  unfold IncSTN.propagate at h
  dsimp only at h
  refine goodCore_propLoop fuel _ _ _ _ ?_ h
  exact goodCore_setDist_flags _ _ _ (fun d => rfl)
    (goodCore_setDist_flags _ _ _ (fun d => rfl) hs)

/-- fn propagate_all preserves the invariants; every Inconsistent return
is either the pop of a pending negative self-loop (explained by that edge
alone, which is neither active nor internal) or an extraction at a
relaxation detection point. -/
theorem goodCore_propagateAll (fuel : Nat) :
    ∀ (s : IncSTN) (r : NetworkStatus) (s' : IncSTN),
      GoodCore s → IncSTN.propagateAll fuel s = (r, s') →
      GoodCore s' ∧ ∀ expl, r = .inconsistent expl →
        ∃ sd, GoodCore sd ∧ s' = { sd with explanation := expl } ∧
          ((∃ edge, expl = [edge] ∧
              (sd.cstr edge).source = (sd.cstr edge).target ∧
              (sd.cstr edge).weight < 0 ∧
              (sd.cstr edge).internal = false ∧
              (sd.cstr edge).active = false) ∨
            ∃ e, DetF sd e expl ∨ DetB sd e expl) := by
  induction fuel with
  | zero =>
    intro s r s' hs h
    rw [IncSTN.propagateAll.eq_def] at h
    dsimp only at h
    cases hp : s.pendingActivations with
    | nil =>
      rw [hp] at h
      dsimp only at h
      cases h
      refine ⟨hs, ?_⟩
      intro expl hre
      simp at hre
    | cons edge rest =>
      rw [hp] at h
      dsimp only at h
      cases h
      refine ⟨hs, ?_⟩
      intro expl hre
      simp at hre
  | succ fuel ih =>
    intro s r s' hs h
    rw [IncSTN.propagateAll.eq_def] at h
    dsimp only at h
    cases hp : s.pendingActivations with
    | nil =>
      rw [hp] at h
      dsimp only at h
      cases h
      refine ⟨hs, ?_⟩
      intro expl hre
      simp at hre
    | cons edge rest =>
      rw [hp] at h
      dsimp only at h
      have hpop : GoodCore { s with pendingActivations := rest } :=
        goodCore_coreEq s _ ⟨rfl, rfl, rfl, rfl⟩ hs
      cases hc : ({ s with pendingActivations := rest } : IncSTN).constraints[edge]? with
      | none =>
        rw [hc] at h
        cases h
        refine ⟨hpop, ?_⟩
        intro expl hre
        simp at hre
      | some c =>
        rw [hc] at h
        dsimp only at h
        split at h
        · rename_i hself
          split at h
          · rename_i hw
            cases h
            have hcs : ({ s with pendingActivations := rest } : IncSTN).cstr edge = c :=
              cstr_of_get hc
            have hnotint : c.internal = false := by
              by_contra hint
              have hint2 : c.internal = true := by
                cases hci : c.internal
                · exact absurd hci hint
                · rfl
              have := (hpop.2.2.2.2.2.2.1 edge (by rw [hcs]; exact hint2)).2
              rw [hcs] at this
              have := this hself
              omega
            have hnotact : c.active = false := by
              by_contra hact
              have hact2 : c.active = true := by
                cases hca : c.active
                · exact absurd hca hact
                · rfl
              have := hpop.2.2.2.2.2.2.2.2.2.1 edge (by rw [hcs]; exact hact2)
              rw [hcs] at this
              exact this hself
            refine ⟨goodCore_coreEq _ _ ⟨rfl, rfl, rfl, rfl⟩ hpop, ?_⟩
            intro expl hre
            have hee : [edge] = expl := by
              cases hre
              rfl
            subst hee
            refine ⟨{ s with pendingActivations := rest }, hpop, rfl, Or.inl ?_⟩
            exact ⟨edge, rfl, by rw [hcs]; exact hself, by rw [hcs]; exact hw,
              by rw [hcs]; exact hnotint, by rw [hcs]; exact hnotact⟩
          · exact ih _ _ _ hpop h
        · rename_i hself
          split at h
          · have hgact : GoodCore { { s with pendingActivations := rest } with
                constraints := ({ s with pendingActivations := rest } : IncSTN).constraints.set
                  edge { c with active := true },
                activeForwardEdges := listPush
                  ({ s with pendingActivations := rest } : IncSTN).activeForwardEdges c.source edge,
                activeBackwardEdges := listPush
                  ({ s with pendingActivations := rest } : IncSTN).activeBackwardEdges c.target edge,
                trail := Event.edgeActivated edge ::
                  ({ s with pendingActivations := rest } : IncSTN).trail } :=
              goodCore_activate hc hself hpop
            generalize hprop : IncSTN.propagate fuel _ edge = res at h
            obtain ⟨rp, sp⟩ := res
            obtain ⟨hgp, hcharp⟩ := goodCore_propagate fuel _ edge rp sp hgact hprop
            cases rp with
            | consistent =>
              dsimp only at h
              exact ih _ _ _ hgp h
            | inconsistent expl0 =>
              dsimp only at h
              cases h
              refine ⟨hgp, ?_⟩
              intro expl hre
              have hee : expl0 = expl := by
                cases hre
                rfl
              subst hee
              obtain ⟨sd, e, hgsd, hspe, hdet⟩ := hcharp expl0 rfl
              exact ⟨sd, hgsd, hspe, Or.inr ⟨e, hdet⟩⟩
            | stuck =>
              dsimp only at h
              cases h
              refine ⟨hgp, ?_⟩
              intro expl hre
              simp at hre
          · exact ih _ _ _ hpop h

/-- A directed walk along constraint edges: each listed edge starts at the
current node and moves to its target. -/
def EdgeWalk (s : IncSTN) : Nat → List Nat → Nat → Prop
  | a, [], b => a = b
  | a, e :: rest, b => (s.cstr e).source = a ∧ EdgeWalk s (s.cstr e).target rest b

/-- Total weight of a list of edges. -/
def weightSum (s : IncSTN) (es : List Nat) : Int :=
  (es.map (fun e => (s.cstr e).weight)).sum

theorem edgeWalk_append {s : IncSTN} :
    ∀ {W1 : List Nat} {a b c : Nat} {W2 : List Nat},
      EdgeWalk s a W1 b → EdgeWalk s b W2 c → EdgeWalk s a (W1 ++ W2) c := by
  intro W1
  induction W1 with
  | nil =>
    intro a b c W2 h1 h2
    have : a = b := h1
    rw [List.nil_append, this]
    exact h2
  | cons e rest ih =>
    intro a b c W2 h1 h2
    obtain ⟨hsrc, hrest⟩ := h1
    exact ⟨hsrc, ih hrest h2⟩

theorem weightSum_append (s : IncSTN) (W1 W2 : List Nat) :
    weightSum s (W1 ++ W2) = weightSum s W1 + weightSum s W2 := by
  unfold weightSum
  rw [List.map_append, List.sum_append]

theorem weightSum_cons (s : IncSTN) (e : Nat) (W : List Nat) :
    weightSum s (e :: W) = (s.cstr e).weight + weightSum s W := by
  unfold weightSum
  rw [List.map_cons, List.sum_cons]

theorem weightSum_reverse (s : IncSTN) (W : List Nat) :
    weightSum s W.reverse = weightSum s W := by
  unfold weightSum
  rw [List.map_reverse, List.sum_reverse]

/-- The backward-cause walk follows a chain of edges from `cur` to `src`
(flag true) or to the origin (flag false); the appended identifiers are
exactly the non-internal chain edges in order, the chain weight telescopes
against the backward distances, and every chain edge is internal or
active. -/
theorem walkBackCauses_spec (s : IncSTN) (hB : InvB s) (src : Nat) :
    ∀ (fuel cur : Nat) (acc acc' : List Nat) (flag : Bool),
      IncSTN.walkBackCauses s src fuel cur acc = some (acc', flag) →
      ∃ W, W ≠ [] ∧
        acc' = acc ++ W.filter (fun e => !(s.cstr e).internal) ∧
        EdgeWalk s cur W (cond flag src s.origin) ∧
        weightSum s W ≤ s.bdist cur - s.bdist (cond flag src s.origin) ∧
        ∀ e ∈ W, (s.cstr e).internal = true ∨ (s.cstr e).active = true := by
  intro fuel
  induction fuel with
  | zero =>
    intro cur acc acc' flag h
    simp [IncSTN.walkBackCauses] at h
  | succ fuel ih =>
    intro cur acc acc' flag h
    rw [IncSTN.walkBackCauses.eq_def] at h
    simp only [] at h
    cases hbc : (s.dist cur).backwardCause with
    | none =>
      rw [hbc] at h
      cases h
    | some e =>
      rw [hbc] at h
      dsimp only at h
      obtain ⟨hsrc_eq, hineq, hflag⟩ := hB cur e hbc
      split at h
      · rename_i h1
        simp only [Option.some.injEq, Prod.mk.injEq] at h
        obtain ⟨ha, hf⟩ := h
        subst hf
        refine ⟨[e], by simp, ?_, ⟨hsrc_eq, h1⟩, ?_, ?_⟩
        · rw [← ha]
          by_cases hi : (s.cstr e).internal = true
          · rw [if_pos hi]
            simp [List.filter_cons, hi]
          · have hi2 : (s.cstr e).internal = false := by
              cases hx : (s.cstr e).internal
              · rfl
              · exact absurd hx hi
            rw [if_neg hi]
            simp [List.filter_cons, hi2]
        · rw [h1] at hineq
          rw [weightSum_cons]
          show (s.cstr e).weight + weightSum s [] ≤ _
          have : weightSum s [] = 0 := rfl
          rw [this]
          show (s.cstr e).weight + 0 ≤ s.bdist cur - s.bdist src
          omega
        · intro x hx
          have : x = e := by simpa using hx
          rw [this]
          exact hflag
      · rename_i h1
        split at h
        · rename_i h2
          simp only [Option.some.injEq, Prod.mk.injEq] at h
          obtain ⟨ha, hf⟩ := h
          subst hf
          refine ⟨[e], by simp, ?_, ⟨hsrc_eq, h2⟩, ?_, ?_⟩
          · rw [← ha]
            by_cases hi : (s.cstr e).internal = true
            · rw [if_pos hi]
              simp [List.filter_cons, hi]
            · have hi2 : (s.cstr e).internal = false := by
                cases hx : (s.cstr e).internal
                · rfl
                · exact absurd hx hi
              rw [if_neg hi]
              simp [List.filter_cons, hi2]
          · rw [h2] at hineq
            rw [weightSum_cons]
            show (s.cstr e).weight + weightSum s [] ≤ _
            have : weightSum s [] = 0 := rfl
            rw [this]
            show (s.cstr e).weight + 0 ≤ s.bdist cur - s.bdist s.origin
            omega
          · intro x hx
            have : x = e := by simpa using hx
            rw [this]
            exact hflag
        · rename_i h2
          obtain ⟨W', hne, hacc, hwalk, hwt, hmem⟩ := ih _ _ _ _ h
          refine ⟨e :: W', by simp, ?_, ⟨hsrc_eq, hwalk⟩, ?_, ?_⟩
          · rw [hacc]
            by_cases hi : (s.cstr e).internal = true
            · rw [if_pos hi]
              have hfc : (e :: W').filter (fun x => !(s.cstr x).internal)
                  = W'.filter (fun x => !(s.cstr x).internal) := by
                simp [List.filter_cons, hi]
              rw [hfc]
            · have hi2 : (s.cstr e).internal = false := by
                cases hx : (s.cstr e).internal
                · rfl
                · exact absurd hx hi
              rw [if_neg hi]
              have hfc : (e :: W').filter (fun x => !(s.cstr x).internal)
                  = e :: W'.filter (fun x => !(s.cstr x).internal) := by
                simp [List.filter_cons, hi2]
              rw [hfc]
              simp
          · rw [weightSum_cons]
            have := hwt
            omega
          · intro x hx
            rcases List.mem_cons.mp hx with hx | hx
            · rw [hx]
              exact hflag
            · exact hmem x hx

/-- The forward-cause walk discovers, from `cur` back to `tgt` (flag true)
or to the origin (flag false), a chain whose reversal is a directed walk
into `cur`; same bookkeeping as the backward walk, telescoping against the
forward distances. -/
theorem walkFwdCauses_spec (s : IncSTN) (hF : InvF s) (tgt : Nat) :
    ∀ (fuel cur : Nat) (acc acc' : List Nat) (flag : Bool),
      IncSTN.walkFwdCauses s tgt fuel cur acc = some (acc', flag) →
      ∃ W, W ≠ [] ∧
        acc' = acc ++ W.filter (fun e => !(s.cstr e).internal) ∧
        EdgeWalk s (cond flag tgt s.origin) W.reverse cur ∧
        weightSum s W ≤ s.fdist cur - s.fdist (cond flag tgt s.origin) ∧
        ∀ e ∈ W, (s.cstr e).internal = true ∨ (s.cstr e).active = true := by
  intro fuel
  induction fuel with
  | zero =>
    intro cur acc acc' flag h
    simp [IncSTN.walkFwdCauses] at h
  | succ fuel ih =>
    intro cur acc acc' flag h
    rw [IncSTN.walkFwdCauses.eq_def] at h
    simp only [] at h
    cases hfc : (s.dist cur).forwardCause with
    | none =>
      rw [hfc] at h
      cases h
    | some e =>
      rw [hfc] at h
      dsimp only at h
      obtain ⟨htgt_eq, hineq, hflag⟩ := hF cur e hfc
      split at h
      · rename_i h1
        simp only [Option.some.injEq, Prod.mk.injEq] at h
        obtain ⟨ha, hf⟩ := h
        subst hf
        refine ⟨[e], by simp, ?_, ?_, ?_, ?_⟩
        · rw [← ha]
          by_cases hi : (s.cstr e).internal = true
          · rw [if_pos hi]
            simp [List.filter_cons, hi]
          · have hi2 : (s.cstr e).internal = false := by
              cases hx : (s.cstr e).internal
              · rfl
              · exact absurd hx hi
            rw [if_neg hi]
            simp [List.filter_cons, hi2]
        · show EdgeWalk s tgt [e] cur
          rw [← h1]
          exact ⟨rfl, htgt_eq⟩
        · rw [h1] at hineq
          rw [weightSum_cons]
          show (s.cstr e).weight + weightSum s [] ≤ _
          have : weightSum s [] = 0 := rfl
          rw [this]
          show (s.cstr e).weight + 0 ≤ s.fdist cur - s.fdist tgt
          omega
        · intro x hx
          have : x = e := by simpa using hx
          rw [this]
          exact hflag
      · rename_i h1
        split at h
        · rename_i h2
          simp only [Option.some.injEq, Prod.mk.injEq] at h
          obtain ⟨ha, hf⟩ := h
          subst hf
          refine ⟨[e], by simp, ?_, ?_, ?_, ?_⟩
          · rw [← ha]
            by_cases hi : (s.cstr e).internal = true
            · rw [if_pos hi]
              simp [List.filter_cons, hi]
            · have hi2 : (s.cstr e).internal = false := by
                cases hx : (s.cstr e).internal
                · rfl
                · exact absurd hx hi
              rw [if_neg hi]
              simp [List.filter_cons, hi2]
          · show EdgeWalk s s.origin [e] cur
            rw [← h2]
            exact ⟨rfl, htgt_eq⟩
          · rw [h2] at hineq
            rw [weightSum_cons]
            show (s.cstr e).weight + weightSum s [] ≤ _
            have : weightSum s [] = 0 := rfl
            rw [this]
            show (s.cstr e).weight + 0 ≤ s.fdist cur - s.fdist s.origin
            omega
          · intro x hx
            have : x = e := by simpa using hx
            rw [this]
            exact hflag
        · rename_i h2
          obtain ⟨W', hne, hacc, hwalk, hwt, hmem⟩ := ih _ _ _ _ h
          refine ⟨e :: W', by simp, ?_, ?_, ?_, ?_⟩
          · rw [hacc]
            by_cases hi : (s.cstr e).internal = true
            · rw [if_pos hi]
              have hfc2 : (e :: W').filter (fun x => !(s.cstr x).internal)
                  = W'.filter (fun x => !(s.cstr x).internal) := by
                simp [List.filter_cons, hi]
              rw [hfc2]
            · have hi2 : (s.cstr e).internal = false := by
                cases hx : (s.cstr e).internal
                · rfl
                · exact absurd hx hi
              rw [if_neg hi]
              have hfc2 : (e :: W').filter (fun x => !(s.cstr x).internal)
                  = e :: W'.filter (fun x => !(s.cstr x).internal) := by
                simp [List.filter_cons, hi2]
              rw [hfc2]
              simp
          · show EdgeWalk s _ (e :: W').reverse cur
            rw [List.reverse_cons]
            refine edgeWalk_append hwalk ?_
            exact ⟨rfl, htgt_eq⟩
          · rw [weightSum_cons]
            have := hwt
            omega
          · intro x hx
            rcases List.mem_cons.mp hx with hx | hx
            · rw [hx]
              exact hflag
            · exact hmem x hx

/-- The edge of a forward detection point is never internal: internal
edges touch the origin, where the bound invariants contradict the
detection guards. -/
theorem detF_edge_not_internal {sd : IncSTN} {e : Nat}
    (hg : GoodCore sd)
    (hlt : sd.fdist (sd.cstr e).source + (sd.cstr e).weight
      < sd.fdist (sd.cstr e).target)
    (hneg : sd.fdist (sd.cstr e).source + (sd.cstr e).weight
      + sd.bdist (sd.cstr e).target < 0) :
    (sd.cstr e).internal = false := by
  obtain ⟨h1, h2, -, -, -, -, h7, h8, h9, -, -⟩ := hg
  cases hi : (sd.cstr e).internal with
  | false => rfl
  | true =>
    exfalso
    rcases (h7 e hi).1 with hs0 | ht0
    · have hub := h8 e hi hs0
      rw [hs0, h2.1] at hlt
      omega
    · have hlb := h9 e hi ht0
      have hiv := h1 (sd.cstr e).source
      rw [ht0, h2.2] at hneg
      omega

/-- The edge of a backward detection point is never internal. -/
theorem detB_edge_not_internal {sd : IncSTN} {e : Nat}
    (hg : GoodCore sd)
    (hlt : sd.bdist (sd.cstr e).target + (sd.cstr e).weight
      < sd.bdist (sd.cstr e).source)
    (hneg : sd.bdist (sd.cstr e).target + (sd.cstr e).weight
      + sd.fdist (sd.cstr e).source < 0) :
    (sd.cstr e).internal = false := by
  obtain ⟨h1, h2, -, -, -, -, h7, h8, h9, -, -⟩ := hg
  cases hi : (sd.cstr e).internal with
  | false => rfl
  | true =>
    exfalso
    rcases (h7 e hi).1 with hs0 | ht0
    · have hub := h8 e hi hs0
      have hiv := h1 (sd.cstr e).target
      rw [hs0, h2.1] at hneg
      omega
    · have hlb := h9 e hi ht0
      rw [ht0, h2.2] at hlt
      omega

/-- Soundness of extract_cycle_backward at a forward detection point: the
explanation is nonempty, made of active non-internal edges, and extends by
internal edges to a strictly negative directed closed walk. -/
theorem detF_spec {sd : IncSTN} {e : Nat} {expl : List Nat}
    (hg : GoodCore sd) (hd : DetF sd e expl) :
    expl ≠ [] ∧
    (∀ x ∈ expl, (sd.cstr x).internal = false ∧ (sd.cstr x).active = true) ∧
    ∃ a W, W ≠ [] ∧ EdgeWalk sd a W a ∧ weightSum sd W < 0 ∧
      (W.filter (fun x => !(sd.cstr x).internal)).Perm expl := by
  obtain ⟨hact, hlt, hneg, hx⟩ := hd
  have hB : InvB sd := hg.2.2.2.1
  have hF : InvF sd := hg.2.2.1
  have h1 : Inv1 sd := hg.1
  have hO : InvO sd := hg.2.1
  have hnotint : (sd.cstr e).internal = false := detF_edge_not_internal hg hlt hneg
  unfold IncSTN.extractCycleBackward at hx
  dsimp only at hx
  cases hw : IncSTN.walkBackCauses sd (sd.cstr e).source (sd.numNodes + 1)
      (sd.cstr e).target [e] with
  | none =>
    rw [hw] at hx
    cases hx
  | some p =>
    obtain ⟨acc, flag⟩ := p
    rw [hw] at hx
    obtain ⟨W1, hne1, hacc1, hwalk1, hwt1, hmem1⟩ :=
      walkBackCauses_spec sd hB _ _ _ _ _ _ hw
    cases flag with
    | true =>
      dsimp only at hx
      have hae : acc = expl := by
        cases hx
        rfl
      subst hae
      have hwalk1' : EdgeWalk sd (sd.cstr e).target W1 (sd.cstr e).source := hwalk1
      have hwt1' : weightSum sd W1 ≤
          sd.bdist (sd.cstr e).target - sd.bdist (sd.cstr e).source := hwt1
      refine ⟨by rw [hacc1]; simp, ?_, (sd.cstr e).source, e :: W1, by simp,
        ⟨rfl, hwalk1'⟩, ?_, ?_⟩
      · intro x hxm
        rw [hacc1] at hxm
        rcases List.mem_append.mp hxm with hxm | hxm
        · have hxe : x = e := by simpa using hxm
          rw [hxe]
          exact ⟨hnotint, hact⟩
        · obtain ⟨hxW, hpx⟩ := List.mem_filter.mp hxm
          have hxint : (sd.cstr x).internal = false := by simpa using hpx
          rcases hmem1 x hxW with hint | hact2
          · rw [hxint] at hint
            cases hint
          · exact ⟨hxint, hact2⟩
      · rw [weightSum_cons]
        have hiv := h1 (sd.cstr e).source
        omega
      · have hfil : (e :: W1).filter (fun x => !(sd.cstr x).internal)
            = e :: W1.filter (fun x => !(sd.cstr x).internal) := by
          simp [List.filter_cons, hnotint]
        rw [hfil, hacc1]
        exact List.Perm.refl _
    | false =>
      dsimp only at hx
      cases hw2 : IncSTN.walkFwdCauses sd sd.origin (sd.numNodes + 1)
          (sd.cstr e).source acc with
      | none =>
        rw [hw2] at hx
        cases hx
      | some p2 =>
        obtain ⟨acc2, flag2⟩ := p2
        rw [hw2] at hx
        have hae : acc2 = expl := by
          cases hx
          rfl
        subst hae
        obtain ⟨W2, hne2, hacc2, hwalk2, hwt2, hmem2⟩ :=
          walkFwdCauses_spec sd hF sd.origin _ _ _ _ _ hw2
        have hcnd : cond flag2 sd.origin sd.origin = sd.origin := Bool.cond_self _ _
        rw [hcnd] at hwalk2 hwt2
        have hwalk1' : EdgeWalk sd (sd.cstr e).target W1 sd.origin := hwalk1
        have hwt1' : weightSum sd W1 ≤
            sd.bdist (sd.cstr e).target - sd.bdist sd.origin := hwt1
        have hf0 : sd.fdist sd.origin = 0 := hO.1
        have hb0 : sd.bdist sd.origin = 0 := hO.2
        refine ⟨by rw [hacc2, hacc1]; simp, ?_, sd.origin,
          W2.reverse ++ (e :: W1), by simp, ?_, ?_, ?_⟩
        · intro x hxm
          rw [hacc2, hacc1] at hxm
          rcases List.mem_append.mp hxm with hxm | hxm
          · rcases List.mem_append.mp hxm with hxm | hxm
            · have hxe : x = e := by simpa using hxm
              rw [hxe]
              exact ⟨hnotint, hact⟩
            · obtain ⟨hxW, hpx⟩ := List.mem_filter.mp hxm
              have hxint : (sd.cstr x).internal = false := by simpa using hpx
              rcases hmem1 x hxW with hint | hact2
              · rw [hxint] at hint
                cases hint
              · exact ⟨hxint, hact2⟩
          · obtain ⟨hxW, hpx⟩ := List.mem_filter.mp hxm
            have hxint : (sd.cstr x).internal = false := by simpa using hpx
            rcases hmem2 x hxW with hint | hact2
            · rw [hxint] at hint
              cases hint
            · exact ⟨hxint, hact2⟩
        · exact edgeWalk_append hwalk2 ⟨rfl, hwalk1'⟩
        · rw [weightSum_append, weightSum_reverse, weightSum_cons]
          omega
        · have hfil : (W2.reverse ++ (e :: W1)).filter (fun x => !(sd.cstr x).internal)
              = (W2.filter (fun x => !(sd.cstr x).internal)).reverse
                ++ (e :: W1.filter (fun x => !(sd.cstr x).internal)) := by
            rw [List.filter_append, List.filter_reverse]
            simp [List.filter_cons, hnotint]
          rw [hfil, hacc2, hacc1]
          refine ((List.reverse_perm _).append_right _).trans ?_
          refine List.perm_middle.trans ?_
          exact List.Perm.cons e List.perm_append_comm

/-- Soundness of extract_cycle_forward at a backward detection point. -/
theorem detB_spec {sd : IncSTN} {e : Nat} {expl : List Nat}
    (hg : GoodCore sd) (hd : DetB sd e expl) :
    expl ≠ [] ∧
    (∀ x ∈ expl, (sd.cstr x).internal = false ∧ (sd.cstr x).active = true) ∧
    ∃ a W, W ≠ [] ∧ EdgeWalk sd a W a ∧ weightSum sd W < 0 ∧
      (W.filter (fun x => !(sd.cstr x).internal)).Perm expl := by
  obtain ⟨hact, hlt, hneg, hx⟩ := hd
  have hB : InvB sd := hg.2.2.2.1
  have hF : InvF sd := hg.2.2.1
  have h1 : Inv1 sd := hg.1
  have hO : InvO sd := hg.2.1
  have hnotint : (sd.cstr e).internal = false := detB_edge_not_internal hg hlt hneg
  unfold IncSTN.extractCycleForward at hx
  dsimp only at hx
  cases hw : IncSTN.walkFwdCauses sd (sd.cstr e).target (sd.numNodes + 1)
      (sd.cstr e).source [e] with
  | none =>
    rw [hw] at hx
    cases hx
  | some p =>
    obtain ⟨acc, flag⟩ := p
    rw [hw] at hx
    obtain ⟨W2, hne2, hacc2, hwalk2, hwt2, hmem2⟩ :=
      walkFwdCauses_spec sd hF _ _ _ _ _ _ hw
    cases flag with
    | true =>
      dsimp only at hx
      have hae : acc = expl := by
        cases hx
        rfl
      subst hae
      have hwalk2' : EdgeWalk sd (sd.cstr e).target W2.reverse (sd.cstr e).source :=
        hwalk2
      have hwt2' : weightSum sd W2 ≤
          sd.fdist (sd.cstr e).source - sd.fdist (sd.cstr e).target := hwt2
      refine ⟨by rw [hacc2]; simp, ?_, (sd.cstr e).target,
        W2.reverse ++ [e], by simp, ?_, ?_, ?_⟩
      · intro x hxm
        rw [hacc2] at hxm
        rcases List.mem_append.mp hxm with hxm | hxm
        · have hxe : x = e := by simpa using hxm
          rw [hxe]
          exact ⟨hnotint, hact⟩
        · obtain ⟨hxW, hpx⟩ := List.mem_filter.mp hxm
          have hxint : (sd.cstr x).internal = false := by simpa using hpx
          rcases hmem2 x hxW with hint | hact2
          · rw [hxint] at hint
            cases hint
          · exact ⟨hxint, hact2⟩
      · exact edgeWalk_append hwalk2' ⟨rfl, rfl⟩
      · rw [weightSum_append, weightSum_reverse, weightSum_cons]
        have hiv := h1 (sd.cstr e).target
        have hz : weightSum sd [] = 0 := rfl
        rw [hz]
        omega
      · have hfil : (W2.reverse ++ [e]).filter (fun x => !(sd.cstr x).internal)
            = (W2.filter (fun x => !(sd.cstr x).internal)).reverse ++ [e] := by
          rw [List.filter_append, List.filter_reverse]
          simp [List.filter_cons, hnotint]
        rw [hfil, hacc2]
        refine ((List.reverse_perm _).append_right _).trans ?_
        exact List.perm_append_comm
    | false =>
      dsimp only at hx
      cases hw2 : IncSTN.walkBackCauses sd sd.origin (sd.numNodes + 1)
          (sd.cstr e).target acc with
      | none =>
        rw [hw2] at hx
        cases hx
      | some p2 =>
        obtain ⟨acc2, flag2⟩ := p2
        rw [hw2] at hx
        have hae : acc2 = expl := by
          cases hx
          rfl
        subst hae
        obtain ⟨W1, hne1, hacc1, hwalk1, hwt1, hmem1⟩ :=
          walkBackCauses_spec sd hB sd.origin _ _ _ _ _ hw2
        have hcnd : cond flag2 sd.origin sd.origin = sd.origin := Bool.cond_self _ _
        rw [hcnd] at hwalk1 hwt1
        have hwalk2' : EdgeWalk sd sd.origin W2.reverse (sd.cstr e).source := hwalk2
        have hwt2' : weightSum sd W2 ≤
            sd.fdist (sd.cstr e).source - sd.fdist sd.origin := hwt2
        have hf0 : sd.fdist sd.origin = 0 := hO.1
        have hb0 : sd.bdist sd.origin = 0 := hO.2
        refine ⟨by rw [hacc1, hacc2]; simp, ?_, sd.origin,
          W2.reverse ++ (e :: W1), by simp, ?_, ?_, ?_⟩
        · intro x hxm
          rw [hacc1, hacc2] at hxm
          rcases List.mem_append.mp hxm with hxm | hxm
          · rcases List.mem_append.mp hxm with hxm | hxm
            · have hxe : x = e := by simpa using hxm
              rw [hxe]
              exact ⟨hnotint, hact⟩
            · obtain ⟨hxW, hpx⟩ := List.mem_filter.mp hxm
              have hxint : (sd.cstr x).internal = false := by simpa using hpx
              rcases hmem2 x hxW with hint | hact2
              · rw [hxint] at hint
                cases hint
              · exact ⟨hxint, hact2⟩
          · obtain ⟨hxW, hpx⟩ := List.mem_filter.mp hxm
            have hxint : (sd.cstr x).internal = false := by simpa using hpx
            rcases hmem1 x hxW with hint | hact2
            · rw [hxint] at hint
              cases hint
            · exact ⟨hxint, hact2⟩
        · exact edgeWalk_append hwalk2' ⟨rfl, hwalk1⟩
        · rw [weightSum_append, weightSum_reverse, weightSum_cons]
          omega
        · have hfil : (W2.reverse ++ (e :: W1)).filter (fun x => !(sd.cstr x).internal)
              = (W2.filter (fun x => !(sd.cstr x).internal)).reverse
                ++ (e :: W1.filter (fun x => !(sd.cstr x).internal)) := by
            rw [List.filter_append, List.filter_reverse]
            simp [List.filter_cons, hnotint]
          rw [hfil, hacc1, hacc2]
          refine ((List.reverse_perm _).append_right _).trans ?_
          exact List.perm_middle

theorem getD_append_one {α : Type} (l : List α) (c : α) (e : Nat) (d : α) :
    (l ++ [c]).getD e d =
      if e < l.length then l.getD e d
      else if e = l.length then c else d := by
  rw [List.getD_eq_getElem?_getD]
  by_cases h1 : e < l.length
  · rw [if_pos h1, List.getElem?_append_left h1, List.getD_eq_getElem?_getD]
  · rw [if_neg h1]
    by_cases h2 : e = l.length
    · rw [if_pos h2, h2, List.getElem?_concat_length]
      rfl
    · rw [if_neg h2]
      have : (l ++ [c])[e]? = none := by
        rw [List.getElem?_eq_none_iff]
        simp only [List.length_append, List.length_cons, List.length_nil]
        omega
      rw [this]
      rfl


theorem getD_append_two {α : Type} (l : List α) (c1 c2 : α) (e : Nat) (d : α) :
    (l ++ [c1, c2]).getD e d =
      if e < l.length then l.getD e d
      else if e = l.length then c1
      else if e = l.length + 1 then c2 else d := by
  have hsplit : l ++ [c1, c2] = (l ++ [c1]) ++ [c2] := by simp
  have hL : (l ++ [c1]).length = l.length + 1 := by simp
  by_cases hl : e < l.length
  · rw [if_pos hl, hsplit, getD_append_one, hL, if_pos (by omega : e < l.length + 1),
        getD_append_one, if_pos hl]
  · rw [if_neg hl]
    by_cases h2 : e = l.length
    · rw [if_pos h2, hsplit, getD_append_one, hL, if_pos (by omega : e < l.length + 1),
          getD_append_one, if_neg hl, if_pos h2]
    · rw [if_neg h2]
      by_cases h3 : e = l.length + 1
      · rw [if_pos h3, hsplit, getD_append_one, hL,
            if_neg (by omega : ¬ e < l.length + 1), if_pos h3]
      · rw [if_neg h3, hsplit, getD_append_one, hL,
            if_neg (by omega : ¬ e < l.length + 1), if_neg h3]

/-- Appending an inactive non-internal constraint (plus the EdgeAdded
trail entry) preserves all running invariants. -/
theorem goodCore_push {s : IncSTN} {c : Constraint}
    (hcint : c.internal = false) (hcact : c.active = false)
    (hcbnd : c.source < s.activeForwardEdges.length ∧
      c.target < s.activeForwardEdges.length)
    (hg : GoodCore s) :
    GoodCore { s with constraints := s.constraints ++ [c],
                      trail := Event.edgeAdded :: s.trail } := by
  obtain ⟨h1, h2, h3, h4, h5, h6, h7, h8, h9, h10, h11, h12, h13⟩ := hg
  set s2 : IncSTN := { s with constraints := s.constraints ++ [c], trail := Event.edgeAdded :: s.trail } with hs2
  have hcs : ∀ e, s2.cstr e =
      if e < s.constraints.length then s.cstr e
      else if e = s.constraints.length then c else default := by
    intro e
    show (s.constraints ++ [c]).getD e default = _
    rw [getD_append_one]
    rfl
  have hold : ∀ e, (s.cstr e).internal = true ∨ (s.cstr e).active = true →
      s2.cstr e = s.cstr e := by
    intro e he
    obtain ⟨c0, hc0⟩ := cstr_flag_in_range he
    rw [hcs e, if_pos (List.getElem?_eq_some_iff.mp hc0).1]
  have hnew : ∀ e, (s2.cstr e).internal = true ∨ (s2.cstr e).active = true →
      s2.cstr e = s.cstr e ∧
      ((s.cstr e).internal = true ∨ (s.cstr e).active = true) := by
    intro e he
    rw [hcs e] at he
    by_cases hlt : e < s.constraints.length
    · rw [if_pos hlt] at he
      refine ⟨?_, he⟩
      rw [hcs e, if_pos hlt]
    · rw [if_neg hlt] at he
      exfalso
      by_cases heq : e = s.constraints.length
      · rw [if_pos heq] at he
        rcases he with he | he
        · rw [hcint] at he
          cases he
        · rw [hcact] at he
          cases he
      · rw [if_neg heq] at he
        rcases he with he | he <;> exact absurd he (by decide)
  refine ⟨?_, ?_, ?_, ?_, ?_, ?_, ?_, ?_, ?_, ?_, ?_, ?_, ?_⟩
  · intro n
    exact h1 n
  · exact h2
  · intro n e he
    obtain ⟨k1, k2, k3⟩ := h3 n e he
    rw [hold e k3]
    exact ⟨k1, k2, k3⟩
  · intro n e he
    obtain ⟨k1, k2, k3⟩ := h4 n e he
    rw [hold e k3]
    exact ⟨k1, k2, k3⟩
  · intro u e he
    rw [hold e (Or.inr (h5 u e he))]
    exact h5 u e he
  · intro u e he
    rw [hold e (Or.inr (h6 u e he))]
    exact h6 u e he
  · intro e he
    obtain ⟨hce, hfl⟩ := hnew e (Or.inl he)
    rw [hce] at he ⊢
    exact h7 e he
  · intro e he hsrc
    obtain ⟨hce, hfl⟩ := hnew e (Or.inl he)
    rw [hce] at he hsrc ⊢
    exact h8 e he hsrc
  · intro e he htgt
    obtain ⟨hce, hfl⟩ := hnew e (Or.inl he)
    rw [hce] at he htgt ⊢
    exact h9 e he htgt
  · intro e he
    obtain ⟨hce, hfl⟩ := hnew e (Or.inr he)
    rw [hce] at he ⊢
    exact h10 e he
  · exact h11
  · exact h12
  · intro e c0 hc0
    have hc0' : (s.constraints ++ [c])[e]? = some c0 := hc0
    show c0.source < s.activeForwardEdges.length ∧
      c0.target < s.activeForwardEdges.length
    by_cases hlt : e < s.constraints.length
    · rw [List.getElem?_append_left hlt] at hc0'
      exact h13 e c0 hc0'
    · have heq : e = s.constraints.length := by
        have := (List.getElem?_eq_some_iff.mp hc0').1
        simp only [List.length_append, List.length_cons, List.length_nil] at this
        omega
      rw [heq, List.getElem?_concat_length] at hc0'
      have : c = c0 := by
        cases hc0'
        rfl
      rw [← this]
      exact hcbnd

/-- add_node (with lb ≤ ub) preserves all running invariants: the two new
internal bound edges are inserted inactive with in-range endpoints, and
the fresh distance record carries their weights and causes. -/
theorem goodCore_addNode {s : IncSTN} {l u : Int} (hlu : l ≤ u)
    (hg : GoodCore s) :
    GoodCore
      ({ constraints := s.constraints ++
           [⟨true, false, 0, s.numNodes, u⟩, ⟨true, false, s.numNodes, 0, -l⟩],
         activeForwardEdges := s.activeForwardEdges ++ [[]],
         activeBackwardEdges := s.activeBackwardEdges ++ [[]],
         distances := s.distances ++
           [⟨u, some s.numEdges, false, -l, some (s.numEdges + 1), false⟩],
         trail := .newPendingActivation :: .newPendingActivation ::
           .edgeAdded :: .edgeAdded :: .nodeAdded :: s.trail,
         pendingActivations := s.pendingActivations ++ [s.numEdges, s.numEdges + 1],
         level := s.level,
         explanation := s.explanation } : IncSTN) := by
  obtain ⟨h1, h2, h3, h4, h5, h6, h7, h8, h9, h10, h11, h12, h13⟩ := hg
  set s3 : IncSTN :=
      ({ constraints := s.constraints ++
           [⟨true, false, 0, s.numNodes, u⟩, ⟨true, false, s.numNodes, 0, -l⟩],
         activeForwardEdges := s.activeForwardEdges ++ [[]],
         activeBackwardEdges := s.activeBackwardEdges ++ [[]],
         distances := s.distances ++
           [⟨u, some s.numEdges, false, -l, some (s.numEdges + 1), false⟩],
         trail := .newPendingActivation :: .newPendingActivation ::
           .edgeAdded :: .edgeAdded :: .nodeAdded :: s.trail,
         pendingActivations := s.pendingActivations ++ [s.numEdges, s.numEdges + 1],
         level := s.level,
         explanation := s.explanation } : IncSTN) with hs3
  have hND : s.distances.length = s.activeForwardEdges.length := h12.1
  have hN1 : 1 ≤ s.activeForwardEdges.length := h11
  have hNE : s.numEdges = s.constraints.length := rfl
  have hNN : s.numNodes = s.activeForwardEdges.length := rfl
  have hcs : ∀ e, s3.cstr e =
      if e < s.constraints.length then s.cstr e
      else if e = s.constraints.length then ⟨true, false, 0, s.numNodes, u⟩
      else if e = s.constraints.length + 1 then ⟨true, false, s.numNodes, 0, -l⟩
      else default := by
    intro e
    show (s.constraints ++ _).getD e default = _
    rw [getD_append_two]
    rfl
  have hdist : ∀ n, s3.dist n =
      if n < s.distances.length then s.dist n
      else if n = s.distances.length then
        ⟨u, some s.numEdges, false, -l, some (s.numEdges + 1), false⟩
      else default := by
    intro n
    show (s.distances ++ _).getD n default = _
    rw [getD_append_one]
    rfl
  have hfd : ∀ n, s3.fdist n =
      if n < s.distances.length then s.fdist n
      else if n = s.distances.length then u else 0 := by
    intro n
    by_cases hn : n < s.distances.length
    · rw [if_pos hn]
      unfold IncSTN.fdist
      rw [hdist n, if_pos hn]
    · rw [if_neg hn]
      by_cases hn2 : n = s.distances.length
      · rw [if_pos hn2]
        unfold IncSTN.fdist
        rw [hdist n, if_neg hn, if_pos hn2]
      · rw [if_neg hn2]
        unfold IncSTN.fdist
        rw [hdist n, if_neg hn, if_neg hn2]
        rfl
  have hbd : ∀ n, s3.bdist n =
      if n < s.distances.length then s.bdist n
      else if n = s.distances.length then -l else 0 := by
    intro n
    by_cases hn : n < s.distances.length
    · rw [if_pos hn]
      unfold IncSTN.bdist
      rw [hdist n, if_pos hn]
    · rw [if_neg hn]
      by_cases hn2 : n = s.distances.length
      · rw [if_pos hn2]
        unfold IncSTN.bdist
        rw [hdist n, if_neg hn, if_pos hn2]
      · rw [if_neg hn2]
        unfold IncSTN.bdist
        rw [hdist n, if_neg hn, if_neg hn2]
        rfl
  have hfc : ∀ n, (s3.dist n).forwardCause =
      if n < s.distances.length then (s.dist n).forwardCause
      else if n = s.distances.length then some s.numEdges else none := by
    intro n
    by_cases hn : n < s.distances.length
    · rw [if_pos hn, hdist n, if_pos hn]
    · rw [if_neg hn]
      by_cases hn2 : n = s.distances.length
      · rw [if_pos hn2, hdist n, if_neg hn, if_pos hn2]
      · rw [if_neg hn2, hdist n, if_neg hn, if_neg hn2]
        rfl
  have hbc : ∀ n, (s3.dist n).backwardCause =
      if n < s.distances.length then (s.dist n).backwardCause
      else if n = s.distances.length then some (s.numEdges + 1) else none := by
    intro n
    by_cases hn : n < s.distances.length
    · rw [if_pos hn, hdist n, if_pos hn]
    · rw [if_neg hn]
      by_cases hn2 : n = s.distances.length
      · rw [if_pos hn2, hdist n, if_neg hn, if_pos hn2]
      · rw [if_neg hn2, hdist n, if_neg hn, if_neg hn2]
        rfl
  have hold : ∀ e, (s.cstr e).internal = true ∨ (s.cstr e).active = true →
      s3.cstr e = s.cstr e ∧ e < s.constraints.length := by
    intro e he
    obtain ⟨c0, hc0⟩ := cstr_flag_in_range he
    have hlt : e < s.constraints.length := (List.getElem?_eq_some_iff.mp hc0).1
    exact ⟨by rw [hcs e, if_pos hlt], hlt⟩
  have hafeM : ∀ u' e, e ∈ (s3.activeForwardEdges.getD u' []) →
      e ∈ s.activeForwardEdges.getD u' [] := by
    intro u' e he
    have he2 : e ∈ (s.activeForwardEdges ++ [[]]).getD u' [] := he
    rw [getD_append_one] at he2
    by_cases hu1 : u' < s.activeForwardEdges.length
    · rw [if_pos hu1] at he2
      exact he2
    · rw [if_neg hu1] at he2
      by_cases hu2 : u' = s.activeForwardEdges.length
      · rw [if_pos hu2] at he2
        simp at he2
      · rw [if_neg hu2] at he2
        simp at he2
  have habeM : ∀ u' e, e ∈ (s3.activeBackwardEdges.getD u' []) →
      e ∈ s.activeBackwardEdges.getD u' [] := by
    intro u' e he
    have he2 : e ∈ (s.activeBackwardEdges ++ [[]]).getD u' [] := he
    rw [getD_append_one] at he2
    by_cases hu1 : u' < s.activeBackwardEdges.length
    · rw [if_pos hu1] at he2
      exact he2
    · rw [if_neg hu1] at he2
      by_cases hu2 : u' = s.activeBackwardEdges.length
      · rw [if_pos hu2] at he2
        simp at he2
      · rw [if_neg hu2] at he2
        simp at he2
  have hrangeF : ∀ e, (s.cstr e).internal = true ∨ (s.cstr e).active = true →
      (s.cstr e).source < s.distances.length ∧
      (s.cstr e).target < s.distances.length := by
    intro e he
    obtain ⟨c0, hc0⟩ := cstr_flag_in_range he
    have := h13 e c0 hc0
    rw [cstr_of_get hc0]
    omega
  refine ⟨?_, ?_, ?_, ?_, ?_, ?_, ?_, ?_, ?_, ?_, ?_, ?_, ?_⟩
  · intro n
    rw [hfd n, hbd n]
    by_cases hn : n < s.distances.length
    · rw [if_pos hn, if_pos hn]
      exact h1 n
    · rw [if_neg hn, if_neg hn]
      by_cases hn2 : n = s.distances.length
      · rw [if_pos hn2, if_pos hn2]
        omega
      · rw [if_neg hn2, if_neg hn2]
        omega
  · constructor
    · rw [hfd 0, if_pos (by omega)]
      exact h2.1
    · rw [hbd 0, if_pos (by omega)]
      exact h2.2
  · intro n e he
    rw [hfc n] at he
    by_cases hn : n < s.distances.length
    · rw [if_pos hn] at he
      obtain ⟨k1, k2, k3⟩ := h3 n e he
      obtain ⟨hce, hlt⟩ := hold e k3
      rw [hce]
      refine ⟨k1, ?_, k3⟩
      rw [hfd n, if_pos hn, hfd (s.cstr e).source,
          if_pos (hrangeF e k3).1]
      exact k2
    · rw [if_neg hn] at he
      by_cases hn2 : n = s.distances.length
      · rw [if_pos hn2] at he
        have hee : e = s.numEdges := by
          cases he
          rfl
        subst hee
        rw [hcs s.numEdges, if_neg (by omega), if_pos (by omega)]
        refine ⟨?_, ?_, Or.inl rfl⟩
        · show s.numNodes = n
          show s.activeForwardEdges.length = n
          omega
        · show s3.fdist 0 + u ≤ s3.fdist n
          rw [hfd 0, if_pos (by omega), h2.1, hfd n, if_neg hn, if_pos hn2]
          omega
      · rw [if_neg hn2] at he
        cases he
  · intro n e he
    rw [hbc n] at he
    by_cases hn : n < s.distances.length
    · rw [if_pos hn] at he
      obtain ⟨k1, k2, k3⟩ := h4 n e he
      obtain ⟨hce, hlt⟩ := hold e k3
      rw [hce]
      refine ⟨k1, ?_, k3⟩
      rw [hbd n, if_pos hn, hbd (s.cstr e).target,
          if_pos (hrangeF e k3).2]
      exact k2
    · rw [if_neg hn] at he
      by_cases hn2 : n = s.distances.length
      · rw [if_pos hn2] at he
        have hee : e = s.numEdges + 1 := by
          cases he
          rfl
        subst hee
        rw [hcs (s.numEdges + 1), if_neg (by omega), if_neg (by omega), if_pos (by omega)]
        refine ⟨?_, ?_, Or.inl rfl⟩
        · show s.numNodes = n
          show s.activeForwardEdges.length = n
          omega
        · show s3.bdist 0 + -l ≤ s3.bdist n
          rw [hbd 0, if_pos (by omega), h2.2, hbd n, if_neg hn, if_pos hn2]
          omega
      · rw [if_neg hn2] at he
        cases he
  · intro u' e he
    have hm := hafeM u' e he
    obtain ⟨hce, hlt⟩ := hold e (Or.inr (h5 u' e hm))
    rw [hce]
    exact h5 u' e hm
  · intro u' e he
    have hm := habeM u' e he
    obtain ⟨hce, hlt⟩ := hold e (Or.inr (h6 u' e hm))
    rw [hce]
    exact h6 u' e hm
  · intro e he
    rw [hcs e] at he ⊢
    by_cases hlt : e < s.constraints.length
    · rw [if_pos hlt] at he ⊢
      exact h7 e he
    · rw [if_neg hlt] at he ⊢
      by_cases he1 : e = s.constraints.length
      · rw [if_pos he1] at he ⊢
        refine ⟨Or.inl rfl, ?_⟩
        intro hloop
        exfalso
        have : (0 : Nat) = s.numNodes := hloop
        have : (0 : Nat) = s.activeForwardEdges.length := this
        omega
      · rw [if_neg he1] at he ⊢
        by_cases he2 : e = s.constraints.length + 1
        · rw [if_pos he2] at he ⊢
          refine ⟨Or.inr rfl, ?_⟩
          intro hloop
          exfalso
          have : s.numNodes = (0 : Nat) := hloop
          have : s.activeForwardEdges.length = (0 : Nat) := this
          omega
        · rw [if_neg he2] at he
          exact absurd he (by decide)
  · intro e he hsrc
    rw [hcs e] at he hsrc ⊢
    by_cases hlt : e < s.constraints.length
    · rw [if_pos hlt] at he hsrc ⊢
      rw [hfd (s.cstr e).target, if_pos (hrangeF e (Or.inl he)).2]
      exact h8 e he hsrc
    · rw [if_neg hlt] at he hsrc ⊢
      by_cases he1 : e = s.constraints.length
      · rw [if_pos he1] at he hsrc ⊢
        show s3.fdist s.numNodes ≤ u
        rw [hfd s.numNodes, if_neg (by omega), if_pos (by omega)]
      · rw [if_neg he1] at he hsrc ⊢
        by_cases he2 : e = s.constraints.length + 1
        · rw [if_pos he2] at he hsrc ⊢
          exfalso
          have : s.numNodes = (0 : Nat) := hsrc
          have : s.activeForwardEdges.length = (0 : Nat) := this
          omega
        · rw [if_neg he2] at he
          exact absurd he (by decide)
  · intro e he htgt
    rw [hcs e] at he htgt ⊢
    by_cases hlt : e < s.constraints.length
    · rw [if_pos hlt] at he htgt ⊢
      rw [hbd (s.cstr e).source, if_pos (hrangeF e (Or.inl he)).1]
      exact h9 e he htgt
    · rw [if_neg hlt] at he htgt ⊢
      by_cases he1 : e = s.constraints.length
      · rw [if_pos he1] at he htgt ⊢
        exfalso
        have : s.numNodes = (0 : Nat) := htgt
        have : s.activeForwardEdges.length = (0 : Nat) := this
        omega
      · rw [if_neg he1] at he htgt ⊢
        by_cases he2 : e = s.constraints.length + 1
        · rw [if_pos he2] at he htgt ⊢
          show s3.bdist s.numNodes ≤ -l
          rw [hbd s.numNodes, if_neg (by omega), if_pos (by omega)]
        · rw [if_neg he2] at he
          exact absurd he (by decide)
  · intro e he
    rw [hcs e] at he ⊢
    by_cases hlt : e < s.constraints.length
    · rw [if_pos hlt] at he ⊢
      exact h10 e he
    · rw [if_neg hlt] at he
      by_cases he1 : e = s.constraints.length
      · rw [if_pos he1] at he
        exact absurd he (by simp)
      · rw [if_neg he1] at he
        by_cases he2 : e = s.constraints.length + 1
        · rw [if_pos he2] at he
          exact absurd he (by simp)
        · rw [if_neg he2] at he
          exact absurd he (by decide)
  · show 1 ≤ (s.activeForwardEdges ++ [[]]).length
    simp
  · constructor
    · show (s.distances ++ _).length = (s.activeForwardEdges ++ [[]]).length
      simp only [List.length_append, List.length_cons, List.length_nil]
      omega
    · show (s.activeBackwardEdges ++ [[]]).length
          = (s.activeForwardEdges ++ [[]]).length
      simp only [List.length_append, List.length_cons, List.length_nil]
      have := h12.2
      omega
  · intro e c0 hc0
    have hc0' : (s.constraints ++
        [⟨true, false, 0, s.numNodes, u⟩, ⟨true, false, s.numNodes, 0, -l⟩])[e]?
        = some c0 := hc0
    have hsplit : s.constraints ++
        [(⟨true, false, 0, s.numNodes, u⟩ : Constraint),
         ⟨true, false, s.numNodes, 0, -l⟩]
        = (s.constraints ++ [⟨true, false, 0, s.numNodes, u⟩])
          ++ [⟨true, false, s.numNodes, 0, -l⟩] := by simp
    have hlen : e < s.constraints.length + 2 := by
      have := (List.getElem?_eq_some_iff.mp hc0').1
      simp only [List.length_append, List.length_cons, List.length_nil] at this
      omega
    show c0.source < (s.activeForwardEdges ++ [[]]).length ∧
      c0.target < (s.activeForwardEdges ++ [[]]).length
    simp only [List.length_append, List.length_cons, List.length_nil]
    by_cases hlt : e < s.constraints.length
    · rw [List.getElem?_append_left hlt] at hc0'
      have := h13 e c0 hc0'
      omega
    · by_cases he1 : e = s.constraints.length
      · rw [hsplit, List.getElem?_append_left
            (by simp only [List.length_append, List.length_cons, List.length_nil]; omega),
          he1, List.getElem?_concat_length] at hc0'
        have hv : (⟨true, false, 0, s.numNodes, u⟩ : Constraint) = c0 := by
          cases hc0'
          rfl
        rw [← hv]
        show (0 : Nat) < _ ∧ s.numNodes < _
        show (0 : Nat) < _ ∧ s.activeForwardEdges.length < _
        omega
      · have he2 : e = s.constraints.length + 1 := by omega
        have hL1 : (s.constraints ++
            [(⟨true, false, 0, s.numNodes, u⟩ : Constraint)]).length
            = s.constraints.length + 1 := by simp
        rw [hsplit, he2, ← hL1, List.getElem?_concat_length] at hc0'
        have hv : (⟨true, false, s.numNodes, 0, -l⟩ : Constraint) = c0 := by
          cases hc0'
          rfl
        rw [← hv]
        show s.numNodes < _ ∧ (0 : Nat) < _
        show s.activeForwardEdges.length < _ ∧ (0 : Nat) < _
        omega

/-- Every non-backtracking facade operation preserves the invariants. -/
theorem goodCore_applyOp {s s' : IncSTN} {op : Op}
    (hbp : op ≠ .setBP) (hun : op ≠ .undo)
    (h : applyOp s op = some s') (hs : GoodCore s) : GoodCore s' := by
  cases op with
  | addNode l u =>
    simp only [applyOp, Option.map_eq_some'] at h
    obtain ⟨⟨s1, id⟩, h1, h2⟩ := h
    have hlu : l ≤ u := by
      by_contra hc
      unfold IncSTN.addNode at h1
      simp [hc] at h1
    rw [addNode_eq s l u hlu] at h1
    simp only [Option.some.injEq, Prod.mk.injEq] at h1
    obtain ⟨h3, -⟩ := h1
    rw [← h2, ← h3]
    exact goodCore_addNode hlu hs
  | addInactiveEdge a b w =>
    simp only [applyOp, Option.map_eq_some'] at h
    obtain ⟨⟨s1, id⟩, h1, h2⟩ := h
    unfold IncSTN.addInactiveEdge IncSTN.addConstraint at h1
    split at h1
    · rename_i hbnd
      simp only [Option.some.injEq, Prod.mk.injEq] at h1
      obtain ⟨h3, -⟩ := h1
      rw [← h2, ← h3]
      exact goodCore_push rfl rfl hbnd hs
    · cases h1
  | addEdge a b w =>
    simp only [applyOp, IncSTN.addEdge, Option.map_eq_some'] at h
    obtain ⟨⟨s1, id⟩, ⟨⟨s0, id0⟩, h0, h0e⟩, h2⟩ := h
    cases h0e
    unfold IncSTN.addInactiveEdge IncSTN.addConstraint at h0
    split at h0
    · rename_i hbnd
      simp only [Option.some.injEq, Prod.mk.injEq] at h0
      obtain ⟨h3, -⟩ := h0
      rw [← h2]
      refine goodCore_coreEq _ _ ⟨rfl, rfl, rfl, rfl⟩ ?_
      rw [← h3]
      exact goodCore_push rfl rfl hbnd hs
    · cases h0
  | markActive e =>
    cases h
    exact goodCore_coreEq s _ ⟨rfl, rfl, rfl, rfl⟩ hs
  | propagateAll fuel =>
    cases h
    exact (goodCore_propagateAll fuel s _ _ hs rfl).1
  | setBP => exact absurd rfl hbp
  | undo => exact absurd rfl hun

theorem goodCore_new : GoodCore IncSTN.new := by
  have hd1 : ∀ m : Nat, IncSTN.new.dist (m + 1) = default := by
    intro m
    show IncSTN.new.distances.getD (m + 1) default = default
    refine List.getD_eq_default _ _ ?_
    rw [show IncSTN.new.distances.length = 1 from rfl]
    omega
  have hc2 : ∀ m : Nat, IncSTN.new.cstr (m + 2) = default := by
    intro m
    show IncSTN.new.constraints.getD (m + 2) default = default
    refine List.getD_eq_default _ _ ?_
    rw [show IncSTN.new.constraints.length = 2 from rfl]
    omega
  have hr1 : ∀ m : Nat, IncSTN.new.activeForwardEdges.getD (m + 1) [] = [] := by
    intro m
    refine List.getD_eq_default _ _ ?_
    rw [show IncSTN.new.activeForwardEdges.length = 1 from rfl]
    omega
  have hr2 : ∀ m : Nat, IncSTN.new.activeBackwardEdges.getD (m + 1) [] = [] := by
    intro m
    refine List.getD_eq_default _ _ ?_
    rw [show IncSTN.new.activeBackwardEdges.length = 1 from rfl]
    omega
  refine ⟨inv1_new, ?_, ?_, ?_, ?_, ?_, ?_, ?_, ?_, ?_, ?_, ?_, ?_⟩
  · exact ⟨rfl, rfl⟩
  · intro n e he
    match n with
    | 0 =>
      have hv : (IncSTN.new.dist 0).forwardCause = some 0 := rfl
      rw [hv] at he
      cases he
      decide
    | m + 1 =>
      rw [show (IncSTN.new.dist (m + 1)).forwardCause = none from by rw [hd1 m]; rfl] at he
      cases he
  · intro n e he
    match n with
    | 0 =>
      have hv : (IncSTN.new.dist 0).backwardCause = some 1 := rfl
      rw [hv] at he
      cases he
      decide
    | m + 1 =>
      rw [show (IncSTN.new.dist (m + 1)).backwardCause = none from by rw [hd1 m]; rfl] at he
      cases he
  · intro u' e he
    match u' with
    | 0 =>
      have hv : IncSTN.new.activeForwardEdges.getD 0 [] = [] := rfl
      rw [hv] at he
      simp at he
    | m + 1 =>
      rw [hr1 m] at he
      simp at he
  · intro u' e he
    match u' with
    | 0 =>
      have hv : IncSTN.new.activeBackwardEdges.getD 0 [] = [] := rfl
      rw [hv] at he
      simp at he
    | m + 1 =>
      rw [hr2 m] at he
      simp at he
  · intro e he
    match e with
    | 0 => decide
    | 1 => decide
    | m + 2 =>
      rw [hc2 m] at he
      exact absurd he (by decide)
  · intro e he hsrc
    match e with
    | 0 => decide
    | 1 => decide
    | m + 2 =>
      rw [hc2 m] at he
      exact absurd he (by decide)
  · intro e he htgt
    match e with
    | 0 => decide
    | 1 => decide
    | m + 2 =>
      rw [hc2 m] at he
      exact absurd he (by decide)
  · intro e he
    match e with
    | 0 => exact absurd he (by decide)
    | 1 => exact absurd he (by decide)
    | m + 2 =>
      rw [hc2 m] at he
      exact absurd he (by decide)
  · show 1 ≤ IncSTN.new.activeForwardEdges.length
    decide
  · exact ⟨rfl, rfl⟩
  · intro e c hc
    match e with
    | 0 =>
      have hv : IncSTN.new.constraints[0]? = some ⟨true, false, 0, 0, 0⟩ := rfl
      rw [hv] at hc
      cases hc
      decide
    | 1 =>
      have hv : IncSTN.new.constraints[1]? = some ⟨true, false, 0, 0, 0⟩ := rfl
      rw [hv] at hc
      cases hc
      decide
    | m + 2 =>
      have hv : IncSTN.new.constraints[m + 2]? = none := by
        rw [List.getElem?_eq_none_iff]
        rw [show IncSTN.new.constraints.length = 2 from rfl]
        omega
      rw [hv] at hc
      cases hc

theorem pinv_goodCore_new : PInv GoodCore IncSTN.new := by
  refine ⟨goodCore_new, ?_, ?_⟩
  · intro E l t h
    have : ([] : List Event) = E ++ Event.level l :: t := h
    exact absurd this.symm (by simp)
  · show GoodCore (rollback IncSTN.new.trail IncSTN.new)
    have : IncSTN.new.trail = [] := rfl
    rw [this, rollback_nil]
    exact goodCore_new

/-- Every reachable state satisfies all running invariants. -/
theorem reachable_goodCore {s : IncSTN} (h : Reachable s) : GoodCore s := by
  obtain ⟨ops, h⟩ := h
  exact (pinv_execOps goodCore_coreEq
    (fun hbp hun h1 hP => goodCore_applyOp hbp hun h1 hP)
    ops IncSTN.new s pinv_goodCore_new h).1

theorem edgeWalk_of_cstr_eq {s t : IncSTN} (h : ∀ e, s.cstr e = t.cstr e) :
    ∀ (W : List Nat) (a b : Nat), EdgeWalk s a W b → EdgeWalk t a W b := by
  intro W
  induction W with
  | nil =>
    intro a b hw
    exact hw
  | cons e rest ih =>
    intro a b hw
    obtain ⟨h1, h2⟩ := hw
    refine ⟨by rw [← h e]; exact h1, ?_⟩
    rw [← h e]
    exact ih _ _ h2

theorem weightSum_of_cstr_eq {s t : IncSTN} (h : ∀ e, s.cstr e = t.cstr e) :
    ∀ W : List Nat, weightSum t W = weightSum s W := by
  intro W
  induction W with
  | nil => rfl
  | cons e rest ih =>
    rw [weightSum_cons, weightSum_cons, ih, h e]

theorem filter_of_cstr_eq {s t : IncSTN} (h : ∀ e, s.cstr e = t.cstr e) :
    ∀ W : List Nat, W.filter (fun e => !(t.cstr e).internal)
      = W.filter (fun e => !(s.cstr e).internal) := by
  intro W
  induction W with
  | nil => rfl
  | cons e rest ih =>
    rw [List.filter_cons, List.filter_cons, ih, h e]

/-- C2 counterexample: a pending negative self-loop is reported as
Inconsistent with explanation [its edge], yet that edge is NOT active at
the moment of the return (self-loops are never activated), contradicting
the claim that every explanation edge is active. -/
theorem c2_counterexample :
    (STN.IncSTN.propagateAll 10
        (STN.runOps [.addInactiveEdge 0 0 (-2), .markActive 2])).1
      = .inconsistent [2]
    ∧ (((STN.IncSTN.propagateAll 10
        (STN.runOps [.addInactiveEdge 0 0 (-2), .markActive 2])).2).cstr 2).active
      = false := by
  exact ⟨rfl, rfl⟩

/-- C2 (amended): whenever propagate_all on a reachable state returns
Inconsistent(expl), the explanation is nonempty, every listed edge is
non-internal, every listed edge is active at the return UNLESS the
inconsistency is a pending negative self-loop (then expl is exactly that
single inactive edge), and the listed edges extend, by internal bound
edges only, to a directed closed walk of strictly negative total weight:
there is a walk W from some node a back to a whose non-internal edges are
a permutation of expl and whose weights sum below zero. -/
theorem c2_explanation_negative_cycle {fuel : Nat} {s s2 : STN.IncSTN}
    {expl : List Nat}
    (hreach : STN.Reachable s)
    (hrun : STN.IncSTN.propagateAll fuel s = (.inconsistent expl, s2)) :
    expl ≠ [] ∧
    (∀ e ∈ expl, (s2.cstr e).internal = false) ∧
    ((∀ e ∈ expl, (s2.cstr e).active = true) ∨
      (∃ e, expl = [e] ∧ (s2.cstr e).active = false ∧
        (s2.cstr e).source = (s2.cstr e).target ∧ (s2.cstr e).weight < 0)) ∧
    (∃ a W, W ≠ [] ∧ STN.EdgeWalk s2 a W a ∧ STN.weightSum s2 W < 0 ∧
      (W.filter (fun e => !(s2.cstr e).internal)).Perm expl) := by
  have hg : STN.GoodCore s := STN.reachable_goodCore hreach
  obtain ⟨-, hchar⟩ := STN.goodCore_propagateAll fuel s _ _ hg hrun
  obtain ⟨sd, hgsd, hs2, hcase⟩ := hchar expl rfl
  subst hs2
  rcases hcase with ⟨edge, hexpl, hself, hw, hint, hact⟩ | ⟨e, hdet⟩
  · subst hexpl
    refine ⟨by simp, ?_, Or.inr ⟨edge, rfl, hact, hself, hw⟩, ?_⟩
    · intro x hx
      have hxe : x = edge := by simpa using hx
      rw [hxe]
      exact hint
    · refine ⟨(sd.cstr edge).source, [edge], by simp, ⟨rfl, hself.symm⟩, ?_, ?_⟩
      · rw [STN.weightSum_cons]
        have hz : STN.weightSum sd [] = 0 := rfl
        show (sd.cstr edge).weight + STN.weightSum sd [] < 0
        rw [hz]
        omega
      · have hfil : ([edge].filter (fun e => !(sd.cstr e).internal)) = [edge] := by
          simp [List.filter_cons, hint]
        show ([edge].filter (fun e => !(sd.cstr e).internal)).Perm [edge]
        rw [hfil]
  · rcases hdet with hdf | hdb
    · obtain ⟨hne, hmem, hwalk⟩ := STN.detF_spec hgsd hdf
      obtain ⟨a, W, hWne, hwk, hws, hperm⟩ := hwalk
      have hcse : ∀ e2, sd.cstr e2
          = ({ sd with explanation := expl } : STN.IncSTN).cstr e2 := fun e2 => rfl
      refine ⟨hne, fun e2 he2 => (hmem e2 he2).1,
        Or.inl (fun e2 he2 => (hmem e2 he2).2),
        a, W, hWne, STN.edgeWalk_of_cstr_eq hcse W a a hwk, ?_, ?_⟩
      · rw [STN.weightSum_of_cstr_eq hcse W]
        exact hws
      · rw [STN.filter_of_cstr_eq hcse W]
        exact hperm
    · obtain ⟨hne, hmem, hwalk⟩ := STN.detB_spec hgsd hdb
      obtain ⟨a, W, hWne, hwk, hws, hperm⟩ := hwalk
      have hcse : ∀ e2, sd.cstr e2
          = ({ sd with explanation := expl } : STN.IncSTN).cstr e2 := fun e2 => rfl
      refine ⟨hne, fun e2 he2 => (hmem e2 he2).1,
        Or.inl (fun e2 he2 => (hmem e2 he2).2),
        a, W, hWne, STN.edgeWalk_of_cstr_eq hcse W a a hwk, ?_, ?_⟩
      · rw [STN.weightSum_of_cstr_eq hcse W]
        exact hws
      · rw [STN.filter_of_cstr_eq hcse W]
        exact hperm

/-- C2 witness: the pending negative self-loop scenario instantiates the
amended claim: explanation [2], edge 2 non-internal and inactive, and the
one-edge walk 0 → 0 of weight -2 is the negative closed walk. -/
theorem c2_witness :
    STN.IncSTN.propagateAll 10
        (STN.runOps [.addInactiveEdge 0 0 (-2), .markActive 2])
      = (.inconsistent [2],
         (STN.IncSTN.propagateAll 10
           (STN.runOps [.addInactiveEdge 0 0 (-2), .markActive 2])).2)
    ∧ (([2] : List Nat) ≠ [] ∧
      (∀ e ∈ ([2] : List Nat),
        (((STN.IncSTN.propagateAll 10
          (STN.runOps [.addInactiveEdge 0 0 (-2), .markActive 2])).2).cstr e).internal
          = false) ∧
      ((∀ e ∈ ([2] : List Nat),
        (((STN.IncSTN.propagateAll 10
          (STN.runOps [.addInactiveEdge 0 0 (-2), .markActive 2])).2).cstr e).active
          = true) ∨
        (∃ e, ([2] : List Nat) = [e] ∧
          (((STN.IncSTN.propagateAll 10
            (STN.runOps [.addInactiveEdge 0 0 (-2), .markActive 2])).2).cstr e).active
            = false ∧
          (((STN.IncSTN.propagateAll 10
            (STN.runOps [.addInactiveEdge 0 0 (-2), .markActive 2])).2).cstr e).source
            = (((STN.IncSTN.propagateAll 10
              (STN.runOps [.addInactiveEdge 0 0 (-2), .markActive 2])).2).cstr e).target ∧
          (((STN.IncSTN.propagateAll 10
            (STN.runOps [.addInactiveEdge 0 0 (-2), .markActive 2])).2).cstr e).weight
            < 0)) ∧
      (∃ a W, W ≠ [] ∧
        STN.EdgeWalk (STN.IncSTN.propagateAll 10
          (STN.runOps [.addInactiveEdge 0 0 (-2), .markActive 2])).2 a W a ∧
        STN.weightSum (STN.IncSTN.propagateAll 10
          (STN.runOps [.addInactiveEdge 0 0 (-2), .markActive 2])).2 W < 0 ∧
        (W.filter (fun e =>
          !(((STN.IncSTN.propagateAll 10
            (STN.runOps [.addInactiveEdge 0 0 (-2), .markActive 2])).2).cstr e).internal)).Perm
          [2])) := by
  refine ⟨rfl, ?_⟩
  exact @c2_explanation_negative_cycle 10
    (STN.runOps [.addInactiveEdge 0 0 (-2), .markActive 2]) _ [2]
    ⟨[.addInactiveEdge 0 0 (-2), .markActive 2], rfl⟩ rfl

/-- Forward-fixed: no active edge can improve a forward distance (the
relaxation guard `candidate < previous` fails everywhere).  Quantified
over the stored edges so that concrete states can be checked by decide;
out-of-range edges are never active. -/
def FixF (s : IncSTN) : Prop := ∀ e, e < s.numEdges → (s.cstr e).active = true →
  s.fdist (s.cstr e).target ≤ s.fdist (s.cstr e).source + (s.cstr e).weight

/-- Backward-fixed: no active edge can improve a backward distance. -/
def FixB (s : IncSTN) : Prop := ∀ e, e < s.numEdges → (s.cstr e).active = true →
  s.bdist (s.cstr e).source ≤ s.bdist (s.cstr e).target + (s.cstr e).weight

theorem fixF_at_edge {s : IncSTN} (h : FixF s) {e : Nat}
    (hact : (s.cstr e).active = true) :
    s.fdist (s.cstr e).target ≤ s.fdist (s.cstr e).source + (s.cstr e).weight := by
  obtain ⟨c0, hc0⟩ := cstr_flag_in_range (Or.inr hact)
  exact h e (List.getElem?_eq_some_iff.mp hc0).1 hact

theorem fixB_at_edge {s : IncSTN} (h : FixB s) {e : Nat}
    (hact : (s.cstr e).active = true) :
    s.bdist (s.cstr e).source ≤ s.bdist (s.cstr e).target + (s.cstr e).weight := by
  obtain ⟨c0, hc0⟩ := cstr_flag_in_range (Or.inr hact)
  exact h e (List.getElem?_eq_some_iff.mp hc0).1 hact

theorem fixF_coreEq {a b : IncSTN} (h : CoreEq a b) (ha : FixF a) : FixF b := by
  intro e he hact
  have hlen : b.numEdges = a.numEdges := by
    show b.constraints.length = a.constraints.length
    rw [h.1]
  rw [← coreEq_cstr h e] at hact ⊢
  rw [← coreEq_fdist h (a.cstr e).target, ← coreEq_fdist h (a.cstr e).source]
  exact ha e (by omega) hact

theorem fixB_coreEq {a b : IncSTN} (h : CoreEq a b) (ha : FixB a) : FixB b := by
  intro e he hact
  have hlen : b.numEdges = a.numEdges := by
    show b.constraints.length = a.constraints.length
    rw [h.1]
  rw [← coreEq_cstr h e] at hact ⊢
  rw [← coreEq_bdist h (a.cstr e).source, ← coreEq_bdist h (a.cstr e).target]
  exact ha e (by omega) hact

/-- Under FixF a forward scan of active edges is a complete no-op. -/
theorem relaxForward_fixed (edges : List Nat) :
    ∀ (s : IncSTN) (q : List Nat), FixF s →
      (∀ e ∈ edges, (s.cstr e).active = true) →
      IncSTN.relaxForward s edges q = .inl (s, q) := by
  induction edges with
  | nil =>
    intro s q hfix hact
    rfl
  | cons e0 rest ih =>
    intro s q hfix hact
    rw [IncSTN.relaxForward.eq_def]
    simp only []
    rw [if_neg (not_lt.mpr (fixF_at_edge hfix (hact e0 (List.mem_cons_self e0 rest))))]
    exact ih s q hfix (fun e he => hact e (List.mem_cons_of_mem e0 he))

/-- Under FixB a backward scan of active edges is a complete no-op. -/
theorem relaxBackward_fixed (edges : List Nat) :
    ∀ (s : IncSTN) (q : List Nat), FixB s →
      (∀ e ∈ edges, (s.cstr e).active = true) →
      IncSTN.relaxBackward s edges q = .inl (s, q) := by
  induction edges with
  | nil =>
    intro s q hfix hact
    rfl
  | cons e0 rest ih =>
    intro s q hfix hact
    rw [IncSTN.relaxBackward.eq_def]
    simp only []
    rw [if_neg (not_lt.mpr (fixB_at_edge hfix (hact e0 (List.mem_cons_self e0 rest))))]
    exact ih s q hfix (fun e he => hact e (List.mem_cons_of_mem e0 he))

theorem invAdjF_coreEq {a b : IncSTN} (h : CoreEq a b) (ha : InvAdjF a) :
    InvAdjF b := by
  intro u e he
  rw [← h.2.1] at he
  rw [← coreEq_cstr h e]
  exact ha u e he

theorem invAdjB_coreEq {a b : IncSTN} (h : CoreEq a b) (ha : InvAdjB a) :
    InvAdjB b := by
  intro u e he
  rw [← h.2.2.1] at he
  rw [← coreEq_cstr h e]
  exact ha u e he

/-- Under both fixed-point conditions the work-queue loop drains without
touching the journalled core or the pending queue and returns Consistent
(given fuel beyond the queue length). -/
theorem propLoop_fixed :
    ∀ (queue : List Nat) (fuel : Nat) (s : IncSTN),
      FixF s → FixB s → InvAdjF s → InvAdjB s → queue.length + 1 ≤ fuel →
      ∃ s', IncSTN.propLoop fuel s queue = (.consistent, s') ∧ CoreEq s' s ∧
        s'.pendingActivations = s.pendingActivations := by
  intro queue
  induction queue with
  | nil =>
    intro fuel s hF hB hAF hAB hfuel
    match fuel, hfuel with
    | f + 1, _ =>
      exact ⟨s, rfl, CoreEq.refl s, rfl⟩
  | cons u q ih =>
    intro fuel s hF hB hAF hAB hfuel
    match fuel, hfuel with
    | f + 1, hf =>
      rw [IncSTN.propLoop.eq_def]
      simp only []
      have hstepF : (if (s.dist u).forwardPendingUpdate = true then
          IncSTN.relaxForward s (s.activeForwardEdges.getD u []) q
        else .inl (s, q)) = .inl (s, q) := by
        split
        · exact relaxForward_fixed _ s q hF (fun e he => hAF u e he)
        · rfl
      rw [hstepF]
      dsimp only
      have hstepB : (if (s.dist u).backwardPendingUpdate = true then
          IncSTN.relaxBackward s (s.activeBackwardEdges.getD u []) q
        else .inl (s, q)) = .inl (s, q) := by
        split
        · exact relaxBackward_fixed _ s q hB (fun e he => hAB u e he)
        · rfl
      rw [hstepB]
      dsimp only
      have hce : CoreEq (s.setDist u (fun x =>
          { x with forwardPendingUpdate := false,
                   backwardPendingUpdate := false })) s :=
        coreEq_setDist_self s u _ (fun d _ => rfl)
      obtain ⟨s', h1, h2, h3⟩ := ih f _ (fixF_coreEq hce.symm hF)
        (fixB_coreEq hce.symm hB) (invAdjF_coreEq hce.symm hAF)
        (invAdjB_coreEq hce.symm hAB)
        (by simp only [List.length_cons] at hf; omega)
      refine ⟨s', h1, coreEq_trans h2 hce, ?_⟩
      rw [h3, setDist_pending]

/-- Under both fixed-point conditions fn propagate returns Consistent
without touching the journalled core or the pending queue. -/
theorem propagate_fixed (fuel : Nat) (s : IncSTN) (edge : Nat)
    (hF : FixF s) (hB : FixB s) (hAF : InvAdjF s) (hAB : InvAdjB s)
    (hfuel : 3 ≤ fuel) :
    ∃ s', IncSTN.propagate fuel s edge = (.consistent, s') ∧ CoreEq s' s ∧
      s'.pendingActivations = s.pendingActivations := by
  unfold IncSTN.propagate
  dsimp only
  have hce1 : CoreEq (s.setDist (s.cstr edge).source (fun x =>
      { x with forwardPendingUpdate := true,
               backwardPendingUpdate := true })) s :=
    coreEq_setDist_self s _ _ (fun d _ => rfl)
  have hce : CoreEq ((s.setDist (s.cstr edge).source (fun x =>
      { x with forwardPendingUpdate := true,
               backwardPendingUpdate := true })).setDist (s.cstr edge).target
      (fun x =>
        { x with forwardPendingUpdate := true,
                 backwardPendingUpdate := true })) s :=
    coreEq_trans (coreEq_setDist_self (s.setDist (s.cstr edge).source (fun x =>
      { x with forwardPendingUpdate := true,
               backwardPendingUpdate := true })) (s.cstr edge).target
      (fun x =>
        { x with forwardPendingUpdate := true,
                 backwardPendingUpdate := true }) (fun d _ => rfl)) hce1
  obtain ⟨s', h1, h2, h3⟩ := propLoop_fixed
    [(s.cstr edge).source, (s.cstr edge).target] fuel _
    (fixF_coreEq hce.symm hF) (fixB_coreEq hce.symm hB)
    (invAdjF_coreEq hce.symm hAF) (invAdjB_coreEq hce.symm hAB)
    (by simp only [List.length_cons, List.length_nil]; omega)
  refine ⟨s', h1, coreEq_trans h2 hce, ?_⟩
  rw [h3, setDist_pending, setDist_pending]

/-- Activating an edge that is already relaxed in both directions keeps
both fixed-point conditions. -/
theorem fix_activate {s : IncSTN} {edge : Nat} {c : Constraint}
    (hc : s.constraints[edge]? = some c)
    (hF : FixF s) (hB : FixB s)
    (hrelF : s.fdist c.target ≤ s.fdist c.source + c.weight)
    (hrelB : s.bdist c.source ≤ s.bdist c.target + c.weight) :
    FixF { s with
        constraints := s.constraints.set edge { c with active := true },
        activeForwardEdges := listPush s.activeForwardEdges c.source edge,
        activeBackwardEdges := listPush s.activeBackwardEdges c.target edge,
        trail := Event.edgeActivated edge :: s.trail } ∧
    FixB { s with
        constraints := s.constraints.set edge { c with active := true },
        activeForwardEdges := listPush s.activeForwardEdges c.source edge,
        activeBackwardEdges := listPush s.activeBackwardEdges c.target edge,
        trail := Event.edgeActivated edge :: s.trail } := by
  have hc5 : ∀ e, ({ s with
        constraints := s.constraints.set edge { c with active := true },
        activeForwardEdges := listPush s.activeForwardEdges c.source edge,
        activeBackwardEdges := listPush s.activeBackwardEdges c.target edge,
        trail := Event.edgeActivated edge :: s.trail } : IncSTN).cstr e
      = if e = edge then { c with active := true } else s.cstr e := by
    intro e
    exact cstr_set hc _ e
  have hlen : ∀ e : Nat, e < (s.constraints.set edge
      { c with active := true }).length → e < s.numEdges := by
    intro e he
    rw [List.length_set] at he
    exact he
  constructor
  · intro e he hact
    rw [hc5 e] at hact ⊢
    by_cases he2 : e = edge
    · rw [if_pos he2]
      exact hrelF
    · rw [if_neg he2] at hact ⊢
      exact fixF_at_edge hF hact
  · intro e he hact
    rw [hc5 e] at hact ⊢
    by_cases he2 : e = edge
    · rw [if_pos he2]
      exact hrelB
    · rw [if_neg he2] at hact ⊢
      exact fixB_at_edge hB hact

/-- propagate_all with an empty pending queue returns Consistent at once. -/
theorem propagateAll_nil {s : IncSTN} (hp : s.pendingActivations = [])
    (fuel : Nat) : IncSTN.propagateAll fuel s = (.consistent, s) := by
  rw [IncSTN.propagateAll.eq_def]
  dsimp only
  rw [hp]

/-- One pop of propagate_all on an inactive non-self-loop edge: activate
it, propagate, and continue on Consistent. -/
theorem propagateAll_step {s : IncSTN} {edge : Nat} {rest : List Nat}
    {c : Constraint} (fuel : Nat)
    (hp : s.pendingActivations = edge :: rest)
    (hc : s.constraints[edge]? = some c)
    (hns : ¬ c.source = c.target)
    (hinact : c.active = false) :
    IncSTN.propagateAll (fuel + 1) s =
      (match IncSTN.propagate fuel
        { s with
            pendingActivations := rest,
            constraints := s.constraints.set edge { c with active := true },
            activeForwardEdges := listPush s.activeForwardEdges c.source edge,
            activeBackwardEdges := listPush s.activeBackwardEdges c.target edge,
            trail := Event.edgeActivated edge :: s.trail } edge with
      | (.consistent, s2) => IncSTN.propagateAll fuel s2
      | r => r) := by
  rw [IncSTN.propagateAll.eq_def]
  dsimp only
  rw [hp]
  dsimp only
  rw [show ({ s with pendingActivations := rest } : IncSTN).constraints[edge]?
      = some c from hc]
  dsimp only
  rw [if_neg hns]
  rw [if_pos (show (!c.active) = true from by rw [hinact]; rfl)]

/-- From a fixed consistent state with an empty pending queue, the two
pending bound-edge activations left by add_node propagate without any
inconsistency: propagate_all returns Consistent (five units of fuel
beyond the drained queue suffice). -/
theorem propagateAll_addNode_consistent {s : IncSTN} {l u : Int}
    (hg : GoodCore s) (hF : FixF s) (hB : FixB s)
    (hpend : s.pendingActivations = []) (hlu : l ≤ u) :
    ∀ f : Nat, ∃ s', IncSTN.propagateAll (f + 5)
      ({ constraints := s.constraints ++
           [⟨true, false, 0, s.numNodes, u⟩, ⟨true, false, s.numNodes, 0, -l⟩],
         activeForwardEdges := s.activeForwardEdges ++ [[]],
         activeBackwardEdges := s.activeBackwardEdges ++ [[]],
         distances := s.distances ++
           [⟨u, some s.numEdges, false, -l, some (s.numEdges + 1), false⟩],
         trail := .newPendingActivation :: .newPendingActivation ::
           .edgeAdded :: .edgeAdded :: .nodeAdded :: s.trail,
         pendingActivations := s.pendingActivations ++ [s.numEdges, s.numEdges + 1],
         level := s.level,
         explanation := s.explanation } : IncSTN) = (.consistent, s') := by
  intro f
  set sA : IncSTN :=
      ({ constraints := s.constraints ++
           [⟨true, false, 0, s.numNodes, u⟩, ⟨true, false, s.numNodes, 0, -l⟩],
         activeForwardEdges := s.activeForwardEdges ++ [[]],
         activeBackwardEdges := s.activeBackwardEdges ++ [[]],
         distances := s.distances ++
           [⟨u, some s.numEdges, false, -l, some (s.numEdges + 1), false⟩],
         trail := .newPendingActivation :: .newPendingActivation ::
           .edgeAdded :: .edgeAdded :: .nodeAdded :: s.trail,
         pendingActivations := s.pendingActivations ++ [s.numEdges, s.numEdges + 1],
         level := s.level,
         explanation := s.explanation } : IncSTN) with hsA
  have hgA : GoodCore sA := goodCore_addNode hlu hg
  have hND : s.distances.length = s.activeForwardEdges.length :=
    hg.2.2.2.2.2.2.2.2.2.2.2.1.1
  have hN1 : 1 ≤ s.activeForwardEdges.length := hg.2.2.2.2.2.2.2.2.2.2.1
  have hNN : s.numNodes = s.activeForwardEdges.length := rfl
  have hNE : s.numEdges = s.constraints.length := rfl
  have hO : InvO s := hg.2.1
  have hRg : InvR s := hg.2.2.2.2.2.2.2.2.2.2.2.2
  have hcsA : ∀ e, sA.cstr e =
      if e < s.constraints.length then s.cstr e
      else if e = s.constraints.length then ⟨true, false, 0, s.numNodes, u⟩
      else if e = s.constraints.length + 1 then ⟨true, false, s.numNodes, 0, -l⟩
      else default := by
    intro e
    show (s.constraints ++ _).getD e default = _
    rw [getD_append_two]
    rfl
  have hdistA : ∀ n, sA.dist n =
      if n < s.distances.length then s.dist n
      else if n = s.distances.length then
        ⟨u, some s.numEdges, false, -l, some (s.numEdges + 1), false⟩
      else default := by
    intro n
    show (s.distances ++ _).getD n default = _
    rw [getD_append_one]
    rfl
  have hfdA : ∀ n, sA.fdist n =
      if n < s.distances.length then s.fdist n
      else if n = s.distances.length then u else 0 := by
    intro n
    by_cases hn : n < s.distances.length
    · rw [if_pos hn]
      unfold IncSTN.fdist
      rw [hdistA n, if_pos hn]
    · rw [if_neg hn]
      by_cases hn2 : n = s.distances.length
      · rw [if_pos hn2]
        unfold IncSTN.fdist
        rw [hdistA n, if_neg hn, if_pos hn2]
      · rw [if_neg hn2]
        unfold IncSTN.fdist
        rw [hdistA n, if_neg hn, if_neg hn2]
        rfl
  have hbdA : ∀ n, sA.bdist n =
      if n < s.distances.length then s.bdist n
      else if n = s.distances.length then -l else 0 := by
    intro n
    by_cases hn : n < s.distances.length
    · rw [if_pos hn]
      unfold IncSTN.bdist
      rw [hdistA n, if_pos hn]
    · rw [if_neg hn]
      by_cases hn2 : n = s.distances.length
      · rw [if_pos hn2]
        unfold IncSTN.bdist
        rw [hdistA n, if_neg hn, if_pos hn2]
      · rw [if_neg hn2]
        unfold IncSTN.bdist
        rw [hdistA n, if_neg hn, if_neg hn2]
        rfl
  have hFA : FixF sA := by
    intro e he hact
    rw [hcsA e] at hact ⊢
    by_cases h1 : e < s.constraints.length
    · rw [if_pos h1] at hact ⊢
      obtain ⟨c0, hc0⟩ := cstr_flag_in_range (Or.inr hact)
      have hbnds := hRg e c0 hc0
      have hcv : s.cstr e = c0 := cstr_of_get hc0
      rw [hfdA (s.cstr e).target, if_pos (by rw [hcv]; omega),
          hfdA (s.cstr e).source, if_pos (by rw [hcv]; omega)]
      exact fixF_at_edge hF hact
    · rw [if_neg h1] at hact
      by_cases h2 : e = s.constraints.length
      · rw [if_pos h2] at hact
        exact absurd hact (by simp)
      · rw [if_neg h2] at hact
        by_cases h3 : e = s.constraints.length + 1
        · rw [if_pos h3] at hact
          exact absurd hact (by simp)
        · rw [if_neg h3] at hact
          exact absurd hact (by decide)
  have hBA : FixB sA := by
    intro e he hact
    rw [hcsA e] at hact ⊢
    by_cases h1 : e < s.constraints.length
    · rw [if_pos h1] at hact ⊢
      obtain ⟨c0, hc0⟩ := cstr_flag_in_range (Or.inr hact)
      have hbnds := hRg e c0 hc0
      have hcv : s.cstr e = c0 := cstr_of_get hc0
      rw [hbdA (s.cstr e).source, if_pos (by rw [hcv]; omega),
          hbdA (s.cstr e).target, if_pos (by rw [hcv]; omega)]
      exact fixB_at_edge hB hact
    · rw [if_neg h1] at hact
      by_cases h2 : e = s.constraints.length
      · rw [if_pos h2] at hact
        exact absurd hact (by simp)
      · rw [if_neg h2] at hact
        by_cases h3 : e = s.constraints.length + 1
        · rw [if_pos h3] at hact
          exact absurd hact (by simp)
        · rw [if_neg h3] at hact
          exact absurd hact (by decide)
  have hfdAN : sA.fdist s.numNodes = u := by
    rw [hfdA s.numNodes, if_neg (by omega), if_pos (by omega)]
  have hfdA0 : sA.fdist 0 = 0 := by
    rw [hfdA 0, if_pos (by omega)]
    exact hO.1
  have hbdAN : sA.bdist s.numNodes = -l := by
    rw [hbdA s.numNodes, if_neg (by omega), if_pos (by omega)]
  have hbdA0 : sA.bdist 0 = 0 := by
    rw [hbdA 0, if_pos (by omega)]
    exact hO.2
  have hpA : sA.pendingActivations = s.numEdges :: [s.numEdges + 1] := by
    show s.pendingActivations ++ _ = _
    rw [hpend]
    rfl
  have hsplitc : s.constraints ++
      [(⟨true, false, 0, s.numNodes, u⟩ : Constraint),
       ⟨true, false, s.numNodes, 0, -l⟩]
      = (s.constraints ++ [⟨true, false, 0, s.numNodes, u⟩])
        ++ [⟨true, false, s.numNodes, 0, -l⟩] := by simp
  have hEget : sA.constraints[s.numEdges]?
      = some ⟨true, false, 0, s.numNodes, u⟩ := by
    show (s.constraints ++ _)[s.numEdges]? = _
    rw [hsplitc, List.getElem?_append_left
        (by simp only [List.length_append, List.length_cons, List.length_nil]; omega),
      hNE, List.getElem?_concat_length]
  have hE1get : sA.constraints[s.numEdges + 1]?
      = some ⟨true, false, s.numNodes, 0, -l⟩ := by
    show (s.constraints ++ _)[s.numEdges + 1]? = _
    have hL1 : (s.constraints ++
        [(⟨true, false, 0, s.numNodes, u⟩ : Constraint)]).length
        = s.numEdges + 1 := by simp [hNE]
    rw [hsplitc, ← hL1, List.getElem?_concat_length]
  -- first pop: activate the upper-bound edge and propagate
  show ∃ s', IncSTN.propagateAll (f + 4 + 1) sA = (.consistent, s')
  rw [propagateAll_step (f + 4) hpA hEget (by intro hcon; have : (0 : Nat) = s.numNodes := hcon; omega) rfl]
  have hgpop : GoodCore { sA with pendingActivations := [s.numEdges + 1] } :=
    goodCore_coreEq sA _ ⟨rfl, rfl, rfl, rfl⟩ hgA
  have hcpop : ({ sA with pendingActivations := [s.numEdges + 1] } : IncSTN).constraints[s.numEdges]?
      = some ⟨true, false, 0, s.numNodes, u⟩ := hEget
  obtain ⟨hF5, hB5⟩ := fix_activate hcpop
    (fun e he hact => hFA e he hact) (fun e he hact => hBA e he hact)
    (by show sA.fdist s.numNodes ≤ sA.fdist 0 + u
        rw [hfdAN, hfdA0]
        omega)
    (by show sA.bdist 0 ≤ sA.bdist s.numNodes + u
        rw [hbdA0, hbdAN]
        omega)
  have hg5 : GoodCore { { sA with pendingActivations := [s.numEdges + 1] } with
      constraints := ({ sA with pendingActivations := [s.numEdges + 1] } : IncSTN).constraints.set
        s.numEdges { (⟨true, false, 0, s.numNodes, u⟩ : Constraint) with active := true },
      activeForwardEdges := listPush
        ({ sA with pendingActivations := [s.numEdges + 1] } : IncSTN).activeForwardEdges 0 s.numEdges,
      activeBackwardEdges := listPush
        ({ sA with pendingActivations := [s.numEdges + 1] } : IncSTN).activeBackwardEdges s.numNodes s.numEdges,
      trail := Event.edgeActivated s.numEdges ::
        ({ sA with pendingActivations := [s.numEdges + 1] } : IncSTN).trail } :=
    goodCore_activate hcpop (by intro hcon; have : (0 : Nat) = s.numNodes := hcon; omega) hgpop
  obtain ⟨s6, hprop6, hce6, hpend6⟩ := propagate_fixed (f + 4) _ s.numEdges
    hF5 hB5 hg5.2.2.2.2.1 hg5.2.2.2.2.2.1 (by omega)
  rw [show IncSTN.propagate (f + 4)
      { sA with
          pendingActivations := [s.numEdges + 1],
          constraints := sA.constraints.set s.numEdges
            { (⟨true, false, 0, s.numNodes, u⟩ : Constraint) with active := true },
          activeForwardEdges := listPush sA.activeForwardEdges 0 s.numEdges,
          activeBackwardEdges := listPush sA.activeBackwardEdges s.numNodes s.numEdges,
          trail := Event.edgeActivated s.numEdges :: sA.trail } s.numEdges
      = (.consistent, s6) from hprop6]
  dsimp only
  -- second pop: activate the lower-bound edge and propagate
  have hp6 : s6.pendingActivations = (s.numEdges + 1) :: [] := hpend6
  have hc6 : s6.constraints = sA.constraints.set s.numEdges
      { (⟨true, false, 0, s.numNodes, u⟩ : Constraint) with active := true } :=
    hce6.1
  have hcB6 : s6.constraints[s.numEdges + 1]?
      = some ⟨true, false, s.numNodes, 0, -l⟩ := by
    rw [hc6, List.getElem?_set_ne (by omega : s.numEdges ≠ s.numEdges + 1)]
    exact hE1get
  have hF6 : FixF s6 := fixF_coreEq hce6.symm hF5
  have hB6 : FixB s6 := fixB_coreEq hce6.symm hB5
  have hg6 : GoodCore s6 := goodCore_coreEq _ _ hce6.symm hg5
  have hfd6 : ∀ n, s6.fdist n = sA.fdist n := fun n => coreEq_fdist hce6 n
  have hbd6 : ∀ n, s6.bdist n = sA.bdist n := fun n => coreEq_bdist hce6 n
  show ∃ s', IncSTN.propagateAll (f + 3 + 1) s6 = (.consistent, s')
  rw [propagateAll_step (f + 3) hp6 hcB6
    (by intro hcon; have : s.numNodes = (0 : Nat) := hcon; omega) rfl]
  have hgpop2 : GoodCore { s6 with pendingActivations := ([] : List Nat) } :=
    goodCore_coreEq s6 _ ⟨rfl, rfl, rfl, rfl⟩ hg6
  have hcBpop2 : ({ s6 with pendingActivations := ([] : List Nat) } : IncSTN).constraints[s.numEdges + 1]?
      = some ⟨true, false, s.numNodes, 0, -l⟩ := hcB6
  obtain ⟨hF7, hB7⟩ := fix_activate hcBpop2
    (fun e he hact => fixF_coreEq (⟨rfl, rfl, rfl, rfl⟩ : CoreEq s6 _) hF6 e he hact)
    (fun e he hact => fixB_coreEq (⟨rfl, rfl, rfl, rfl⟩ : CoreEq s6 _) hB6 e he hact)
    (by show s6.fdist 0 ≤ s6.fdist s.numNodes + -l
        rw [hfd6 0, hfd6 s.numNodes, hfdA0, hfdAN]
        omega)
    (by show s6.bdist s.numNodes ≤ s6.bdist 0 + -l
        rw [hbd6 s.numNodes, hbd6 0, hbdAN, hbdA0]
        omega)
  have hg7 : GoodCore { { s6 with pendingActivations := ([] : List Nat) } with
      constraints := ({ s6 with pendingActivations := ([] : List Nat) } : IncSTN).constraints.set
        (s.numEdges + 1)
        { (⟨true, false, s.numNodes, 0, -l⟩ : Constraint) with active := true },
      activeForwardEdges := listPush
        ({ s6 with pendingActivations := ([] : List Nat) } : IncSTN).activeForwardEdges
        s.numNodes (s.numEdges + 1),
      activeBackwardEdges := listPush
        ({ s6 with pendingActivations := ([] : List Nat) } : IncSTN).activeBackwardEdges
        0 (s.numEdges + 1),
      trail := Event.edgeActivated (s.numEdges + 1) ::
        ({ s6 with pendingActivations := ([] : List Nat) } : IncSTN).trail } :=
    goodCore_activate hcBpop2
      (by intro hcon; have : s.numNodes = (0 : Nat) := hcon; omega) hgpop2
  obtain ⟨s8, hprop8, hce8, hpend8⟩ := propagate_fixed (f + 3) _ (s.numEdges + 1)
    hF7 hB7 hg7.2.2.2.2.1 hg7.2.2.2.2.2.1 (by omega)
  rw [show IncSTN.propagate (f + 3)
      { s6 with
          pendingActivations := ([] : List Nat),
          constraints := s6.constraints.set (s.numEdges + 1)
            { (⟨true, false, s.numNodes, 0, -l⟩ : Constraint) with active := true },
          activeForwardEdges := listPush s6.activeForwardEdges s.numNodes (s.numEdges + 1),
          activeBackwardEdges := listPush s6.activeBackwardEdges 0 (s.numEdges + 1),
          trail := Event.edgeActivated (s.numEdges + 1) :: s6.trail } (s.numEdges + 1)
      = (.consistent, s8) from hprop8]
  dsimp only
  refine ⟨s8, propagateAll_nil ?_ (f + 3)⟩
  rw [hpend8]

/-- C5: add_node(lb, ub) panics (returns none in the embedding) exactly
when lb > ub; under lb ≤ ub it returns the previous node count as the
fresh id, pushes exactly the two internal bound edges origin→id (weight
ub) and id→origin (weight -lb), marks both for activation (they are
appended to the pending queue), establishes lb(id) = lb and ub(id) = ub,
and — from a reachable, relaxation-fixed state with no other pending
activation — the subsequent propagate_all returns Consistent, never
Inconsistent. -/
theorem c5_add_node_contract (s : STN.IncSTN) (l u : Int) :
    (s.addNode l u = none ↔ u < l) ∧
    (∀ s1 id, s.addNode l u = some (s1, id) →
      l ≤ u ∧
      id = s.numNodes ∧
      s1.constraints = s.constraints ++
        [⟨true, false, 0, s.numNodes, u⟩, ⟨true, false, s.numNodes, 0, -l⟩] ∧
      s1.pendingActivations
        = s.pendingActivations ++ [s.numEdges, s.numEdges + 1] ∧
      (STN.Reachable s → s1.lb id = l ∧ s1.ub id = u) ∧
      (STN.Reachable s → STN.FixF s → STN.FixB s →
        s.pendingActivations = [] →
        ∀ f : Nat, ∃ s2,
          STN.IncSTN.propagateAll (f + 5) s1 = (.consistent, s2))) := by
  constructor
  · constructor
    · intro hn
      by_contra hc
      have hlu : l ≤ u := by omega
      rw [STN.addNode_eq s l u hlu] at hn
      cases hn
    · intro hul
      unfold STN.IncSTN.addNode
      rw [if_neg (by omega)]
  · intro s1 id h
    have hlu : l ≤ u := by
      by_contra hc
      unfold STN.IncSTN.addNode at h
      rw [if_neg hc] at h
      cases h
    rw [STN.addNode_eq s l u hlu] at h
    simp only [Option.some.injEq, Prod.mk.injEq] at h
    obtain ⟨hs1, hid⟩ := h
    subst hs1
    subst hid
    refine ⟨hlu, rfl, rfl, rfl, ?_, ?_⟩
    · intro hreach
      have hg := STN.reachable_goodCore hreach
      have hND : s.distances.length = s.activeForwardEdges.length :=
        hg.2.2.2.2.2.2.2.2.2.2.2.1.1
      have hrec : (s.distances ++
          [(⟨u, some s.numEdges, false, -l, some (s.numEdges + 1), false⟩ :
            STN.Distance)]).getD s.numNodes default
          = ⟨u, some s.numEdges, false, -l, some (s.numEdges + 1), false⟩ := by
        rw [STN.getD_append_one, if_neg (by
            show ¬ s.activeForwardEdges.length < s.distances.length
            omega),
          if_pos (by
            show s.activeForwardEdges.length = s.distances.length
            omega)]
      constructor
      · show -((STN.IncSTN.dist _ s.numNodes).backward) = l
        show -(((s.distances ++ _).getD s.numNodes default).backward) = l
        rw [hrec]
        show -(-l) = l
        omega
      · show (STN.IncSTN.dist _ s.numNodes).forward = u
        show ((s.distances ++ _).getD s.numNodes default).forward = u
        rw [hrec]
    · intro hreach hF hB hpend f
      exact STN.propagateAll_addNode_consistent
        (STN.reachable_goodCore hreach) hF hB hpend hlu f

/-- C5 witness: from the drained initial network (one node, empty pending
queue), add_node(1, 3) returns id 1 with lb 1/ub 3, the two internal
edges go on the pending queue, and propagate_all returns Consistent. -/
theorem c5_witness :
    STN.IncSTN.addNode (STN.IncSTN.propagateAll 10 STN.IncSTN.new).2 1 3
      = some
        ((((STN.IncSTN.propagateAll 10 STN.IncSTN.new).2.addNode 1 3).getD
            ((STN.IncSTN.propagateAll 10 STN.IncSTN.new).2, 0)).1,
          (STN.IncSTN.propagateAll 10 STN.IncSTN.new).2.numNodes)
    ∧ ((((STN.IncSTN.propagateAll 10 STN.IncSTN.new).2.addNode 1 3).getD
          ((STN.IncSTN.propagateAll 10 STN.IncSTN.new).2, 0)).1.lb
        (STN.IncSTN.propagateAll 10 STN.IncSTN.new).2.numNodes = 1
      ∧ (((STN.IncSTN.propagateAll 10 STN.IncSTN.new).2.addNode 1 3).getD
          ((STN.IncSTN.propagateAll 10 STN.IncSTN.new).2, 0)).1.ub
        (STN.IncSTN.propagateAll 10 STN.IncSTN.new).2.numNodes = 3)
    ∧ (∃ s2, STN.IncSTN.propagateAll (0 + 5)
        ((((STN.IncSTN.propagateAll 10 STN.IncSTN.new).2.addNode 1 3).getD
          ((STN.IncSTN.propagateAll 10 STN.IncSTN.new).2, 0)).1)
        = (.consistent, s2)) := by
  have hmain := (c5_add_node_contract (STN.IncSTN.propagateAll 10 STN.IncSTN.new).2 1 3).2
    (((STN.IncSTN.propagateAll 10 STN.IncSTN.new).2.addNode 1 3).getD
      ((STN.IncSTN.propagateAll 10 STN.IncSTN.new).2, 0)).1
    (STN.IncSTN.propagateAll 10 STN.IncSTN.new).2.numNodes rfl
  refine ⟨rfl, ?_, ?_⟩
  · exact hmain.2.2.2.2.1 ⟨[.propagateAll 10], rfl⟩
  · exact hmain.2.2.2.2.2 ⟨[.propagateAll 10], rfl⟩
      (by unfold STN.FixF; decide) (by unfold STN.FixB; decide) rfl 0
